import Mathlib

/-!
# Simple Checkers engine (`src/src/simplech.c`): a shallow embedding

The engine works on one global board `cboard[46]` of `uint8_t` cells and on
moves `struct move2 { short n; int m[8]; }` whose legs are packed integers
`after << 16 | before << 8 | square`.

Conventions of the embedding

* `Board` is the list of the 46 cells.  A read outside the list yields
  `OCCUPIED` (0) and a write outside the list is dropped; C indices `i - k`
  are natural-number subtractions (an index below 0 becomes 0).  The loops run
  over `i = 5 .. 40`, and a jump offset is only read after the adjacent cell
  was found to hold a piece.
* A `move2` is the list of its legs `m[0] .. m[n-1]`; the field `n` is the
  length of the list.  The C array has 8 slots; the embedding keeps every leg
  the generator writes, so that the bound `n <= 8` is a statement about the
  generators rather than an assumption.
* The move list `movelist[MAXMOVES]` with its counter `n` is the list of the
  finished moves, in generation order.
* Recursive helpers take a `fuel` argument and recurse structurally on it.
  A chain helper out of fuel answers like a helper that finds no jump; the
  theorems `kingcapture_fuel_stable`, `blackmancapture_fuel_stable` and
  `whitemancapture_fuel_stable` show that the fuel `generatecapturelist` hands
  over is never used up.  The search functions report `nofuel` instead.
* The search functions thread a `State` (board, cancel flag `*play`, pending
  key codes of `os_GetCSC`, and a ghost `trace` of the calls made).
-/

namespace Checkers

/-! ## Constants of `simplech.h` -/

def OCCUPIED : Nat := 0
def WHITE : Nat := 1
def BLACK : Nat := 2
def MAN : Nat := 4
def KING : Nat := 8
def FREE : Nat := 16
def CHANGECOLOR : Nat := 3

/-- Fuel handed to the capture-chain helpers by `generatecapturelist`. -/
def CHAINFUEL : Nat := 46

/-! ## Board and moves -/

abbrev Board := List Nat

abbrev move2 := List Nat

/-- The read `cboard[i]`. -/
def rd (cb : Board) (i : Nat) : Nat := cb.getD i 0

/-- The write `cboard[i] = v`. -/
def wr (cb : Board) (i v : Nat) : Board := cb.set i v

/-- The packed leg built by `m = after; m <<= 8; m += before; m <<= 8; m += square`. -/
def leg (after before square : Nat) : Nat := (((after <<< 8) + before) <<< 8) + square

/-- Cells `0..4`, `9, 18, 27, 36` and `41..45`. -/
def sentinel (i : Nat) : Bool := i < 5 || i % 9 == 0 || 40 < i

/-- Values of a playable cell: `FREE` or one colour flag plus one rank flag. -/
def playable (v : Nat) : Bool := v == 16 || v == 5 || v == 6 || v == 9 || v == 10

/-- Well-formed internal board: 46 cells, sentinels `OCCUPIED`, every other
cell `FREE` or a colour+rank piece. -/
def wellformed (cb : Board) : Bool :=
  cb.length == 46 &&
    (List.range 46).all (fun i => if sentinel i then rd cb i == 0 else playable (rd cb i))

/-- Function `domove`: for each leg in order, `cboard[square] = after`. -/
def domove (cb : Board) (move : move2) : Board :=
  move.foldl (fun b m => wr b (m % 256) ((m >>> 16) % 256)) cb

/-- Function `undomove`: for each leg in the same (forward) order, `cboard[square] = before`. -/
def undomove (cb : Board) (move : move2) : Board :=
  move.foldl (fun b m => wr b (m % 256) ((m >>> 8) % 256)) cb

/-! ## Quiet move generation (`generatemovelist`) -/

/-- One `if ((cboard[j] & FREE) != 0) { ... n++; }` block of `generatemovelist`. -/
def quiet (cb : Board) (i j after before : Nat) : List move2 :=
  if rd cb j &&& FREE ≠ 0 then [[leg FREE before i, leg after FREE j]] else []

/-- Body of the `color == BLACK` loop of `generatemovelist` at cell `i`. -/
def blackmoves (cb : Board) (i : Nat) : List move2 :=
  if rd cb i &&& BLACK ≠ 0 then
    (if rd cb i &&& MAN ≠ 0 then
      quiet cb i (i + 4) (if i ≥ 32 then BLACK ||| KING else BLACK ||| MAN) (BLACK ||| MAN) ++
      quiet cb i (i + 5) (if i ≥ 32 then BLACK ||| KING else BLACK ||| MAN) (BLACK ||| MAN)
    else []) ++
    (if rd cb i &&& KING ≠ 0 then
      quiet cb i (i + 4) (BLACK ||| KING) (BLACK ||| KING) ++
      quiet cb i (i + 5) (BLACK ||| KING) (BLACK ||| KING) ++
      quiet cb i (i - 4) (BLACK ||| KING) (BLACK ||| KING) ++
      quiet cb i (i - 5) (BLACK ||| KING) (BLACK ||| KING)
    else [])
  else []

/-- Body of the `else` (white) loop of `generatemovelist` at cell `i`. -/
def whitemoves (cb : Board) (i : Nat) : List move2 :=
  if rd cb i &&& WHITE ≠ 0 then
    (if rd cb i &&& MAN ≠ 0 then
      quiet cb i (i - 4) (if i ≤ 13 then WHITE ||| KING else WHITE ||| MAN) (WHITE ||| MAN) ++
      quiet cb i (i - 5) (if i ≤ 13 then WHITE ||| KING else WHITE ||| MAN) (WHITE ||| MAN)
    else []) ++
    (if rd cb i &&& KING ≠ 0 then
      quiet cb i (i + 4) (WHITE ||| KING) (WHITE ||| KING) ++
      quiet cb i (i + 5) (WHITE ||| KING) (WHITE ||| KING) ++
      quiet cb i (i - 4) (WHITE ||| KING) (WHITE ||| KING) ++
      quiet cb i (i - 5) (WHITE ||| KING) (WHITE ||| KING)
    else [])
  else []

/-- Function `generatemovelist`: the moves appended for `i = 5 .. 40`, in order. -/
def generatemovelist (cb : Board) (color : Nat) : List move2 :=
  if color = BLACK then (List.range' 5 36).flatMap (blackmoves cb)
  else (List.range' 5 36).flatMap (whitemoves cb)

/-! ## Capture generation -/

/-- The test `(cboard[a] & opp) != 0` followed by `(cboard[l] & FREE) != 0`. -/
def canjump (cb : Board) (opp a l : Nat) : Bool :=
  (rd cb a &&& opp != 0) && (rd cb l &&& FREE != 0)

/-- The update `move.n++; move.m[1] = land; move.m[move.n - 1] = cap`. -/
def extend (org : move2) (land cap : Nat) : move2 := org.set 1 land ++ [cap]

/-- Function `blackmancapture(n, movelist, i)` with `orgmove = movelist[*n]`; returns the
moves it appends.  The board is only read. -/
def blackmancapture : Nat → Board → move2 → Nat → List move2
  | 0, _, orgmove, _ => [orgmove]
  | f + 1, cb, orgmove, i =>
    let a := if canjump cb WHITE (i + 4) (i + 8) then
        blackmancapture f cb
          (extend orgmove (leg (if i ≥ 28 then BLACK ||| KING else BLACK ||| MAN) FREE (i + 8))
            (leg FREE (rd cb (i + 4)) (i + 4))) (i + 8)
      else []
    let b := if canjump cb WHITE (i + 5) (i + 10) then
        blackmancapture f cb
          (extend orgmove (leg (if i ≥ 28 then BLACK ||| KING else BLACK ||| MAN) FREE (i + 10))
            (leg FREE (rd cb (i + 5)) (i + 5))) (i + 10)
      else []
    if canjump cb WHITE (i + 4) (i + 8) || canjump cb WHITE (i + 5) (i + 10) then a ++ b
    else [orgmove]

/-- Function `whitemancapture(n, movelist, i)` with `orgmove = movelist[*n]`. -/
def whitemancapture : Nat → Board → move2 → Nat → List move2
  | 0, _, orgmove, _ => [orgmove]
  | f + 1, cb, orgmove, i =>
    let a := if canjump cb BLACK (i - 4) (i - 8) then
        whitemancapture f cb
          (extend orgmove (leg (if i ≤ 17 then WHITE ||| KING else WHITE ||| MAN) FREE (i - 8))
            (leg FREE (rd cb (i - 4)) (i - 4))) (i - 8)
      else []
    let b := if canjump cb BLACK (i - 5) (i - 10) then
        whitemancapture f cb
          (extend orgmove (leg (if i ≤ 17 then WHITE ||| KING else WHITE ||| MAN) FREE (i - 10))
            (leg FREE (rd cb (i - 5)) (i - 5))) (i - 10)
      else []
    if canjump cb BLACK (i - 4) (i - 8) || canjump cb BLACK (i - 5) (i - 10) then a ++ b
    else [orgmove]

/-- One direction block of a king helper: test, extend the move, remove the
jumped piece (`tmp = cboard[a]; cboard[a] = FREE`), recurse from the landing
cell `l`, put the piece back (`cboard[a] = tmp`).  The state is the board, the
moves appended so far and `found`. -/
def kingdir (self : Board → move2 → Nat → Board × List move2) (me opp : Nat)
    (orgmove : move2) (a l : Nat) (st : Board × List move2 × Bool) : Board × List move2 × Bool :=
  if canjump st.1 opp a l then
    let r := self (wr st.1 a FREE) (extend orgmove (leg me FREE l) (leg FREE (rd st.1 a) a)) l
    (wr r.1 a (rd st.1 a), st.2.1 ++ r.2, true)
  else st

/-- Common shape of `blackkingcapture` (`me = BLACK|KING`, `opp = WHITE`) and
`whitekingcapture` (`me = WHITE|KING`, `opp = BLACK`): the directions are tried
in the order `-4, -5, +4, +5`, and `(*n)++` happens when none was found. -/
def kingcapture (me opp : Nat) : Nat → Board → move2 → Nat → Board × List move2
  | 0, cb, orgmove, _ => (cb, [orgmove])
  | f + 1, cb, orgmove, i =>
    let s1 := kingdir (kingcapture me opp f) me opp orgmove (i - 4) (i - 8) (cb, [], false)
    let s2 := kingdir (kingcapture me opp f) me opp orgmove (i - 5) (i - 10) s1
    let s3 := kingdir (kingcapture me opp f) me opp orgmove (i + 4) (i + 8) s2
    let s4 := kingdir (kingcapture me opp f) me opp orgmove (i + 5) (i + 10) s3
    if s4.2.2 then (s4.1, s4.2.1) else (s4.1, [orgmove])

def blackkingcapture : Nat → Board → move2 → Nat → Board × List move2 :=
  kingcapture (BLACK ||| KING) WHITE

def whitekingcapture : Nat → Board → move2 → Nat → Board × List move2 :=
  kingcapture (WHITE ||| KING) BLACK

/-- One man block of `generatecapturelist`: a 3-leg move is started in
`movelist[n]` and the man helper continues it from the landing cell. -/
def manfirst (helper : Nat → Board → move2 → Nat → List move2) (opp man after : Nat)
    (i a l : Nat) (st : Board × List move2) : Board × List move2 :=
  if canjump st.1 opp a l then
    (st.1, st.2 ++ helper CHAINFUEL st.1 [leg FREE man i, leg after FREE l, leg FREE (rd st.1 a) a] l)
  else st

/-- One king block of `generatecapturelist`: start the 3-leg move, clear the
jumped cell and the origin, run the king helper, then restore the jumped cell
and write the king back on the origin (`cboard[i] = colour | KING`). -/
def kingfirst (me opp : Nat) (i a l : Nat) (st : Board × List move2) : Board × List move2 :=
  if canjump st.1 opp a l then
    let r := kingcapture me opp CHAINFUEL (wr (wr st.1 a FREE) i FREE)
      [leg FREE me i, leg me FREE l, leg FREE (rd st.1 a) a] l
    (wr (wr r.1 a (rd st.1 a)) i me, st.2 ++ r.2)
  else st

/-- Body of the `color == BLACK` loop of `generatecapturelist` at cell `i`. -/
def blackcaptures (st : Board × List move2) (i : Nat) : Board × List move2 :=
  if rd st.1 i &&& BLACK ≠ 0 then
    if rd st.1 i &&& MAN ≠ 0 then
      let p := if i ≥ 28 then BLACK ||| KING else BLACK ||| MAN
      let s1 := manfirst blackmancapture WHITE (BLACK ||| MAN) p i (i + 4) (i + 8) st
      manfirst blackmancapture WHITE (BLACK ||| MAN) p i (i + 5) (i + 10) s1
    else
      let s1 := kingfirst (BLACK ||| KING) WHITE i (i + 4) (i + 8) st
      let s2 := kingfirst (BLACK ||| KING) WHITE i (i + 5) (i + 10) s1
      let s3 := kingfirst (BLACK ||| KING) WHITE i (i - 4) (i - 8) s2
      kingfirst (BLACK ||| KING) WHITE i (i - 5) (i - 10) s3
  else st

/-- Body of the white loop of `generatecapturelist` at cell `i`. -/
def whitecaptures (st : Board × List move2) (i : Nat) : Board × List move2 :=
  if rd st.1 i &&& WHITE ≠ 0 then
    if rd st.1 i &&& MAN ≠ 0 then
      let p := if i ≤ 17 then WHITE ||| KING else WHITE ||| MAN
      let s1 := manfirst whitemancapture BLACK (WHITE ||| MAN) p i (i - 4) (i - 8) st
      manfirst whitemancapture BLACK (WHITE ||| MAN) p i (i - 5) (i - 10) s1
    else
      let s1 := kingfirst (WHITE ||| KING) BLACK i (i + 4) (i + 8) st
      let s2 := kingfirst (WHITE ||| KING) BLACK i (i + 5) (i + 10) s1
      let s3 := kingfirst (WHITE ||| KING) BLACK i (i - 4) (i - 8) s2
      kingfirst (WHITE ||| KING) BLACK i (i - 5) (i - 10) s3
  else st

/-- Function `generatecapturelist`: returns the board it leaves behind and the move
list; the count `n` it returns is the length of the list. -/
def generatecapturelist (cb : Board) (color : Nat) : Board × List move2 :=
  if color = BLACK then (List.range' 5 36).foldl blackcaptures (cb, [])
  else (List.range' 5 36).foldl whitecaptures (cb, [])

/-- Body of the `color == BLACK` loop of `testcapture`: does cell `i` return 1? -/
def blacktest (cb : Board) (i : Nat) : Bool :=
  if rd cb i &&& BLACK ≠ 0 then
    if rd cb i &&& MAN ≠ 0 then
      canjump cb WHITE (i + 4) (i + 8) || canjump cb WHITE (i + 5) (i + 10)
    else
      canjump cb WHITE (i + 4) (i + 8) || canjump cb WHITE (i + 5) (i + 10) ||
        canjump cb WHITE (i - 4) (i - 8) || canjump cb WHITE (i - 5) (i - 10)
  else false

/-- Body of the white loop of `testcapture`. -/
def whitetest (cb : Board) (i : Nat) : Bool :=
  if rd cb i &&& WHITE ≠ 0 then
    if rd cb i &&& MAN ≠ 0 then
      canjump cb BLACK (i - 4) (i - 8) || canjump cb BLACK (i - 5) (i - 10)
    else
      canjump cb BLACK (i + 4) (i + 8) || canjump cb BLACK (i + 5) (i + 10) ||
        canjump cb BLACK (i - 4) (i - 8) || canjump cb BLACK (i - 5) (i - 10)
  else false

/-- Function `testcapture`: 1 as soon as some cell of `5..40` passes the test, else 0. -/
def testcapture (cb : Board) (color : Nat) : Nat :=
  if color = BLACK then (if (List.range' 5 36).any (blacktest cb) then 1 else 0)
  else (if (List.range' 5 36).any (whitetest cb) then 1 else 0)

/-! ## Evaluation -/

def value : List Nat := [0, 0, 0, 0, 0, 1, 256, 0, 0, 16, 4096, 0, 0, 0, 0, 0, 0]
def edge : List Nat := [5, 6, 7, 8, 13, 14, 22, 23, 31, 32, 37, 38, 39, 40]
def center : List Nat := [15, 16, 20, 21, 24, 25, 29, 30]
def row : List Int :=
  [0, 0, 0, 0, 0, 0, 0, 0, 0, 0, 1, 1, 1, 1, 2, 2, 2, 2, 0, 3, 3, 3, 3, 4, 4, 4, 4, 0,
   5, 5, 5, 5, 6, 6, 6, 6, 0, 7, 7, 7, 7]
def safeedge : List Nat := [8, 13, 32, 37]
def brg : List Int := [0, -1, 1, 0, 1, 1, 2, 1, 1, 0, 7, 4, 2, 2, 9, 8]

/-- Number of cells of `cells` holding exactly `v`. -/
def countcells (cb : Board) (cells : List Nat) (v : Nat) : Int :=
  ((cells.filter (fun i => rd cb i == v)).length : Int)

/-- The packed piece count `code += value[cboard[i]]` for `i = 5 .. 40`. -/
def materialcode (cb : Board) : Nat :=
  ((List.range' 5 36).map (fun i => value.getD (rd cb i) 0)).sum

/-- The `tempo` loop over `i = 5 .. 40`. -/
def tempoterm (cb : Board) : Int :=
  (List.range' 5 36).foldl (fun t i =>
    let t1 := if rd cb i = (BLACK ||| MAN) then t + row.getD i 0 else t
    if rd cb i = (WHITE ||| MAN) then t1 - (7 - row.getD i 0) else t1) 0

/-- The four `if (nm + nk <= ..)` steps of the move-parity term; `sgn` is `1`
for the `eval++` branch and `-1` for the `eval--` branch. -/
def themove (total : Nat) (sgn : Int) : Int :=
  (if total ≤ 12 then sgn else 0) + (if total ≤ 10 then sgn else 0) +
  (if total ≤ 8 then 2 * sgn else 0) + (if total ≤ 6 then 2 * sgn else 0)

/-- The nested loops `for (i = lo; i <= lo + 3; i++) for (; j < 4; j++)` of the
move-parity term.  With `reset = false` (the BLACK branch, where `j` is
initialised once before the outer loop) the inner loop runs only for the first
`i`; with `reset = true` (the WHITE branch, `for (j = 0; ...)`) it runs for
every `i`. -/
def stones (cb : Board) (lo : Nat) (reset : Bool) : Nat :=
  ((List.range' lo 4).foldl (fun (st : Nat × Nat) i =>
    let j0 := if reset then 0 else st.2
    ((List.range' j0 (4 - j0)).foldl
        (fun c j => if rd cb (i + 9 * j) ≠ FREE then c + 1 else c) st.1, 4)) (0, 0)).1

/-- Function `evaluation(color)`; `none` stands for the division by zero in
`(250 * (v1 - v2)) / (v1 + v2)` when `v1 + v2 = 0`. -/
def evaluation (cb : Board) (color : Nat) : Option Int :=
  let code := materialcode cb
  let nwm := code % 16
  let nwk := (code >>> 4) % 16
  let nbm := (code >>> 8) % 16
  let nbk := (code >>> 12) % 16
  let v1 : Int := 100 * nbm + 130 * nbk
  let v2 : Int := 100 * nwm + 130 * nwk
  if v1 + v2 = 0 then none else
  let eval : Int := v1 - v2
  let eval := eval + Int.tdiv (250 * (v1 - v2)) (v1 + v2)
  let nm := nbm + nwm
  let nk := nbk + nwk
  let eval := if color = BLACK then eval + 2 else eval - 2
  -- cramp
  let eval := if rd cb 23 = (BLACK ||| MAN) ∧ rd cb 28 = (WHITE ||| MAN) then eval + 5 else eval
  let eval := if rd cb 22 = (WHITE ||| MAN) ∧ rd cb 17 = (BLACK ||| MAN) then eval - 5 else eval
  -- back rank guard
  let code1 := (if rd cb 5 &&& MAN ≠ 0 then 1 else 0) + (if rd cb 6 &&& MAN ≠ 0 then 2 else 0) +
    (if rd cb 7 &&& MAN ≠ 0 then 4 else 0) + (if rd cb 8 &&& MAN ≠ 0 then 8 else 0)
  let code2 := (if rd cb 37 &&& MAN ≠ 0 then 8 else 0) + (if rd cb 38 &&& MAN ≠ 0 then 4 else 0) +
    (if rd cb 39 &&& MAN ≠ 0 then 2 else 0) + (if rd cb 40 &&& MAN ≠ 0 then 1 else 0)
  let backrank := brg.getD code1 0 - brg.getD code2 0
  let eval := eval + 3 * backrank
  -- intact double corner
  let eval := if rd cb 8 = (BLACK ||| MAN) ∧
      (rd cb 12 = (BLACK ||| MAN) ∨ rd cb 13 = (BLACK ||| MAN)) then eval + 3 else eval
  let eval := if rd cb 37 = (WHITE ||| MAN) ∧
      (rd cb 32 = (WHITE ||| MAN) ∨ rd cb 33 = (WHITE ||| MAN)) then eval - 3 else eval
  -- center control
  let eval := eval + (countcells cb center (BLACK ||| MAN) - countcells cb center (WHITE ||| MAN)) * 1
  let eval := eval + (countcells cb center (BLACK ||| KING) - countcells cb center (WHITE ||| KING)) * 5
  -- edge
  let eval := eval - (countcells cb edge (BLACK ||| MAN) - countcells cb edge (WHITE ||| MAN)) * 1
  let eval := eval - (countcells cb edge (BLACK ||| KING) - countcells cb edge (WHITE ||| KING)) * 5
  -- tempo
  let tempo := tempoterm cb
  let eval := if nm ≥ 16 then eval + (-2) * tempo else eval
  let eval := if nm ≤ 15 ∧ nm ≥ 12 then eval + (-1) * tempo else eval
  let eval := if nm < 9 then eval + 2 * tempo else eval
  -- kings on the safe edge
  let eval := if nbk + nbm > nwk + nwm ∧ nwk < 3 then
      eval - 15 * countcells cb safeedge (WHITE ||| KING) else eval
  let eval := if nwk + nwm > nbk + nbm ∧ nbk < 3 then
      eval + 15 * countcells cb safeedge (BLACK ||| KING) else eval
  -- the move
  let eval := if nwm + nwk = nbk + nbm then
      (if color = BLACK then
        (if stones cb 5 false % 2 ≠ 0 then eval + themove (nm + nk) 1
         else eval + themove (nm + nk) (-1))
      else
        (if stones cb 10 true % 2 = 0 then eval + themove (nm + nk) 1
         else eval + themove (nm + nk) (-1)))
    else eval
  some eval

/-! ## Search -/

/-- Ghost record of the calls made by the search layer. -/
inductive Call where
  | firstalphabeta | alphabeta | testcapture | generatemovelist | generatecapturelist
  | evaluation | getcsc
  deriving DecidableEq, Repr

/-- Everything the search reads and writes: the board, the cancel flag `*play`,
the key codes the coming `os_GetCSC()` calls will return (0 once used up), and
the ghost trace. -/
structure State where
  cboard : Board
  play : Int
  keys : List Nat
  trace : List Call
  deriving DecidableEq, Repr

/-- Result of a search function: a value, or running out of fuel, or the
division by zero of `evaluation`. -/
inductive Outcome (α : Type) where
  | ok (a : α)
  | nofuel
  | divzero
  deriving DecidableEq, Repr

def State.log (s : State) (c : Call) : State := { s with trace := s.trace ++ [c] }

def State.setboard (s : State) (cb : Board) : State := { s with cboard := cb }

/-- The part of `alphabeta` and `firstalphabeta` between the cancel test and
the move loop: `inl` is an early return, `inr` the effective depth and the
move list to search. -/
def prelude (depth : Nat) (color : Nat) (s : State) :
    Outcome (Int × State) ⊕ (Nat × List move2 × State) :=
  let capture := testcapture s.cboard color
  let s := s.log Call.testcapture
  if depth = 0 ∧ capture = 0 then
    Sum.inl (match evaluation s.cboard color with
      | some v => Outcome.ok (v, s.log Call.evaluation)
      | none => Outcome.divzero)
  else
    let depth := if depth = 0 then 1 else depth
    if capture = 0 then
      let movelist := generatemovelist s.cboard color
      let s := s.log Call.generatemovelist
      if movelist.length = 0 then
        Sum.inl (Outcome.ok (if color = BLACK then -5000 else 5000, s))
      else Sum.inr (depth, movelist, s)
    else
      let r := generatecapturelist s.cboard color
      Sum.inr (depth, r.2, (s.setboard r.1).log Call.generatecapturelist)

/-- The move loop of `alphabeta`; `self` is the recursive call
`alphabeta(depth - 1, alpha, beta, color ^ CHANGECOLOR)`. -/
def abloop (self : Int → Int → State → Outcome (Int × State)) (color : Nat) :
    List move2 → Int → Int → State → Outcome (Int × State)
  | [], alpha, beta, s => Outcome.ok (if color = BLACK then alpha else beta, s)
  | mv :: rest, alpha, beta, s =>
    match self alpha beta (s.setboard (domove s.cboard mv)) with
    | Outcome.ok (v, s1) =>
      let s2 := s1.setboard (undomove s1.cboard mv)
      if color = BLACK ∧ v ≥ beta then Outcome.ok (v, s2)
      else
        let alpha1 := if color = BLACK ∧ v > alpha then v else alpha
        if color = WHITE ∧ v ≤ alpha1 then Outcome.ok (v, s2)
        else
          let beta1 := if color = WHITE ∧ v < beta then v else beta
          abloop self color rest alpha1 beta1 s2
    | Outcome.nofuel => Outcome.nofuel
    | Outcome.divzero => Outcome.divzero

/-- Body of `alphabeta` over the recursive call `self`. -/
def abnode (self : Nat → Int → Int → Nat → State → Outcome (Int × State))
    (depth : Nat) (alpha beta : Int) (color : Nat) (s : State) : Outcome (Int × State) :=
  let s := s.log Call.alphabeta
  if s.play ≠ 0 then Outcome.ok (0, s)
  else
    match prelude depth color s with
    | Sum.inl r => r
    | Sum.inr (d, movelist, s1) =>
      abloop (fun a b t => self (d - 1) a b (color ^^^ CHANGECOLOR) t) color movelist alpha beta s1

/-- Function `alphabeta(depth, alpha, beta, color)`; the fuel bounds the nesting of
recursive calls. -/
def alphabeta : Nat → Nat → Int → Int → Nat → State → Outcome (Int × State)
  | 0 => abnode (fun _ _ _ _ _ => Outcome.nofuel)
  | f + 1 => abnode (alphabeta f)

/-- The move loop of `firstalphabeta`, which polls `os_GetCSC()` before each
move and records the move that improved the bound in `*best`. -/
def firstloop (self : Int → Int → State → Outcome (Int × State)) (color : Nat) :
    List move2 → Int → Int → move2 → State → Outcome (Int × move2 × State)
  | [], alpha, beta, best, s => Outcome.ok (if color = BLACK then alpha else beta, best, s)
  | mv :: rest, alpha, beta, best, s =>
    let key := s.keys.headD 0
    let s := { s with keys := s.keys.tail, trace := s.trace ++ [Call.getcsc] }
    if key = 15 then Outcome.ok (0, best, { s with play := 1 })
    else
      match self alpha beta (s.setboard (domove s.cboard mv)) with
      | Outcome.ok (v, s1) =>
        let s2 := s1.setboard (undomove s1.cboard mv)
        if color = BLACK ∧ v ≥ beta then Outcome.ok (v, best, s2)
        else
          let alpha1 := if color = BLACK ∧ v > alpha then v else alpha
          let best1 := if color = BLACK ∧ v > alpha then mv else best
          if color = WHITE ∧ v ≤ alpha1 then Outcome.ok (v, best1, s2)
          else
            let beta1 := if color = WHITE ∧ v < beta then v else beta
            let best2 := if color = WHITE ∧ v < beta then mv else best1
            firstloop self color rest alpha1 beta1 best2 s2
      | Outcome.nofuel => Outcome.nofuel
      | Outcome.divzero => Outcome.divzero

/-- Function `firstalphabeta(depth, alpha, beta, color, best)`; `best` is the content of
`*best` on entry, the result carries its content on return. -/
def firstalphabeta (fuel depth : Nat) (alpha beta : Int) (color : Nat) (best : move2)
    (s : State) : Outcome (Int × move2 × State) :=
  let s := s.log Call.firstalphabeta
  if s.play ≠ 0 then Outcome.ok (0, best, s)
  else
    match prelude depth color s with
    | Sum.inl (Outcome.ok (v, s1)) => Outcome.ok (v, best, s1)
    | Sum.inl Outcome.nofuel => Outcome.nofuel
    | Sum.inl Outcome.divzero => Outcome.divzero
    | Sum.inr (d, movelist, s1) =>
      firstloop (fun a b t => alphabeta fuel (d - 1) a b (color ^^^ CHANGECOLOR) t)
        color movelist alpha beta best s1

/-- Function `checkers(color)`.  `best` is the uninitialised local `struct move2 best`:
whatever it holds on entry.  `movetonotation(best)` only computes locals and is
left out. -/
def checkers (fuel : Nat) (best : move2) (color : Nat) (s : State) : Outcome (Int × State) :=
  let r := generatecapturelist s.cboard color
  let s := (s.setboard r.1).log Call.generatecapturelist
  if r.2.length = 1 then Outcome.ok (1, s.setboard (domove s.cboard (r.2.headD [])))
  else
    let go (s : State) : Outcome (Int × State) :=
      match firstalphabeta fuel 1 (-10000) 10000 color best s with
      | Outcome.ok (eval, b, s1) => Outcome.ok (eval, s1.setboard (domove s1.cboard b))
      | Outcome.nofuel => Outcome.nofuel
      | Outcome.divzero => Outcome.divzero
    if r.2.length = 0 then
      let movelist := generatemovelist s.cboard color
      let s := s.log Call.generatemovelist
      if movelist.length = 1 then Outcome.ok (1, s.setboard (domove s.cboard (movelist.headD [])))
      else if movelist.length = 0 then Outcome.ok (0, s)
      else go s
    else go s

/-! ## Board codec (`getmove`) -/

/-- The 32 assignments `cboard[k] = inboard[c][r]`, as triples `(k, c, r)`. -/
def squares : List (Nat × Nat × Nat) :=
  [(5, 0, 0), (6, 2, 0), (7, 4, 0), (8, 6, 0), (10, 1, 1), (11, 3, 1), (12, 5, 1), (13, 7, 1),
   (14, 0, 2), (15, 2, 2), (16, 4, 2), (17, 6, 2), (19, 1, 3), (20, 3, 3), (21, 5, 3), (22, 7, 3),
   (23, 0, 4), (24, 2, 4), (25, 4, 4), (26, 6, 4), (28, 1, 5), (29, 3, 5), (30, 5, 5), (31, 7, 5),
   (32, 0, 6), (33, 2, 6), (34, 4, 6), (35, 6, 6), (37, 1, 7), (38, 3, 7), (39, 5, 7), (40, 7, 7)]

/-- The external board `uint8_t inboard[8][8]` as its 64 bytes in memory order:
`inboard[c][r]` is entry `8 * c + r`. -/
abbrev Inboard := List Nat

/-- The first half of `getmove`: build `cboard` from `inboard`. -/
def importboard (inboard : Inboard) : Board :=
  let cb : Board := List.replicate 46 OCCUPIED
  let cb := (List.range' 5 36).foldl (fun b i => wr b i FREE) cb
  let cb := squares.foldl (fun b q => wr b q.1 (rd inboard (8 * q.2.1 + q.2.2))) cb
  let cb := (List.range' 5 36).foldl (fun b i => if rd b i = 0 then wr b i FREE else b) cb
  [9, 18, 27, 36].foldl (fun b i => wr b i OCCUPIED) cb

/-- The 32 assignments `inboard[c][r] = cboard[k]` after the call of `checkers`, as
triples `(c, r, k)`. -/
def exportsquares : List (Nat × Nat × Nat) :=
  [(0, 0, 5), (2, 0, 6), (4, 0, 7), (6, 0, 8), (1, 1, 10), (3, 1, 11), (5, 1, 12), (7, 1, 13),
   (0, 2, 14), (2, 2, 15), (4, 2, 16), (6, 2, 17), (1, 3, 19), (3, 3, 20), (5, 3, 21), (7, 3, 22),
   (0, 4, 23), (2, 4, 24), (4, 4, 25), (6, 4, 26), (1, 5, 28), (3, 5, 29), (5, 5, 30), (7, 5, 31),
   (0, 6, 32), (2, 6, 33), (4, 6, 34), (6, 6, 35), (1, 7, 37), (3, 7, 38), (5, 7, 39), (7, 7, 40)]

/-- The second half of `getmove`: copy the 32 cells back. -/
def exportboard (cb : Board) (inboard : Inboard) : Inboard :=
  exportsquares.foldl (fun b q => wr b (8 * q.1 + q.2.1) (rd cb q.2.2)) inboard

/-- Function `getmove(inboard, color, playnow)`: returns what `checkers` returned, the
external board and the final state (`play` is `*playnow`). -/
def getmove (fuel : Nat) (best : move2) (inboard : Inboard) (color : Nat) (play : Int)
    (keys : List Nat) : Outcome (Int × Inboard × State) :=
  match checkers fuel best color
      { cboard := importboard inboard, play := play, keys := keys, trace := [] } with
  | Outcome.ok (r, s) => Outcome.ok (r, exportboard s.cboard inboard, s)
  | Outcome.nofuel => Outcome.nofuel
  | Outcome.divzero => Outcome.divzero

/-! ## Auxiliary definitions used by the proofs -/

/-- Moves a king helper appends for one direction, on a board that the
recursive call leaves as it found it. -/
def kingbranch (me opp f : Nat) (cb : Board) (orgmove : move2) (a l : Nat) : List move2 :=
  if canjump cb opp a l then
    (kingcapture me opp f (wr cb a FREE) (extend orgmove (leg me FREE l) (leg FREE (rd cb a) a)) l).2
  else []

/-- Moves appended by one man block of `generatecapturelist`. -/
def manstart (helper : Nat → Board → move2 → Nat → List move2) (opp man after : Nat)
    (cb : Board) (i a l : Nat) : List move2 :=
  if canjump cb opp a l then
    helper CHAINFUEL cb [leg FREE man i, leg after FREE l, leg FREE (rd cb a) a] l
  else []

/-- Moves appended by one king block of `generatecapturelist`. -/
def kingstart (me opp : Nat) (cb : Board) (i a l : Nat) : List move2 :=
  if canjump cb opp a l then
    (kingcapture me opp CHAINFUEL (wr (wr cb a FREE) i FREE)
      [leg FREE me i, leg me FREE l, leg FREE (rd cb a) a] l).2
  else []

/-- Moves appended by the black loop body of `generatecapturelist` at cell `i`. -/
def blackcaps (cb : Board) (i : Nat) : List move2 :=
  if rd cb i &&& BLACK ≠ 0 then
    if rd cb i &&& MAN ≠ 0 then
      manstart blackmancapture WHITE (BLACK ||| MAN)
        (if i ≥ 28 then BLACK ||| KING else BLACK ||| MAN) cb i (i + 4) (i + 8) ++
      manstart blackmancapture WHITE (BLACK ||| MAN)
        (if i ≥ 28 then BLACK ||| KING else BLACK ||| MAN) cb i (i + 5) (i + 10)
    else
      kingstart (BLACK ||| KING) WHITE cb i (i + 4) (i + 8) ++
      kingstart (BLACK ||| KING) WHITE cb i (i + 5) (i + 10) ++
      kingstart (BLACK ||| KING) WHITE cb i (i - 4) (i - 8) ++
      kingstart (BLACK ||| KING) WHITE cb i (i - 5) (i - 10)
  else []

/-- Moves appended by the white loop body of `generatecapturelist` at cell `i`. -/
def whitecaps (cb : Board) (i : Nat) : List move2 :=
  if rd cb i &&& WHITE ≠ 0 then
    if rd cb i &&& MAN ≠ 0 then
      manstart whitemancapture BLACK (WHITE ||| MAN)
        (if i ≤ 17 then WHITE ||| KING else WHITE ||| MAN) cb i (i - 4) (i - 8) ++
      manstart whitemancapture BLACK (WHITE ||| MAN)
        (if i ≤ 17 then WHITE ||| KING else WHITE ||| MAN) cb i (i - 5) (i - 10)
    else
      kingstart (WHITE ||| KING) BLACK cb i (i + 4) (i + 8) ++
      kingstart (WHITE ||| KING) BLACK cb i (i + 5) (i + 10) ++
      kingstart (WHITE ||| KING) BLACK cb i (i - 4) (i - 8) ++
      kingstart (WHITE ||| KING) BLACK cb i (i - 5) (i - 10)
  else []

/-- Number of cells carrying the flag `opp`. -/
def flagcount (opp : Nat) (cb : Board) : Nat := cb.countP (fun v => v &&& opp != 0)

/-- Cell `a` holds a piece of the colour opposing `color`. -/
def holdsopp (b : Board) (color a : Nat) : Bool :=
  rd b a == ((color ^^^ CHANGECOLOR) ||| MAN) || rd b a == ((color ^^^ CHANGECOLOR) ||| KING)

/-- A jump is open: an opposing piece on the adjacent cell `a` and the cell `l`
directly beyond it FREE. -/
def jumpopen (b : Board) (color a l : Nat) : Bool := holdsopp b color a && rd b l == FREE

/-- Cell `i` holds a piece of `color`. -/
def ownpiece (cb : Board) (color i : Nat) : Bool :=
  rd cb i == (color ||| MAN) || rd cb i == (color ||| KING)

/-- Cell `j` lies next to `i` in a direction legal for the piece on `i`: `i+4`,
`i+5` for a black man, `i-4`, `i-5` for a white man, all four for a king. -/
def legaldir (cb : Board) (color i j : Nat) : Bool :=
  if rd cb i = (color ||| MAN) then
    (if color = BLACK then j == i + 4 || j == i + 5 else j + 4 == i || j + 5 == i)
  else j == i + 4 || j == i + 5 || j + 4 == i || j + 5 == i

/-- The pairs of the quiet-move rule: a piece of `color` on `i`, a FREE
neighbour `j` in a legal direction. -/
def validpair (cb : Board) (color i j : Nat) : Bool :=
  ownpiece cb color i && rd cb j == FREE && legaldir cb color i j

/-- The state written on the destination: the king for a man reaching the
farthest row (`37..40` for BLACK, `5..8` for WHITE), else the piece itself. -/
def landedas (cb : Board) (color i j : Nat) : Nat :=
  if rd cb i = (color ||| MAN) ∧ (if color = BLACK then 37 ≤ j else j ≤ 8) then color ||| KING
  else rd cb i

/-- The 2-leg move of the pair `(i, j)`: leg 0 is `(i, piece -> FREE)`, leg 1 is
`(j, FREE -> piece or its promoted form)`. -/
def quietmove (cb : Board) (color i j : Nat) : move2 :=
  [leg FREE (rd cb i) i, leg (landedas cb color i j) FREE j]

/-- A board with a single white man on cell 20: BLACK has no move on it. -/
def loneboard : Board :=
  [0, 0, 0, 0, 0, 16, 16, 16, 16, 0, 16, 16, 16, 16, 16, 16, 16, 16, 0, 16, 5, 16, 16,
   16, 16, 16, 16, 0, 16, 16, 16, 16, 16, 16, 16, 16, 0, 16, 16, 16, 16, 0, 0, 0, 0, 0]

/-- Reads of the 32 playable external squares, written on their internal cells;
this is `importboard` when none of them is 0. -/
def imported (b : Inboard) : Board :=
      [0, 0, 0, 0, 0, rd b (8 * 0 + 0), rd b (8 * 2 + 0), rd b (8 * 4 + 0), rd b (8 * 6 + 0), 0,
      rd b (8 * 1 + 1), rd b (8 * 3 + 1), rd b (8 * 5 + 1), rd b (8 * 7 + 1), rd b (8 * 0 + 2),
      rd b (8 * 2 + 2), rd b (8 * 4 + 2), rd b (8 * 6 + 2), 0, rd b (8 * 1 + 3), rd b (8 * 3 +
      3), rd b (8 * 5 + 3), rd b (8 * 7 + 3), rd b (8 * 0 + 4), rd b (8 * 2 + 4), rd b (8 * 4 +
      4), rd b (8 * 6 + 4), 0, rd b (8 * 1 + 5), rd b (8 * 3 + 5), rd b (8 * 5 + 5), rd b (8 * 7
      + 5), rd b (8 * 0 + 6), rd b (8 * 2 + 6), rd b (8 * 4 + 6), rd b (8 * 6 + 6), 0, rd b (8 *
      1 + 7), rd b (8 * 3 + 7), rd b (8 * 5 + 7), rd b (8 * 7 + 7), 0, 0, 0, 0, 0]

/-- A black king on cell 15 inside a ring of four white men (19, 28, 29, 20):
both of its capture chains end on cell 15 again. -/
def circleboard : Board :=
  [0, 0, 0, 0, 0, 16, 16, 16, 16, 0, 16, 16, 16, 16, 16, 10, 16, 16, 0, 5, 5, 16, 16,
   16, 16, 16, 16, 0, 5, 5, 16, 16, 16, 16, 16, 16, 0, 16, 16, 16, 16, 0, 0, 0, 0, 0]

/-- The clockwise chain of the king of `circleboard`: origin and landing are
both cell 15. -/
def circlemove : move2 :=
  [leg FREE (BLACK ||| KING) 15, leg (BLACK ||| KING) FREE 15, leg FREE (WHITE ||| MAN) 19,
   leg FREE (WHITE ||| MAN) 28, leg FREE (WHITE ||| MAN) 29, leg FREE (WHITE ||| MAN) 20]

/-- BLACK to move with men on 8, 19, 20, 28, 29 around a white king on 15:
BLACK has ten quiet moves and no capture; after a move of the man on 8 the white
king has a capture chain that ends on its own origin cell. -/
def trapboard : Board :=
  [0, 0, 0, 0, 0, 16, 16, 16, 6, 0, 16, 16, 16, 16, 16, 9, 16, 16, 0, 6, 6, 16, 16,
   16, 16, 16, 16, 0, 6, 6, 16, 16, 16, 16, 16, 16, 0, 16, 16, 16, 16, 0, 0, 0, 0, 0]

/-- The board `checkers` leaves behind on `trapboard`: the man of 19 stands on
24 and cell 15 is FREE. -/
def trapresult : Board :=
  [0, 0, 0, 0, 0, 16, 16, 16, 6, 0, 16, 16, 16, 16, 16, 16, 16, 16, 0, 16, 6, 16, 16,
   16, 6, 16, 16, 0, 6, 6, 16, 16, 16, 16, 16, 16, 0, 16, 16, 16, 16, 0, 0, 0, 0, 0]

/-- The value a search function returned, if it returned. -/
def Outcome.score : Outcome (Int × State) → Option Int
  | Outcome.ok (v, _) => some v
  | _ => none

/-- The board a search function left behind, if it returned. -/
def Outcome.board : Outcome (Int × State) → Option Board
  | Outcome.ok (_, s) => some s.cboard
  | _ => none

/-- Value and `*best` returned by `firstalphabeta`, if it returned. -/
def Outcome.chosen : Outcome (Int × move2 × State) → Option (Int × move2)
  | Outcome.ok (v, b, _) => some (v, b)
  | _ => none

/-- Best of the children values: the maximum for BLACK, the minimum for WHITE. -/
def pickbest (color : Nat) : List (Outcome Int) → Outcome Int
  | [] => Outcome.ok (if color = BLACK then -10000 else 10000)
  | r :: rs =>
    match r, pickbest color rs with
    | Outcome.ok v, Outcome.ok w =>
      Outcome.ok (if color = BLACK then (if v ≥ w then v else w) else (if v ≤ w then v else w))
    | Outcome.ok _, e => e
    | e, _ => e

/-- One node of the reference search over the recursive call `self`. -/
def minimaxnode (self : Nat → Nat → Board → Outcome Int) (depth color : Nat) (cb : Board) :
    Outcome Int :=
  let capture := testcapture cb color
  if depth = 0 ∧ capture = 0 then
    (match evaluation cb color with
      | some v => Outcome.ok v
      | none => Outcome.divzero)
  else
    let depth := if depth = 0 then 1 else depth
    let moves := if capture = 0 then generatemovelist cb color else (generatecapturelist cb color).2
    if moves = [] then Outcome.ok (if color = BLACK then -5000 else 5000)
    else pickbest color (moves.map (fun mv => self (depth - 1) (color ^^^ CHANGECOLOR) (domove cb mv)))

/-- Reference for the alpha-beta claim, written from the words of the
specification: an unpruned full-width minimax with the same depth rule, capture
extension, terminal scores and evaluation, every child searched on its own
board `domove cb mv`. -/
def minimax_spec : Nat → Nat → Nat → Board → Outcome Int
  | 0 => minimaxnode (fun _ _ _ => Outcome.nofuel)
  | f + 1 => minimaxnode (minimax_spec f)

/-- A black man on 6 faces a white man on 11 with cell 16 FREE: BLACK has
exactly one capture. -/
def forcedboard : Board :=
  [0, 0, 0, 0, 0, 16, 6, 16, 16, 0, 16, 5, 16, 16, 16, 16, 16, 16, 0, 16, 16, 16, 16,
   16, 16, 16, 16, 0, 16, 16, 16, 16, 16, 16, 16, 16, 0, 16, 16, 16, 16, 0, 0, 0, 0, 0]

/-- The capture of `forcedboard`. -/
def forcedmove : move2 :=
  [leg FREE (BLACK ||| MAN) 6, leg (BLACK ||| MAN) FREE 16, leg FREE (WHITE ||| MAN) 11]

/-- An external board with every square FREE. -/
def freeinboard : Inboard := List.replicate 64 FREE

/-- A black king on cell 8 and nine white men on 10, 11, 12, 19, 20, 21, 28, 29,
30, every other playable cell FREE: the king can take all nine men in one
chain. -/
def nineboard : Board :=
  [0, 0, 0, 0, 0, 16, 16, 16, 10, 0, 5, 5, 5, 16, 16, 16, 16, 16, 0, 5, 5, 5, 16,
   16, 16, 16, 16, 0, 5, 5, 5, 16, 16, 16, 16, 16, 0, 16, 16, 16, 16, 0, 0, 0, 0, 0]

/-- The chain 8 -> 16 -> 6 -> 14 -> 24 -> 16 -> 26 -> 34 -> 24 -> 32 of the king
of `nineboard`: two legs for origin and landing, then one leg per captured
man. -/
def ninemove : move2 :=
  [leg FREE (BLACK ||| KING) 8, leg (BLACK ||| KING) FREE 32, leg FREE (WHITE ||| MAN) 12,
   leg FREE (WHITE ||| MAN) 11, leg FREE (WHITE ||| MAN) 10, leg FREE (WHITE ||| MAN) 19,
   leg FREE (WHITE ||| MAN) 20, leg FREE (WHITE ||| MAN) 21, leg FREE (WHITE ||| MAN) 30,
   leg FREE (WHITE ||| MAN) 29, leg FREE (WHITE ||| MAN) 28]

/-- A possible content of the local `best` of `checkers` before anything was
stored in it: a 2-leg move of some other position (a black man going from 10 to
14). -/
def stalebest : move2 :=
  [leg FREE (BLACK ||| MAN) 10, leg (BLACK ||| MAN) FREE 14]

/-- What import stores for an external value: `FREE` for 0, the value itself
otherwise. -/
def zfree (v : Nat) : Nat := if v = 0 then FREE else v

/-- The internal board in closed form: sentinels 0, and on the cell of each
table entry the value read from its external square, with 0 replaced by
`FREE`. -/
def internalof (b : Inboard) : Board :=
  [0, 0, 0, 0, 0, zfree (rd b (8 * 0 + 0)), zfree (rd b (8 * 2 + 0)), zfree (rd b (8 * 4 + 0)),
   zfree (rd b (8 * 6 + 0)), 0, zfree (rd b (8 * 1 + 1)), zfree (rd b (8 * 3 + 1)),
   zfree (rd b (8 * 5 + 1)), zfree (rd b (8 * 7 + 1)), zfree (rd b (8 * 0 + 2)),
   zfree (rd b (8 * 2 + 2)), zfree (rd b (8 * 4 + 2)), zfree (rd b (8 * 6 + 2)), 0,
   zfree (rd b (8 * 1 + 3)), zfree (rd b (8 * 3 + 3)), zfree (rd b (8 * 5 + 3)),
   zfree (rd b (8 * 7 + 3)), zfree (rd b (8 * 0 + 4)), zfree (rd b (8 * 2 + 4)),
   zfree (rd b (8 * 4 + 4)), zfree (rd b (8 * 6 + 4)), 0, zfree (rd b (8 * 1 + 5)),
   zfree (rd b (8 * 3 + 5)), zfree (rd b (8 * 5 + 5)), zfree (rd b (8 * 7 + 5)),
   zfree (rd b (8 * 0 + 6)), zfree (rd b (8 * 2 + 6)), zfree (rd b (8 * 4 + 6)),
   zfree (rd b (8 * 6 + 6)), 0, zfree (rd b (8 * 1 + 7)), zfree (rd b (8 * 3 + 7)),
   zfree (rd b (8 * 5 + 7)), zfree (rd b (8 * 7 + 7)), 0, 0, 0, 0, 0]

/-- The external board of the starting position built by `init_board`: black
men on the squares with column + row even of rows 0..2, white men on those of
rows 5..7, `FREE` on those of rows 3 and 4, and 0 on every other square. -/
def startinboard : Inboard :=
  [6, 0, 6, 0, 16, 0, 5, 0, 0, 6, 0, 16, 0, 5, 0, 5, 6, 0, 6, 0, 16, 0, 5, 0, 0, 6, 0, 16, 0, 5,
   0, 5, 6, 0, 6, 0, 16, 0, 5, 0, 0, 6, 0, 16, 0, 5, 0, 5, 6, 0, 6, 0, 16, 0, 5, 0, 0, 6, 0, 16,
   0, 5, 0, 5]

/-- Cell `l` lies on the row farthest from the starting side of `color`: cells
`37..40` for BLACK, `5..8` for WHITE. -/
def farthest (color l : Nat) : Bool :=
  if color = BLACK then decide (37 ≤ l) && decide (l ≤ 40) else decide (5 ≤ l) && decide (l ≤ 8)

/-- The promotion rule read off a move: `piece` is the before-state of leg 0,
`land` the square of leg 1 and `after` the after-state of leg 1.  A man lands as
the king of its colour on the farthest row and as the man elsewhere; a king
lands as the same king. -/
def promotionok (color : Nat) (m : move2) : Bool :=
  let piece := (m.getD 0 0 >>> 8) % 256
  let land := m.getD 1 0 % 256
  let after := (m.getD 1 0 >>> 16) % 256
  if piece = color ||| MAN then
    after == (if farthest color land then color ||| KING else color ||| MAN)
  else piece == (color ||| KING) && after == (color ||| KING)

/-- The clear-captured legs of the cells `caps`: cell `a` goes from the piece it
holds on `cb` to FREE. -/
def caplegs (cb : Board) (caps : List Nat) : move2 := caps.map (fun a => leg FREE (rd cb a) a)

/-- The jumps open to a king of `color` standing on cell `i` of board `b`: the
pairs (jumped cell, landing cell) of the four diagonal directions with an
opposing piece on the jumped cell and the landing cell FREE. -/
def kingjumps (b : Board) (color i : Nat) : List (Nat × Nat) :=
  [(i + 4, i + 8), (i + 5, i + 10), (i - 4, i - 8), (i - 5, i - 10)].filter
    (fun p => jumpopen b color p.1 p.2)

/-- The piece of `color` on cell `j` of board `b`, if there is one, has a jump
open: a man in its two forward directions, a king in all four. -/
def cancapture (b : Board) (color j : Nat) : Bool :=
  if rd b j = color ||| MAN then
    (if color = BLACK then
      jumpopen b color (j + 4) (j + 8) || jumpopen b color (j + 5) (j + 10)
    else jumpopen b color (j - 4) (j - 8) || jumpopen b color (j - 5) (j - 10))
  else if rd b j = color ||| KING then !(kingjumps b color j).isEmpty
  else false

/-- The move of a king of `color` that goes from `o` to `l3` and takes the men
on `a1`, `a2` and `a3`. -/
def triplecapture (color o l3 a1 a2 a3 : Nat) : move2 :=
  [leg FREE (color ||| KING) o, leg (color ||| KING) FREE l3,
   leg FREE ((color ^^^ CHANGECOLOR) ||| MAN) a1, leg FREE ((color ^^^ CHANGECOLOR) ||| MAN) a2,
   leg FREE ((color ^^^ CHANGECOLOR) ||| MAN) a3]

/-- A black king on cell 6 and white men on 11, 20 and 29, every other playable
cell FREE: the king takes the three men on its way 6 -> 16 -> 24 -> 34. -/
def tripleboard : Board :=
  [0, 0, 0, 0, 0, 16, 10, 16, 16, 0, 16, 5, 16, 16, 16, 16, 16, 16, 0, 16, 5, 16, 16, 16,
   16, 16, 16, 0, 16, 5, 16, 16, 16, 16, 16, 16, 0, 16, 16, 16, 16, 0, 0, 0, 0, 0]

/-- The board `tripleboard` with a black man added on cell 8 and a white man on
cell 12: the king still has its single path over 11, 20 and 29, and the man on
8 can take the man on 12. -/
def tripleplusboard : Board :=
  [0, 0, 0, 0, 0, 16, 10, 16, 6, 0, 16, 5, 5, 16, 16, 16, 16, 16, 0, 16, 5, 16, 16, 16,
   16, 16, 16, 0, 16, 5, 16, 16, 16, 16, 16, 16, 0, 16, 16, 16, 16, 0, 0, 0, 0, 0]

/-- Number of pieces (men and kings) of `color` on the cells `5..40`. -/
def piececount (cb : Board) (color : Nat) : Nat :=
  (List.range' 5 36).countP (fun i => ownpiece cb color i)

/-- The starting position: black men on the twelve cells of rows 0..2, white
men on the twelve cells of rows 5..7. -/
def startboard : Board :=
  [0, 0, 0, 0, 0, 6, 6, 6, 6, 0, 6, 6, 6, 6, 6, 6, 6, 6, 0, 16, 16, 16, 16,
   16, 16, 16, 16, 0, 5, 5, 5, 5, 5, 5, 5, 5, 0, 5, 5, 5, 5, 0, 0, 0, 0, 0]

/-- A single black man on cell 32, one step from the farthest row. -/
def promoboard : Board :=
  [0, 0, 0, 0, 0, 16, 16, 16, 16, 0, 16, 16, 16, 16, 16, 16, 16, 16, 0, 16, 16, 16, 16,
   16, 16, 16, 16, 0, 16, 16, 16, 16, 6, 16, 16, 16, 0, 16, 16, 16, 16, 0, 0, 0, 0, 0]

/-- The move of the man of `promoboard` from 32 to 37, where it is crowned. -/
def promomove : move2 := [leg FREE (BLACK ||| MAN) 32, leg (BLACK ||| KING) FREE 37]

/-! ### The terms of `evaluation` -/

/-- The four counts `nwm, nwk, nbm, nbk` that `evaluation` decodes from the
packed piece count. -/
def nwmof (cb : Board) : Nat := materialcode cb % 16
def nwkof (cb : Board) : Nat := (materialcode cb >>> 4) % 16
def nbmof (cb : Board) : Nat := (materialcode cb >>> 8) % 16
def nbkof (cb : Board) : Nat := (materialcode cb >>> 12) % 16

/-- Value `v1` of `evaluation`: the black material. -/
def blackmaterial (cb : Board) : Int := 100 * nbmof cb + 130 * nbkof cb

/-- Value `v2` of `evaluation`: the white material. -/
def whitematerial (cb : Board) : Int := 100 * nwmof cb + 130 * nwkof cb

/-- The material term with the exchange bonus:
`v1 - v2 + (250 * (v1 - v2)) / (v1 + v2)`. -/
def evmaterial (cb : Board) : Int :=
  blackmaterial cb - whitematerial cb +
    Int.tdiv (250 * (blackmaterial cb - whitematerial cb)) (blackmaterial cb + whitematerial cb)

/-- The turn term: `+turn` for BLACK to move, `-turn` otherwise. -/
def evturn (color : Nat) : Int := if color = BLACK then 2 else -2

/-- The positional terms that depend neither on the side to move nor on the
counts: cramp, back rank guard, intact double corner, centre and edge. -/
def evposition (cb : Board) : Int :=
  (if rd cb 23 = (BLACK ||| MAN) ∧ rd cb 28 = (WHITE ||| MAN) then 5 else 0) +
  (if rd cb 22 = (WHITE ||| MAN) ∧ rd cb 17 = (BLACK ||| MAN) then -5 else 0) +
  3 * (brg.getD ((if rd cb 5 &&& MAN ≠ 0 then 1 else 0) + (if rd cb 6 &&& MAN ≠ 0 then 2 else 0) +
      (if rd cb 7 &&& MAN ≠ 0 then 4 else 0) + (if rd cb 8 &&& MAN ≠ 0 then 8 else 0)) 0 -
    brg.getD ((if rd cb 37 &&& MAN ≠ 0 then 8 else 0) + (if rd cb 38 &&& MAN ≠ 0 then 4 else 0) +
      (if rd cb 39 &&& MAN ≠ 0 then 2 else 0) + (if rd cb 40 &&& MAN ≠ 0 then 1 else 0)) 0) +
  (if rd cb 8 = (BLACK ||| MAN) ∧
      (rd cb 12 = (BLACK ||| MAN) ∨ rd cb 13 = (BLACK ||| MAN)) then 3 else 0) +
  (if rd cb 37 = (WHITE ||| MAN) ∧
      (rd cb 32 = (WHITE ||| MAN) ∨ rd cb 33 = (WHITE ||| MAN)) then -3 else 0) +
  (countcells cb center (BLACK ||| MAN) - countcells cb center (WHITE ||| MAN)) * 1 +
  (countcells cb center (BLACK ||| KING) - countcells cb center (WHITE ||| KING)) * 5 -
  (countcells cb edge (BLACK ||| MAN) - countcells cb edge (WHITE ||| MAN)) * 1 -
  (countcells cb edge (BLACK ||| KING) - countcells cb edge (WHITE ||| KING)) * 5

/-- The multiplier the three tempo statements `if (nm >= 16) ..`,
`if ((nm <= 15) && (nm >= 12)) ..`, `if (nm < 9) ..` apply to `tempo`, as the sum
of what each statement adds. -/
def tempofactor (nm : Nat) : Int :=
  (if nm ≥ 16 then -2 else 0) + (if nm ≤ 15 ∧ nm ≥ 12 then -1 else 0) + (if nm < 9 then 2 else 0)

/-- The two safe-edge king terms. -/
def evsafe (cb : Board) : Int :=
  (if nbkof cb + nbmof cb > nwkof cb + nwmof cb ∧ nwkof cb < 3 then
    -(15 * countcells cb safeedge (WHITE ||| KING)) else 0) +
  (if nwkof cb + nwmof cb > nbkof cb + nbmof cb ∧ nbkof cb < 3 then
    15 * countcells cb safeedge (BLACK ||| KING) else 0)

/-- The move-parity term ("the move"), active when the decoded totals of the
two colours are equal. -/
def evmove (cb : Board) (color : Nat) : Int :=
  if nwmof cb + nwkof cb = nbkof cb + nbmof cb then
    (if color = BLACK then
      (if stones cb 5 false % 2 ≠ 0 then
        themove (nbmof cb + nwmof cb + (nbkof cb + nwkof cb)) 1
      else themove (nbmof cb + nwmof cb + (nbkof cb + nwkof cb)) (-1))
    else
      (if stones cb 10 true % 2 = 0 then
        themove (nbmof cb + nwmof cb + (nbkof cb + nwkof cb)) 1
      else themove (nbmof cb + nwmof cb + (nbkof cb + nwkof cb)) (-1)))
  else 0

/-- One black man on cell 6 and sixteen white men, on the cells 10..13,
19..22, 28..31 and 37..40: the packed count of the white men overflows its
4-bit field, and the decoded totals of the two colours are both 1. -/
def crowdboard : Board :=
  [0, 0, 0, 0, 0, 16, 6, 16, 16, 0, 5, 5, 5, 5, 16, 16, 16, 16, 0, 5, 5, 5, 5,
   16, 16, 16, 16, 0, 5, 5, 5, 5, 16, 16, 16, 16, 0, 5, 5, 5, 5, 0, 0, 0, 0, 0]

/-- Four black men (10, 11, 19, 26) and six white men (21, 28, 30, 33, 34,
35): ten men in all, with a tempo sum of -2. -/
def tenboard : Board :=
  [0, 0, 0, 0, 0, 16, 16, 16, 16, 0, 6, 6, 16, 16, 16, 16, 16, 16, 0, 6, 16, 5, 16,
   16, 16, 16, 6, 0, 5, 16, 5, 16, 16, 5, 5, 5, 0, 16, 16, 16, 16, 0, 0, 0, 0, 0]

/-- Exchange of the colour of a piece; `FREE` and `OCCUPIED` stay. -/
def swapcolour (v : Nat) : Nat := if v &&& CHANGECOLOR ≠ 0 then v ^^^ CHANGECOLOR else v

/-- The board seen from the other side: rotated half a turn (cell `i` goes to
cell `45 - i`) with the colour of every piece exchanged. -/
def mirror (b : Board) : Board := b.reverse.map swapcolour

/-- One black man on cell 6 and one white man on cell 30. -/
def parityboard : Board :=
  [0, 0, 0, 0, 0, 16, 6, 16, 16, 0, 16, 16, 16, 16, 16, 16, 16, 16, 0, 16, 16, 16, 16,
   16, 16, 16, 16, 0, 16, 16, 5, 16, 16, 16, 16, 16, 0, 16, 16, 16, 16, 0, 0, 0, 0, 0]

/-! ### Board indices dereferenced by the generators

For each generator, the list of the indices `k` of every `cboard[k]` it reads or
writes, in program order, as signed integers.  The conditions are those of the
functions above: the cell the embedding reads for the index `i + d` is
`(i + d).toNat`, which is `i + 4` or the truncated `i - 4` of the definitions
above.  A chain helper that is out of fuel reports the index `-1`, so that a
range statement about these lists also says that the fuel is not used up. -/

/-- Indices read by the nested test `if ((cboard[i + d] & opp) != 0) {
if ((cboard[i + 2d] & FREE) != 0) ..`: the adjacent cell always, the cell beyond
it only after the adjacent cell was found to carry the flag `opp`. -/
def jumpreads (cb : Board) (opp : Nat) (i : Nat) (d : Int) : List Int :=
  if rd cb ((i : Int) + d).toNat &&& opp ≠ 0 then [(i : Int) + d, (i : Int) + 2 * d]
  else [(i : Int) + d]

/-- The jump test of direction `d` from cell `i`. -/
def jumpok (cb : Board) (opp : Nat) (i : Nat) (d : Int) : Bool :=
  canjump cb opp ((i : Int) + d).toNat ((i : Int) + 2 * d).toNat

/-- Indices read by the tests of `testcapture` for the directions `ds`, which
stop at the first test that succeeds (`return 1`). -/
def testreads (cb : Board) (opp : Nat) (i : Nat) : List Int → List Int
  | [] => []
  | d :: ds => jumpreads cb opp i d ++ (if jumpok cb opp i d then [] else testreads cb opp i ds)

/-- Indices read by the loop body of `testcapture` at cell `i`: `me` is the
colour to move and `mandirs` the two directions of its men. -/
def testcellreads (cb : Board) (me opp : Nat) (mandirs : List Int) (i : Nat) : List Int :=
  [(i : Int)] ++
    (if rd cb i &&& me ≠ 0 then
      [(i : Int)] ++
        (if rd cb i &&& MAN ≠ 0 then testreads cb opp i mandirs
         else testreads cb opp i [4, 5, -4, -5])
    else [])

/-- Indices read by `testcapture`: the cells are visited in order until one
returns 1. -/
def testcapturereads (cb : Board) (color : Nat) : List Int :=
  ((List.range' 5 36).foldl (fun (st : List Int × Bool) i =>
    if st.2 then st
    else if color = BLACK then (st.1 ++ testcellreads cb BLACK WHITE [4, 5] i, blacktest cb i)
    else (st.1 ++ testcellreads cb WHITE BLACK [-4, -5] i, whitetest cb i)) ([], false)).1

/-- Indices read by the loop body of `generatemovelist` at cell `i`. -/
def movecellreads (cb : Board) (me : Nat) (mandirs : List Int) (i : Nat) : List Int :=
  [(i : Int)] ++
    (if rd cb i &&& me ≠ 0 then
      [(i : Int)] ++ (if rd cb i &&& MAN ≠ 0 then mandirs.map (fun d => (i : Int) + d) else []) ++
      [(i : Int)] ++
        (if rd cb i &&& KING ≠ 0 then ([4, 5, -4, -5] : List Int).map (fun d => (i : Int) + d)
         else [])
    else [])

/-- Indices read by `generatemovelist`. -/
def generatemovelistreads (cb : Board) (color : Nat) : List Int :=
  if color = BLACK then (List.range' 5 36).flatMap (movecellreads cb BLACK [4, 5])
  else (List.range' 5 36).flatMap (movecellreads cb WHITE [-4, -5])

/-- Indices read by a man helper called on cell `i` (`blackmancapture` with
`d1 = 4, d2 = 5`, `whitemancapture` with `d1 = -4, d2 = -5`): per direction the
test, and after a successful test the read of the jumped cell for the leg and
the recursive call from the landing cell. -/
def manaccess (opp : Nat) (d1 d2 : Int) : Nat → Board → Nat → List Int
  | 0, _, _ => [-1]
  | f + 1, cb, i =>
    (jumpreads cb opp i d1 ++
      (if jumpok cb opp i d1 then
        [(i : Int) + d1] ++ manaccess opp d1 d2 f cb ((i : Int) + 2 * d1).toNat
      else [])) ++
    (jumpreads cb opp i d2 ++
      (if jumpok cb opp i d2 then
        [(i : Int) + d2] ++ manaccess opp d1 d2 f cb ((i : Int) + 2 * d2).toNat
      else []))

/-- What one direction of a king helper reads and writes: the test and, after
a successful test, the jumped cell read for the leg and for `tmp`, written with
`FREE`, the recursive call on the board without the jumped piece, and the
jumped cell written back. -/
def kingdiraccess (self : Board → Nat → List Int) (cb : Board) (opp : Nat) (i : Nat)
    (d : Int) : List Int :=
  jumpreads cb opp i d ++
    (if jumpok cb opp i d then
      [(i : Int) + d, (i : Int) + d, (i : Int) + d] ++
        self (wr cb ((i : Int) + d).toNat FREE) ((i : Int) + 2 * d).toNat ++ [(i : Int) + d]
    else [])

/-- Indices read and written by a king helper called on cell `i`; every
direction sees the board the call started with, which the recursive calls
restore. -/
def kingaccess (opp : Nat) : Nat → Board → Nat → List Int
  | 0, _, _ => [-1]
  | f + 1, cb, i =>
    kingdiraccess (kingaccess opp f) cb opp i (-4) ++
    kingdiraccess (kingaccess opp f) cb opp i (-5) ++
    kingdiraccess (kingaccess opp f) cb opp i 4 ++
    kingdiraccess (kingaccess opp f) cb opp i 5

/-- One man block of `generatecapturelist`. -/
def manfirstaccess (cb : Board) (opp : Nat) (d1 d2 : Int) (i : Nat) (d : Int) : List Int :=
  jumpreads cb opp i d ++
    (if jumpok cb opp i d then
      [(i : Int) + d] ++ manaccess opp d1 d2 CHAINFUEL cb ((i : Int) + 2 * d).toNat
    else [])

/-- One king block of `generatecapturelist`: after a successful test the
jumped cell is read for the leg and for `tmp` and written with `FREE`, the
origin is written with `FREE`, the king helper runs from the landing cell, and
the jumped cell and the origin are written back. -/
def kingfirstaccess (cb : Board) (opp : Nat) (i : Nat) (d : Int) : List Int :=
  jumpreads cb opp i d ++
    (if jumpok cb opp i d then
      [(i : Int) + d, (i : Int) + d, (i : Int) + d, (i : Int)] ++
        kingaccess opp CHAINFUEL (wr (wr cb ((i : Int) + d).toNat FREE) i FREE)
          ((i : Int) + 2 * d).toNat ++
        [(i : Int) + d, (i : Int)]
    else [])

/-- Indices read and written by the loop body of `generatecapturelist` at cell
`i`, on the board the loop started with (each block restores it). -/
def capturecellaccess (cb : Board) (me opp : Nat) (d1 d2 : Int) (i : Nat) : List Int :=
  [(i : Int)] ++
    (if rd cb i &&& me ≠ 0 then
      [(i : Int)] ++
        (if rd cb i &&& MAN ≠ 0 then
          manfirstaccess cb opp d1 d2 i d1 ++ manfirstaccess cb opp d1 d2 i d2
        else
          kingfirstaccess cb opp i 4 ++ kingfirstaccess cb opp i 5 ++
          kingfirstaccess cb opp i (-4) ++ kingfirstaccess cb opp i (-5))
    else [])

/-- Indices read and written by `generatecapturelist`. -/
def generatecapturelistaccess (cb : Board) (color : Nat) : List Int :=
  if color = BLACK then (List.range' 5 36).flatMap (capturecellaccess cb BLACK WHITE 4 5)
  else (List.range' 5 36).flatMap (capturecellaccess cb WHITE BLACK (-4) (-5))


/-! ## Auxiliary definitions for piece counts, generated moves and the search -/

/-- Number of cells `5..40` holding exactly the value `v`. -/
def kindcount (cb : Board) (v : Nat) : Nat := (List.range' 5 36).countP (fun i => rd cb i == v)

/-- Number of pieces of both colours on the cells `5..40`. -/
def pieces (cb : Board) : Nat := piececount cb BLACK + piececount cb WHITE

/-- The pairs of diagonally adjacent playable cells, lower cell first. -/
def edges : List (Nat × Nat) :=
  ((List.range' 5 36).flatMap (fun x => [(x, x + 4), (x, x + 5)])).filter
    (fun p => !sentinel p.1 && !sentinel p.2)

/-- The pair of cells a move joins: the squares of leg 0 and leg 1, lower cell
first. -/
def edgeof (mv : move2) : Nat × Nat :=
  (min (mv.getD 0 0 % 256) (mv.getD 1 0 % 256), max (mv.getD 0 0 % 256) (mv.getD 1 0 % 256))

/-- The constant `MAXMOVES` of `simplech.c`. -/
def MAXMOVES : Nat := 51

/-- The form of a generated move: leg 0 clears the origin `o`, leg 1 puts the
piece `p` of the moving colour on the landing cell `l`, and the other legs
clear the pairwise different cells `caps`, which hold opposing pieces; the
landing cell is FREE or the origin, and is not one of `caps`. -/
def moveform (cb : Board) (color : Nat) (mv : move2) (o l p : Nat) (caps : List Nat) : Prop :=
  mv = leg FREE (rd cb o) o :: leg p FREE l :: caplegs cb caps ∧
  ownpiece cb color o = true ∧ (p = color ||| MAN ∨ p = color ||| KING) ∧
  5 ≤ l ∧ l ≤ 40 ∧ l % 9 ≠ 0 ∧ caps.Nodup ∧ (∀ a ∈ caps, holdsopp cb color a = true) ∧
  l ∉ caps ∧ (rd cb l = FREE ∨ l = o)

/-- A leg addresses a playable cell and carries playable before- and
after-states. -/
def legok (m : Nat) : Bool :=
  !sentinel (m % 256) && playable ((m >>> 8) % 256) && playable ((m >>> 16) % 256)

/-- Board `b` is board `s0` with some cells cleared: every cell holds what it
holds on `s0`, or FREE. -/
def below (b s0 : Board) : Prop := ∀ j, rd b j = rd s0 j ∨ rd b j = FREE

/-- At most 12 pieces of each colour. -/
def twelve (cb : Board) : Prop := piececount cb BLACK ≤ 12 ∧ piececount cb WHITE ≤ 12

/-- An outcome that is a value with the property `P`, or is `nofuel` when `nf`
holds, or is `divzero` when `dz` holds. -/
def Outcome.meets {α : Type} (P : α → Prop) (nf dz : Prop) : Outcome α → Prop
  | Outcome.ok a => P a
  | Outcome.nofuel => nf
  | Outcome.divzero => dz

/-- What the search needs of a move `mv` of a list generated on board `s0`: the
legs address playable cells with playable states, the before-states are those of
`s0` or FREE, and on every board below `s0` the move leaves at least one piece,
at least `k` pieces fewer than `s0` has, and no more pieces of either colour
than `s0` has. -/
def goodmove (s0 : Board) (k : Nat) (mv : move2) : Prop :=
  (∀ m ∈ mv, legok m = true ∧ m % 256 < 46 ∧
    ((m >>> 8) % 256 = rd s0 (m % 256) ∨ (m >>> 8) % 256 = FREE)) ∧
  ∀ b : Board, wellformed b = true → below b s0 →
    pieces (domove b mv) + k ≤ pieces s0 ∧ 1 ≤ pieces (domove b mv) ∧
    piececount (domove b mv) BLACK ≤ piececount s0 BLACK ∧
    piececount (domove b mv) WHITE ≤ piececount s0 WHITE

/-! ## Reading and writing cells -/

theorem rd_wr (cb : Board) (i v j : Nat) :
    rd (wr cb i v) j = if i = j ∧ i < cb.length then v else rd cb j := by
  unfold rd wr
  rw [List.getD_eq_getElem?_getD, List.getD_eq_getElem?_getD, List.getElem?_set]
  by_cases h : i = j
  · subst h
    by_cases h2 : i < cb.length
    · simp [h2]
    · simp [h2, List.getElem?_eq_none (Nat.le_of_not_lt h2)]
  · simp [h]

theorem length_wr (cb : Board) (i v : Nat) : (wr cb i v).length = cb.length := by
  simp [wr]

theorem rd_of_le (cb : Board) (i : Nat) (h : cb.length ≤ i) : rd cb i = 0 := by
  unfold rd
  rw [List.getD_eq_getElem?_getD, List.getElem?_eq_none h]
  rfl

theorem lt_of_rd_ne (cb : Board) (i : Nat) (h : rd cb i ≠ 0) : i < cb.length := by
  by_contra hc
  exact h (rd_of_le cb i (Nat.le_of_not_lt hc))

theorem board_ext (a b : Board) (hl : a.length = b.length) (h : ∀ i, rd a i = rd b i) :
    a = b := by
  apply List.ext_getElem hl
  intro n h1 h2
  have := h n
  unfold rd at this
  rw [List.getD_eq_getElem?_getD, List.getD_eq_getElem?_getD,
    List.getElem?_eq_getElem h1, List.getElem?_eq_getElem h2] at this
  simpa using this

theorem wr_rd_self (cb : Board) (i : Nat) : wr cb i (rd cb i) = cb := by
  apply board_ext _ _ (length_wr _ _ _)
  intro j
  rw [rd_wr]
  split_ifs with h
  · rw [h.1]
  · rfl

theorem wr_wr_restore (cb : Board) (a v : Nat) : wr (wr cb a v) a (rd cb a) = cb := by
  apply board_ext _ _ (by simp [length_wr])
  intro j
  rw [rd_wr, rd_wr, length_wr]
  split_ifs with h
  · rw [h.1]
  · rfl

/-! ## Well-formed boards -/

theorem wf_length (cb : Board) (h : wellformed cb = true) : cb.length = 46 := by
  unfold wellformed at h
  simp only [Bool.and_eq_true, beq_iff_eq] at h
  exact h.1

theorem wf_cell (cb : Board) (h : wellformed cb = true) (i : Nat) :
    (sentinel i = true → rd cb i = 0) ∧ (sentinel i = false → playable (rd cb i) = true) := by
  by_cases hi : i < 46
  · unfold wellformed at h
    simp only [Bool.and_eq_true, beq_iff_eq, List.all_eq_true, List.mem_range] at h
    have := h.2 i hi
    constructor
    · intro hs
      simpa [hs] using this
    · intro hs
      simpa [hs] using this
  · constructor
    · intro _
      exact rd_of_le cb i (by rw [wf_length cb h]; omega)
    · intro hs
      exfalso
      simp only [sentinel, Bool.or_eq_false_iff, decide_eq_false_iff_not] at hs
      omega

/-- On a well-formed board a cell holds one of the six legal values, and a
non-zero cell is a playable cell. -/
theorem wf_vals (cb : Board) (h : wellformed cb = true) (i : Nat) :
    rd cb i = 0 ∨ ((rd cb i = 16 ∨ rd cb i = 5 ∨ rd cb i = 6 ∨ rd cb i = 9 ∨ rd cb i = 10) ∧
      5 ≤ i ∧ i ≤ 40 ∧ i % 9 ≠ 0) := by
  have hc := wf_cell cb h i
  cases hs : sentinel i with
  | true => exact Or.inl (hc.1 hs)
  | false =>
    right
    have hp := hc.2 hs
    simp only [playable, Bool.or_eq_true, beq_iff_eq] at hp
    simp only [sentinel, Bool.or_eq_false_iff, decide_eq_false_iff_not, beq_eq_false_iff_ne] at hs
    refine ⟨by tauto, by omega, by omega, ?_⟩
    exact hs.1.2

/-! ## The king helpers leave the board as they found it -/

theorem kingdir_board (self : Board → move2 → Nat → Board × List move2)
    (hself : ∀ cb org l, (self cb org l).1 = cb) (me opp : Nat) (org : move2) (a l : Nat)
    (st : Board × List move2 × Bool) :
    (kingdir self me opp org a l st).1 = st.1 := by
  unfold kingdir
  split_ifs
  · simp only [hself]
    exact wr_wr_restore _ _ _
  · rfl

theorem kingcapture_board (me opp : Nat) (f : Nat) :
    ∀ (cb : Board) (org : move2) (i : Nat), (kingcapture me opp f cb org i).1 = cb := by
  induction f with
  | zero => intro cb org i; rfl
  | succ f ih =>
    intro cb org i
    simp only [kingcapture]
    split_ifs <;> simp only [kingdir_board _ ih]

theorem kingdir_eq (me opp f : Nat) (org : move2) (a l : Nat) (cb : Board) (ml : List move2)
    (found : Bool) :
    kingdir (kingcapture me opp f) me opp org a l (cb, ml, found) =
      (cb, ml ++ kingbranch me opp f cb org a l, found || canjump cb opp a l) := by
  unfold kingdir kingbranch
  by_cases h : canjump cb opp a l = true
  · simp only [h, if_true, kingcapture_board, wr_wr_restore, Bool.or_true]
  · simp only [h, if_false, List.append_nil, Bool.not_eq_true] at *
    simp [h]

/-- The list a king helper returns, with the board threading resolved. -/
theorem kingcapture_succ (me opp f : Nat) (cb : Board) (org : move2) (i : Nat) :
    (kingcapture me opp (f + 1) cb org i).2 =
      if canjump cb opp (i - 4) (i - 8) || canjump cb opp (i - 5) (i - 10) ||
          canjump cb opp (i + 4) (i + 8) || canjump cb opp (i + 5) (i + 10) then
        kingbranch me opp f cb org (i - 4) (i - 8) ++ kingbranch me opp f cb org (i - 5) (i - 10) ++
        kingbranch me opp f cb org (i + 4) (i + 8) ++ kingbranch me opp f cb org (i + 5) (i + 10)
      else [org] := by
  simp only [kingcapture, kingdir_eq, List.nil_append, Bool.false_or]
  split_ifs <;> simp_all

theorem kingcapture_ne_nil (me opp : Nat) (f : Nat) :
    ∀ (cb : Board) (org : move2) (i : Nat), (kingcapture me opp f cb org i).2 ≠ [] := by
  induction f with
  | zero => intro cb org i; simp [kingcapture]
  | succ f ih =>
    intro cb org i
    rw [kingcapture_succ]
    split_ifs with h
    · simp only [Bool.or_eq_true] at h
      simp only [ne_eq, List.append_eq_nil, not_and]
      unfold kingbranch
      rcases h with ((h | h) | h) | h <;> simp [h, ih]
    · simp

theorem blackmancapture_ne_nil (f : Nat) :
    ∀ (cb : Board) (org : move2) (i : Nat), blackmancapture f cb org i ≠ [] := by
  induction f with
  | zero => intro cb org i; simp [blackmancapture]
  | succ f ih =>
    intro cb org i
    simp only [blackmancapture]
    split_ifs <;> simp_all

theorem whitemancapture_ne_nil (f : Nat) :
    ∀ (cb : Board) (org : move2) (i : Nat), whitemancapture f cb org i ≠ [] := by
  induction f with
  | zero => intro cb org i; simp [whitemancapture]
  | succ f ih =>
    intro cb org i
    simp only [whitemancapture]
    split_ifs <;> simp_all

/-! ## `generatecapturelist` as a list of per-cell contributions -/

theorem manfirst_eq (helper : Nat → Board → move2 → Nat → List move2) (opp man after : Nat)
    (i a l : Nat) (cb : Board) (ml : List move2) :
    manfirst helper opp man after i a l (cb, ml) =
      (cb, ml ++ manstart helper opp man after cb i a l) := by
  unfold manfirst manstart
  split_ifs <;> simp

theorem kingfirst_eq (me opp : Nat) (i a l : Nat) (cb : Board) (ml : List move2)
    (hme : rd cb i = me) :
    kingfirst me opp i a l (cb, ml) = (cb, ml ++ kingstart me opp cb i a l) := by
  unfold kingfirst kingstart
  split_ifs
  · simp only [kingcapture_board, Prod.mk.injEq, and_true]
    apply board_ext
    · simp [length_wr]
    · intro j
      simp only [rd_wr, length_wr]
      by_cases h1 : i = j
      · subst h1
        by_cases h2 : i < cb.length
        · simp [h2, hme]
        · have h0 := rd_of_le cb i (Nat.le_of_not_lt h2)
          simp only [h2, and_false, if_false, ← hme, h0]
          split_ifs with h5
          · exact absurd (h5.1 ▸ h5.2) h2
          · rfl
      · by_cases h3 : a = j
        · subst h3
          by_cases h4 : a < cb.length
          · simp [h1, h4]
          · simp [h1, h4]
        · simp [h1, h3]
  · simp

/-- A black piece without the MAN flag is the black king, on a well-formed board. -/
theorem wf_black_king (cb : Board) (h : wellformed cb = true) (i : Nat)
    (hb : rd cb i &&& BLACK ≠ 0) (hm : ¬ rd cb i &&& MAN ≠ 0) : rd cb i = BLACK ||| KING := by
  rcases wf_vals cb h i with h0 | ⟨hv, _⟩
  · rw [h0] at hb; exact absurd rfl hb
  · rcases hv with hv | hv | hv | hv | hv <;> rw [hv] at hb hm ⊢ <;> revert hb hm <;> decide

/-- A white piece without the MAN flag is the white king, on a well-formed board. -/
theorem wf_white_king (cb : Board) (h : wellformed cb = true) (i : Nat)
    (hb : rd cb i &&& WHITE ≠ 0) (hm : ¬ rd cb i &&& MAN ≠ 0) : rd cb i = WHITE ||| KING := by
  rcases wf_vals cb h i with h0 | ⟨hv, _⟩
  · rw [h0] at hb; exact absurd rfl hb
  · rcases hv with hv | hv | hv | hv | hv <;> rw [hv] at hb hm ⊢ <;> revert hb hm <;> decide

theorem blackcaptures_eq (cb : Board) (h : wellformed cb = true) (i : Nat)
    (ml : List move2) : blackcaptures (cb, ml) i = (cb, ml ++ blackcaps cb i) := by
  unfold blackcaptures blackcaps
  by_cases hb : rd cb i &&& BLACK ≠ 0
  · by_cases hm : rd cb i &&& MAN ≠ 0
    · rw [if_pos hb, if_pos hm, if_pos hb, if_pos hm]
      dsimp only
      simp only [manfirst_eq, List.append_assoc]
    · have hk := wf_black_king cb h i hb hm
      rw [if_pos hb, if_neg hm, if_pos hb, if_neg hm]
      dsimp only
      rw [kingfirst_eq _ _ _ _ _ _ _ hk, kingfirst_eq _ _ _ _ _ _ _ hk,
        kingfirst_eq _ _ _ _ _ _ _ hk, kingfirst_eq _ _ _ _ _ _ _ hk]
      simp only [List.append_assoc]
  · rw [if_neg hb, if_neg hb, List.append_nil]

theorem whitecaptures_eq (cb : Board) (h : wellformed cb = true) (i : Nat)
    (ml : List move2) : whitecaptures (cb, ml) i = (cb, ml ++ whitecaps cb i) := by
  unfold whitecaptures whitecaps
  by_cases hb : rd cb i &&& WHITE ≠ 0
  · by_cases hm : rd cb i &&& MAN ≠ 0
    · rw [if_pos hb, if_pos hm, if_pos hb, if_pos hm]
      dsimp only
      simp only [manfirst_eq, List.append_assoc]
    · have hk := wf_white_king cb h i hb hm
      rw [if_pos hb, if_neg hm, if_pos hb, if_neg hm]
      dsimp only
      rw [kingfirst_eq _ _ _ _ _ _ _ hk, kingfirst_eq _ _ _ _ _ _ _ hk,
        kingfirst_eq _ _ _ _ _ _ _ hk, kingfirst_eq _ _ _ _ _ _ _ hk]
      simp only [List.append_assoc]
  · rw [if_neg hb, if_neg hb, List.append_nil]

theorem foldl_cells (step : Board × List move2 → Nat → Board × List move2)
    (g : Nat → List move2) (cb : Board) (cells : List Nat) :
    (∀ i ∈ cells, ∀ ml, step (cb, ml) i = (cb, ml ++ g i)) →
    ∀ ml, cells.foldl step (cb, ml) = (cb, ml ++ cells.flatMap g) := by
  induction cells with
  | nil => intro _ ml; simp
  | cons c cs ih =>
    intro hstep ml
    rw [List.foldl_cons, hstep c (List.mem_cons_self _ _)]
    rw [ih (fun i hi => hstep i (List.mem_cons_of_mem _ hi))]
    simp [List.flatMap_cons]

theorem generatecapturelist_black (cb : Board) (h : wellformed cb = true) :
    generatecapturelist cb BLACK = (cb, (List.range' 5 36).flatMap (blackcaps cb)) := by
  unfold generatecapturelist
  rw [if_pos rfl, foldl_cells blackcaptures (blackcaps cb) cb]
  · rw [List.nil_append]
  · intro i _ ml
    exact blackcaptures_eq cb h i ml

theorem generatecapturelist_white (cb : Board) (h : wellformed cb = true) :
    generatecapturelist cb WHITE = (cb, (List.range' 5 36).flatMap (whitecaps cb)) := by
  unfold generatecapturelist
  rw [if_neg (by decide), foldl_cells whitecaptures (whitecaps cb) cb]
  · rw [List.nil_append]
  · intro i _ ml
    exact whitecaptures_eq cb h i ml

/-- The call `generatecapturelist` returns with the board it was given. -/
theorem generatecapturelist_board (cb : Board) (h : wellformed cb = true) (color : Nat)
    (hc : color = BLACK ∨ color = WHITE) : (generatecapturelist cb color).1 = cb := by
  rcases hc with hc | hc <;> subst hc
  · rw [generatecapturelist_black cb h]
  · rw [generatecapturelist_white cb h]

/-! ## C3: `testcapture` agrees with `generatecapturelist` -/

theorem manstart_eq_nil (helper : Nat → Board → move2 → Nat → List move2)
    (hh : ∀ f cb org i, helper f cb org i ≠ []) (opp man after : Nat) (cb : Board) (i a l : Nat) :
    manstart helper opp man after cb i a l = [] ↔ canjump cb opp a l = false := by
  unfold manstart
  by_cases h : canjump cb opp a l = true
  · simp [h, hh]
  · simp [h]

theorem kingstart_eq_nil (me opp : Nat) (cb : Board) (i a l : Nat) :
    kingstart me opp cb i a l = [] ↔ canjump cb opp a l = false := by
  unfold kingstart
  by_cases h : canjump cb opp a l = true
  · simp [h, kingcapture_ne_nil]
  · simp [h]

theorem blackcaps_eq_nil (cb : Board) (i : Nat) : blackcaps cb i = [] ↔ blacktest cb i = false := by
  unfold blackcaps blacktest
  split_ifs <;>
    simp [manstart_eq_nil _ blackmancapture_ne_nil, kingstart_eq_nil, and_assoc]

theorem whitecaps_eq_nil (cb : Board) (i : Nat) : whitecaps cb i = [] ↔ whitetest cb i = false := by
  unfold whitecaps whitetest
  split_ifs <;>
    simp [manstart_eq_nil _ whitemancapture_ne_nil, kingstart_eq_nil, and_assoc]

theorem flatMap_length_pos (g : Nat → List move2) (t : Nat → Bool)
    (hg : ∀ i, g i = [] ↔ t i = false) (cells : List Nat) :
    0 < (cells.flatMap g).length ↔ cells.any t = true := by
  induction cells with
  | nil => simp
  | cons c cs ih =>
    rw [List.flatMap_cons, List.length_append, List.any_cons, Bool.or_eq_true, ← ih]
    have := hg c
    cases ht : t c with
    | true =>
      have hne : g c ≠ [] := fun he => by rw [this.1 he] at ht; exact Bool.noConfusion ht
      have : 0 < (g c).length := List.length_pos.2 hne
      constructor
      · intro _; exact Or.inl rfl
      · intro _; omega
    | false =>
      rw [this.2 ht]
      simp

theorem testcapture_eq_one_iff (cb : Board) (color : Nat)
    (hwf : wellformed cb = true) (hc : color = BLACK ∨ color = WHITE) :
    testcapture cb color = 1 ↔ 0 < (generatecapturelist cb color).2.length := by
  rcases hc with hc | hc <;> subst hc
  · rw [generatecapturelist_black cb hwf, flatMap_length_pos _ _ (blackcaps_eq_nil cb)]
    unfold testcapture
    rw [if_pos rfl]
    split_ifs with h <;> simp [h]
  · rw [generatecapturelist_white cb hwf, flatMap_length_pos _ _ (whitecaps_eq_nil cb)]
    unfold testcapture
    rw [if_neg (by decide)]
    split_ifs with h <;> simp [h]

/-- C3: on a well-formed board, `testcapture(colour)` returns 1 exactly when
`generatecapturelist(colour)` returns a count greater than 0. -/
theorem testcapture_iff_capturelist (cb : Board) (color : Nat)
    (hwf : wellformed cb = true) (hc : color = BLACK ∨ color = WHITE) :
    testcapture cb color = 1 ↔ 0 < (generatecapturelist cb color).2.length :=
  testcapture_eq_one_iff cb color hwf hc

/-! ## Legs, `domove` and well-formedness under writes -/

theorem leg_square (after before sq : Nat) (hs : sq < 256) : leg after before sq % 256 = sq := by
  unfold leg
  simp only [Nat.shiftLeft_eq]
  omega

theorem leg_after (after before sq : Nat) (ha : after < 256) (hb : before < 256) (hs : sq < 256) :
    (leg after before sq >>> 16) % 256 = after := by
  unfold leg
  simp only [Nat.shiftLeft_eq, Nat.shiftRight_eq_div_pow]
  omega

theorem leg_before (after before sq : Nat) (hb : before < 256) (hs : sq < 256) :
    (leg after before sq >>> 8) % 256 = before := by
  unfold leg
  simp only [Nat.shiftLeft_eq, Nat.shiftRight_eq_div_pow]
  omega

theorem domove_cons (cb : Board) (m : Nat) (ms : move2) :
    domove cb (m :: ms) = domove (wr cb (m % 256) ((m >>> 16) % 256)) ms := rfl

theorem domove_length (ms : move2) : ∀ cb : Board, (domove cb ms).length = cb.length := by
  induction ms with
  | nil => intro cb; rfl
  | cons m ms ih => intro cb; rw [domove_cons, ih, length_wr]

/-- A cell no leg addresses keeps its value. -/
theorem domove_untouched (j : Nat) (ms : move2) : ∀ cb : Board, (∀ x ∈ ms, x % 256 ≠ j) →
    rd (domove cb ms) j = rd cb j := by
  induction ms with
  | nil => intro cb _; rfl
  | cons m ms ih =>
    intro cb h
    rw [domove_cons, ih _ (fun x hx => h x (List.mem_cons_of_mem _ hx)), rd_wr]
    simp [h m (List.mem_cons_self _ _)]

theorem wellformed_iff (cb : Board) :
    wellformed cb = true ↔ cb.length = 46 ∧
      ∀ i, i < 46 → (if sentinel i then rd cb i = 0 else playable (rd cb i) = true) := by
  unfold wellformed
  simp only [Bool.and_eq_true, beq_iff_eq, List.all_eq_true, List.mem_range]
  constructor
  · rintro ⟨h1, h2⟩
    refine ⟨h1, fun i hi => ?_⟩
    have := h2 i hi
    split_ifs with hs <;> simp_all
  · rintro ⟨h1, h2⟩
    refine ⟨h1, fun i hi => ?_⟩
    have := h2 i hi
    split_ifs with hs <;> simp_all

/-- Clearing a cell that holds something keeps the board well-formed. -/
theorem wf_wr_free (cb : Board) (h : wellformed cb = true) (a : Nat) (ha : rd cb a ≠ 0) :
    wellformed (wr cb a FREE) = true := by
  rw [wellformed_iff] at h ⊢
  refine ⟨by rw [length_wr]; exact h.1, fun i hi => ?_⟩
  have hc := h.2 i hi
  rw [rd_wr]
  by_cases hai : a = i
  · subst hai
    have hns : sentinel a = false := by
      cases hs : sentinel a with
      | false => rfl
      | true => rw [hs] at hc; exact absurd (by simpa using hc) ha
    rw [hns] at hc ⊢
    simp only [Bool.false_eq_true, if_false, true_and] at hc ⊢
    split_ifs
    · rfl
    · exact hc
  · simp only [hai, false_and, if_false]
    exact hc

theorem wf_le16 (cb : Board) (h : wellformed cb = true) (i : Nat) : rd cb i ≤ 16 := by
  rcases wf_vals cb h i with h0 | ⟨hv, _⟩
  · omega
  · omega

/-- What a successful jump test says on a well-formed board. -/
theorem canjump_facts (cb : Board) (h : wellformed cb = true) (opp a l : Nat)
    (hj : canjump cb opp a l = true) :
    rd cb a &&& opp ≠ 0 ∧ rd cb a ≠ 0 ∧ 5 ≤ a ∧ a ≤ 40 ∧ rd cb l = FREE ∧ 5 ≤ l ∧ l ≤ 40 := by
  unfold canjump at hj
  simp only [Bool.and_eq_true, bne_iff_ne, ne_eq] at hj
  obtain ⟨h1, h2⟩ := hj
  have ha0 : rd cb a ≠ 0 := fun h0 => h1 (by rw [h0]; exact Nat.zero_and _)
  have hl0 : rd cb l ≠ 0 := fun h0 => h2 (by rw [h0]; exact Nat.zero_and _)
  have hva := wf_vals cb h a
  have hvl := wf_vals cb h l
  refine ⟨h1, ha0, by omega, by omega, ?_, by omega, by omega⟩
  rcases hvl with h0 | ⟨hv, _⟩
  · exact absurd h0 hl0
  · rcases hv with hv | hv | hv | hv | hv <;> rw [hv] at h2 ⊢ <;> first | rfl | exact absurd rfl h2

theorem countP_set_lt (p : Nat → Bool) (v : Nat) (hv : p v = false) :
    ∀ (l : List Nat) (a : Nat), p (l.getD a 0) = true → a < l.length →
      (l.set a v).countP p + 1 = l.countP p := by
  intro l
  induction l with
  | nil => intro a _ h; simp at h
  | cons x xs ih =>
    intro a hp ha
    cases a with
    | zero =>
      simp only [List.getD_cons_zero] at hp
      simp [List.set, List.countP_cons, hv, hp]
    | succ a =>
      simp only [List.getD_cons_succ] at hp
      simp only [List.set, List.countP_cons]
      have := ih a hp (by simpa using ha)
      omega

theorem flagcount_wr_free (opp : Nat) (ho : opp = 1 ∨ opp = 2) (cb : Board) (a : Nat)
    (h : rd cb a &&& opp ≠ 0) : flagcount opp (wr cb a FREE) + 1 = flagcount opp cb := by
  unfold flagcount wr
  apply countP_set_lt
  · rcases ho with ho | ho <;> subst ho <;> decide
  · simpa [rd] using h
  · exact lt_of_rd_ne cb a (fun h0 => h (by rw [h0]; exact Nat.zero_and _))

theorem flagcount_zero (opp : Nat) (cb : Board) (h : flagcount opp cb = 0) (a : Nat) :
    rd cb a &&& opp = 0 := by
  by_contra hne
  have hlt := lt_of_rd_ne cb a (fun h0 => hne (by rw [h0]; exact Nat.zero_and _))
  unfold flagcount at h
  rw [List.countP_eq_zero] at h
  have hmem : rd cb a ∈ cb := by
    unfold rd
    rw [List.getD_eq_getElem?_getD, List.getElem?_eq_getElem hlt]
    exact List.getElem_mem hlt
  have := h _ hmem
  simp at this
  exact hne this

theorem extend_cons (m0 m1 : Nat) (caps : move2) (land cap : Nat) :
    extend (m0 :: m1 :: caps) land cap = m0 :: land :: (caps ++ [cap]) := rfl

theorem wr_comm_free (cb : Board) (a i : Nat) :
    wr (wr cb a FREE) i FREE = wr (wr cb i FREE) a FREE := by
  apply board_ext
  · simp [length_wr]
  · intro j
    simp only [rd_wr, length_wr]
    split_ifs <;> rfl

/-- With at least as much fuel as there are opposing pieces on the board, one
more unit of fuel changes nothing in what a king helper returns. -/
theorem kingcapture_fuel_stable (me opp : Nat) (ho : opp = 1 ∨ opp = 2) :
    ∀ (f : Nat) (cb : Board) (org : move2) (i : Nat), flagcount opp cb ≤ f →
      kingcapture me opp (f + 1) cb org i = kingcapture me opp f cb org i := by
  have hz : ∀ cb : Board, flagcount opp cb = 0 → ∀ a l, canjump cb opp a l = false := by
    intro cb h a l
    unfold canjump
    rw [flagcount_zero _ cb h a]
    rfl
  intro f
  induction f with
  | zero =>
    intro cb org i hcnt
    have h0 := hz cb (Nat.le_zero.1 hcnt)
    apply Prod.ext
    · rw [kingcapture_board, kingcapture_board]
    · rw [kingcapture_succ]
      simp only [h0, Bool.or_self, Bool.false_eq_true, if_false, kingcapture]
  | succ f ih =>
    intro cb org i hcnt
    have hbr : ∀ a l, kingbranch me opp (f + 1) cb org a l = kingbranch me opp f cb org a l := by
      intro a l
      unfold kingbranch
      by_cases hj : canjump cb opp a l = true
      · rw [if_pos hj, if_pos hj, ih]
        have hbit : rd cb a &&& opp ≠ 0 := by
          unfold canjump at hj
          simp only [Bool.and_eq_true, bne_iff_ne, ne_eq] at hj
          exact hj.1
        have := flagcount_wr_free opp ho cb a hbit
        omega
      · rw [if_neg hj, if_neg hj]
    apply Prod.ext
    · rw [kingcapture_board, kingcapture_board]
    · rw [kingcapture_succ, kingcapture_succ]
      simp only [hbr]

/-- From landing cell `i` a black man needs at most `(46 - i) / 8` further
units of fuel. -/
theorem blackmancapture_fuel_stable (cb : Board) (hlen : cb.length ≤ 46) :
    ∀ (f : Nat) (org : move2) (i : Nat), 46 ≤ i + 8 * f →
      blackmancapture (f + 1) cb org i = blackmancapture f cb org i := by
  intro f
  induction f with
  | zero =>
    intro org i hf
    have hz : ∀ a l, i < a → canjump cb WHITE a l = false := by
      intro a l ha
      unfold canjump
      rw [rd_of_le cb a (by omega)]
      rfl
    simp only [blackmancapture, hz _ _ (show i < i + 4 by omega),
      hz _ _ (show i < i + 5 by omega), Bool.or_self, Bool.false_eq_true, if_false]
  | succ f ih =>
    intro org i hf
    rw [blackmancapture]
    simp only [ih _ (i + 8) (by omega), ih _ (i + 10) (by omega)]
    rw [blackmancapture]

/-- From landing cell `i` a white man needs at most `(i - 5) / 8` further units
of fuel. -/
theorem whitemancapture_fuel_stable (cb : Board) (hwf : wellformed cb = true) :
    ∀ (f : Nat) (org : move2) (i : Nat), i ≤ 8 * f + 12 →
      whitemancapture (f + 1) cb org i = whitemancapture f cb org i := by
  intro f
  induction f with
  | zero =>
    intro org i hf
    have hz : ∀ a l, l < 5 → canjump cb BLACK a l = false := by
      intro a l hl
      by_contra hj
      rw [Bool.not_eq_false] at hj
      have := canjump_facts cb hwf _ a l hj
      omega
    simp only [whitemancapture, hz _ _ (show i - 8 < 5 by omega),
      hz _ _ (show i - 10 < 5 by omega), Bool.or_self, Bool.false_eq_true, if_false]
  | succ f ih =>
    intro org i hf
    rw [whitemancapture]
    simp only [ih _ (i - 8) (by omega), ih _ (i - 10) (by omega)]
    rw [whitemancapture]

/-! ## C5: `generatemovelist` lists exactly the quiet moves -/

theorem free_iff (cb : Board) (hwf : wellformed cb = true) (j : Nat) :
    rd cb j &&& FREE ≠ 0 ↔ rd cb j = FREE := by
  rcases wf_vals cb hwf j with h0 | ⟨hv, _⟩
  · rw [h0]; decide
  · rcases hv with hv | hv | hv | hv | hv <;> rw [hv] <;> decide

theorem free_cell (cb : Board) (hwf : wellformed cb = true) (j : Nat) (h : rd cb j = FREE) :
    5 ≤ j ∧ j ≤ 40 ∧ j % 9 ≠ 0 := by
  rcases wf_vals cb hwf j with h0 | ⟨_, h⟩
  · rw [h0] at h; exact absurd h (by decide)
  · exact h

theorem quiet_mem (cb : Board) (hwf : wellformed cb = true) (i j after before : Nat)
    (mv : move2) : mv ∈ quiet cb i j after before ↔
      rd cb j = FREE ∧ mv = [leg FREE before i, leg after FREE j] := by
  unfold quiet
  rw [← free_iff cb hwf j]
  split_ifs with h
  · simp [h]
  · simp [h]

theorem validpair_iff (cb : Board) (color i j : Nat) :
    validpair cb color i j = true ↔
      (rd cb i = (color ||| MAN) ∨ rd cb i = (color ||| KING)) ∧ rd cb j = FREE ∧
      (if rd cb i = (color ||| MAN) then
        (if color = BLACK then j = i + 4 ∨ j = i + 5 else j + 4 = i ∨ j + 5 = i)
      else j = i + 4 ∨ j = i + 5 ∨ j + 4 = i ∨ j + 5 = i) := by
  unfold validpair ownpiece legaldir
  split_ifs <;> simp [and_assoc, or_assoc]

/-- The pairs of a man: the landing state does not depend on how the
promotion test is written (`i >= 32` or `37 <= j` for BLACK, `i <= 13` or
`j <= 8` for WHITE), because the sentinel cells 36 and 9 are never FREE. -/
theorem blackman_pairs (cb : Board) (hwf : wellformed cb = true) (i : Nat)
    (hv : rd cb i = BLACK ||| MAN) (mv : move2) (d : Nat) (hd : d = 4 ∨ d = 5) :
    (rd cb (i + d) = FREE ∧ mv = [leg FREE (BLACK ||| MAN) i,
      leg (if i ≥ 32 then BLACK ||| KING else BLACK ||| MAN) FREE (i + d)]) ↔
    (rd cb (i + d) = FREE ∧ mv = quietmove cb BLACK i (i + d)) := by
  unfold quietmove landedas
  rw [hv]
  constructor <;> rintro ⟨hf, rfl⟩ <;> refine ⟨hf, ?_⟩ <;> have := free_cell cb hwf _ hf <;>
    by_cases h32 : i ≥ 32
  · rw [if_pos h32, if_pos ⟨rfl, by rw [if_pos rfl]; omega⟩]
  · rw [if_neg h32, if_neg (fun h => by rw [if_pos rfl] at h; omega)]
  · rw [if_pos h32, if_pos ⟨rfl, by rw [if_pos rfl]; omega⟩]
  · rw [if_neg h32, if_neg (fun h => by rw [if_pos rfl] at h; omega)]

theorem whiteman_pairs (cb : Board) (hwf : wellformed cb = true) (i : Nat)
    (hv : rd cb i = WHITE ||| MAN) (mv : move2) (d : Nat) (hd : d = 4 ∨ d = 5) :
    (rd cb (i - d) = FREE ∧ mv = [leg FREE (WHITE ||| MAN) i,
      leg (if i ≤ 13 then WHITE ||| KING else WHITE ||| MAN) FREE (i - d)]) ↔
    (rd cb (i - d) = FREE ∧ mv = quietmove cb WHITE i (i - d)) := by
  unfold quietmove landedas
  rw [hv]
  have hw : ¬ (WHITE = BLACK) := by decide
  constructor <;> rintro ⟨hf, rfl⟩ <;> refine ⟨hf, ?_⟩ <;> have := free_cell cb hwf _ hf <;>
    by_cases h13 : i ≤ 13
  · rw [if_pos h13, if_pos ⟨rfl, by rw [if_neg hw]; omega⟩]
  · rw [if_neg h13, if_neg (fun h => by rw [if_neg hw] at h; omega)]
  · rw [if_pos h13, if_pos ⟨rfl, by rw [if_neg hw]; omega⟩]
  · rw [if_neg h13, if_neg (fun h => by rw [if_neg hw] at h; omega)]

theorem king_pairs (cb : Board) (color i j : Nat) (hv : rd cb i = color ||| KING)
    (hne : color ||| KING ≠ color ||| MAN) (mv : move2) :
    mv = [leg FREE (color ||| KING) i, leg (color ||| KING) FREE j] ↔
      mv = quietmove cb color i j := by
  unfold quietmove landedas
  rw [hv, if_neg (fun h => hne h.1)]

theorem blackmoves_mem (cb : Board) (hwf : wellformed cb = true) (i : Nat) (mv : move2) :
    mv ∈ blackmoves cb i ↔ ∃ j, validpair cb BLACK i j = true ∧ mv = quietmove cb BLACK i j := by
  have hvals := wf_vals cb hwf i
  unfold blackmoves
  simp only [validpair_iff]
  by_cases hb : rd cb i &&& BLACK ≠ 0
  · rw [if_pos hb]
    have hi5 : 5 ≤ i := by
      rcases hvals with h0 | ⟨_, h, _⟩
      · rw [h0] at hb; exact absurd rfl hb
      · exact h
    by_cases hm : rd cb i &&& MAN ≠ 0
    · have hv : rd cb i = BLACK ||| MAN := by
        rcases hvals with h0 | ⟨hv, _⟩
        · rw [h0] at hb; exact absurd rfl hb
        · rcases hv with hv | hv | hv | hv | hv <;> rw [hv] at hb hm ⊢ <;> revert hb hm <;> decide
      have hk : ¬ rd cb i &&& KING ≠ 0 := by rw [hv]; decide
      rw [if_pos hm, if_neg hk, List.append_nil, List.mem_append, quiet_mem cb hwf,
        quiet_mem cb hwf, blackman_pairs cb hwf i hv mv 4 (Or.inl rfl),
        blackman_pairs cb hwf i hv mv 5 (Or.inr rfl)]
      simp only [hv, true_or, true_and, if_true]
      constructor
      · rintro (⟨hf, h⟩ | ⟨hf, h⟩)
        · exact ⟨i + 4, ⟨hf, Or.inl rfl⟩, h⟩
        · exact ⟨i + 5, ⟨hf, Or.inr rfl⟩, h⟩
      · rintro ⟨j, ⟨hf, hd | hd⟩, h⟩
        · subst hd; exact Or.inl ⟨hf, h⟩
        · subst hd; exact Or.inr ⟨hf, h⟩
    · have hv := wf_black_king cb hwf i hb hm
      have hk : rd cb i &&& KING ≠ 0 := by rw [hv]; decide
      have hne : BLACK ||| KING ≠ BLACK ||| MAN := by decide
      rw [if_neg hm, if_pos hk, List.nil_append]
      simp only [List.mem_append, quiet_mem cb hwf, king_pairs cb BLACK i _ hv hne]
      simp only [hv, hne, or_true, true_and, if_false]
      constructor
      · rintro (((⟨hf, h⟩ | ⟨hf, h⟩) | ⟨hf, h⟩) | ⟨hf, h⟩)
        · exact ⟨i + 4, ⟨hf, Or.inl rfl⟩, h⟩
        · exact ⟨i + 5, ⟨hf, Or.inr (Or.inl rfl)⟩, h⟩
        · exact ⟨i - 4, ⟨hf, Or.inr (Or.inr (Or.inl (by omega)))⟩, h⟩
        · exact ⟨i - 5, ⟨hf, Or.inr (Or.inr (Or.inr (by omega)))⟩, h⟩
      · rintro ⟨j, ⟨hf, hd | hd | hd | hd⟩, h⟩
        · subst hd; exact Or.inl (Or.inl (Or.inl ⟨hf, h⟩))
        · subst hd; exact Or.inl (Or.inl (Or.inr ⟨hf, h⟩))
        · have : j = i - 4 := by omega
          subst this; exact Or.inl (Or.inr ⟨hf, h⟩)
        · have : j = i - 5 := by omega
          subst this; exact Or.inr ⟨hf, h⟩
  · rw [if_neg hb]
    simp only [List.not_mem_nil, false_iff, not_exists, not_and]
    rintro j ⟨h | h, _⟩ <;> rw [h] at hb <;> exact absurd (by decide) hb

theorem whitemoves_mem (cb : Board) (hwf : wellformed cb = true) (i : Nat) (mv : move2) :
    mv ∈ whitemoves cb i ↔ ∃ j, validpair cb WHITE i j = true ∧ mv = quietmove cb WHITE i j := by
  have hvals := wf_vals cb hwf i
  unfold whitemoves
  simp only [validpair_iff]
  have hw : ¬ (WHITE = BLACK) := by decide
  by_cases hb : rd cb i &&& WHITE ≠ 0
  · rw [if_pos hb]
    have hi5 : 5 ≤ i := by
      rcases hvals with h0 | ⟨_, h, _⟩
      · rw [h0] at hb; exact absurd rfl hb
      · exact h
    by_cases hm : rd cb i &&& MAN ≠ 0
    · have hv : rd cb i = WHITE ||| MAN := by
        rcases hvals with h0 | ⟨hv, _⟩
        · rw [h0] at hb; exact absurd rfl hb
        · rcases hv with hv | hv | hv | hv | hv <;> rw [hv] at hb hm ⊢ <;> revert hb hm <;> decide
      have hk : ¬ rd cb i &&& KING ≠ 0 := by rw [hv]; decide
      rw [if_pos hm, if_neg hk, List.append_nil, List.mem_append, quiet_mem cb hwf,
        quiet_mem cb hwf, whiteman_pairs cb hwf i hv mv 4 (Or.inl rfl),
        whiteman_pairs cb hwf i hv mv 5 (Or.inr rfl)]
      simp only [hv, hw, true_or, true_and, if_true, if_false]
      constructor
      · rintro (⟨hf, h⟩ | ⟨hf, h⟩)
        · exact ⟨i - 4, ⟨hf, Or.inl (by omega)⟩, h⟩
        · exact ⟨i - 5, ⟨hf, Or.inr (by omega)⟩, h⟩
      · rintro ⟨j, ⟨hf, hd | hd⟩, h⟩
        · have : j = i - 4 := by omega
          subst this; exact Or.inl ⟨hf, h⟩
        · have : j = i - 5 := by omega
          subst this; exact Or.inr ⟨hf, h⟩
    · have hv := wf_white_king cb hwf i hb hm
      have hk : rd cb i &&& KING ≠ 0 := by rw [hv]; decide
      have hne : WHITE ||| KING ≠ WHITE ||| MAN := by decide
      rw [if_neg hm, if_pos hk, List.nil_append]
      simp only [List.mem_append, quiet_mem cb hwf, king_pairs cb WHITE i _ hv hne]
      simp only [hv, hne, or_true, true_and, if_false]
      constructor
      · rintro (((⟨hf, h⟩ | ⟨hf, h⟩) | ⟨hf, h⟩) | ⟨hf, h⟩)
        · exact ⟨i + 4, ⟨hf, Or.inl rfl⟩, h⟩
        · exact ⟨i + 5, ⟨hf, Or.inr (Or.inl rfl)⟩, h⟩
        · exact ⟨i - 4, ⟨hf, Or.inr (Or.inr (Or.inl (by omega)))⟩, h⟩
        · exact ⟨i - 5, ⟨hf, Or.inr (Or.inr (Or.inr (by omega)))⟩, h⟩
      · rintro ⟨j, ⟨hf, hd | hd | hd | hd⟩, h⟩
        · subst hd; exact Or.inl (Or.inl (Or.inl ⟨hf, h⟩))
        · subst hd; exact Or.inl (Or.inl (Or.inr ⟨hf, h⟩))
        · have : j = i - 4 := by omega
          subst this; exact Or.inl (Or.inr ⟨hf, h⟩)
        · have : j = i - 5 := by omega
          subst this; exact Or.inr ⟨hf, h⟩
  · rw [if_neg hb]
    simp only [List.not_mem_nil, false_iff, not_exists, not_and]
    rintro j ⟨h | h, _⟩ <;> rw [h] at hb <;> exact absurd (by decide) hb

theorem quietmove_squares (cb : Board) (color i j : Nat) (hi : i < 256) (hj : j < 256) :
    (quietmove cb color i j).getD 0 0 % 256 = i ∧ (quietmove cb color i j).getD 1 0 % 256 = j := by
  unfold quietmove
  exact ⟨leg_square _ _ _ hi, leg_square _ _ _ hj⟩

theorem validpair_cells (cb : Board) (hwf : wellformed cb = true) (color : Nat)
    (hc : color = BLACK ∨ color = WHITE) (i j : Nat) (h : validpair cb color i j = true) :
    5 ≤ i ∧ i ≤ 40 ∧ 5 ≤ j ∧ j ≤ 40 := by
  rw [validpair_iff] at h
  obtain ⟨hp, hf, _⟩ := h
  have hj := free_cell cb hwf j hf
  have hi0 : rd cb i ≠ 0 := by
    rcases hc with hc | hc <;> subst hc <;> rcases hp with hp | hp <;> rw [hp] <;> decide
  rcases wf_vals cb hwf i with h0 | ⟨_, h5, h40, _⟩
  · exact absurd h0 hi0
  · exact ⟨h5, h40, hj.1, hj.2.1⟩

/-- Different pairs give different moves. -/
theorem quietmove_inj (cb : Board) (hwf : wellformed cb = true) (color : Nat)
    (hc : color = BLACK ∨ color = WHITE) (i j i' j' : Nat)
    (h : validpair cb color i j = true) (h' : validpair cb color i' j' = true)
    (he : quietmove cb color i j = quietmove cb color i' j') : i = i' ∧ j = j' := by
  have hb := validpair_cells cb hwf color hc i j h
  have hb' := validpair_cells cb hwf color hc i' j' h'
  have hs := quietmove_squares cb color i j (by omega) (by omega)
  have hs' := quietmove_squares cb color i' j' (by omega) (by omega)
  rw [he] at hs
  exact ⟨hs.1.symm.trans hs'.1, hs.2.symm.trans hs'.2⟩

theorem quietlist_ne (m0 m0' a a' j j' : Nat) (hj : j < 256) (hj' : j' < 256) (hne : j ≠ j') :
    [m0, leg a FREE j] ≠ [m0', leg a' FREE j'] := by
  intro h
  have h1 : leg a FREE j = leg a' FREE j' := by
    have := congrArg (fun l => l.getD 1 0) h
    simpa using this
  have := congrArg (fun x => x % 256) h1
  simp only [leg_square _ _ _ hj, leg_square _ _ _ hj'] at this
  exact hne this

theorem quiet_nodup2 (cb : Board) (i j1 j2 a1 a2 b1 b2 : Nat) (h1 : j1 < 256) (h2 : j2 < 256)
    (hne : j1 ≠ j2) : (quiet cb i j1 a1 b1 ++ quiet cb i j2 a2 b2).Nodup := by
  unfold quiet
  have := quietlist_ne (leg FREE b1 i) (leg FREE b2 i) a1 a2 j1 j2 h1 h2 hne
  split_ifs <;> simp [this]

theorem quiet_nodup4 (cb : Board) (i j1 j2 j3 j4 a b : Nat) (h1 : j1 < 256) (h2 : j2 < 256)
    (h3 : j3 < 256) (h4 : j4 < 256) (h12 : j1 ≠ j2) (h13 : j1 ≠ j3) (h14 : j1 ≠ j4)
    (h23 : j2 ≠ j3) (h24 : j2 ≠ j4) (h34 : j3 ≠ j4) :
    (quiet cb i j1 a b ++ quiet cb i j2 a b ++ quiet cb i j3 a b ++ quiet cb i j4 a b).Nodup := by
  unfold quiet
  have e12 := quietlist_ne (leg FREE b i) (leg FREE b i) a a j1 j2 h1 h2 h12
  have e13 := quietlist_ne (leg FREE b i) (leg FREE b i) a a j1 j3 h1 h3 h13
  have e14 := quietlist_ne (leg FREE b i) (leg FREE b i) a a j1 j4 h1 h4 h14
  have e23 := quietlist_ne (leg FREE b i) (leg FREE b i) a a j2 j3 h2 h3 h23
  have e24 := quietlist_ne (leg FREE b i) (leg FREE b i) a a j2 j4 h2 h4 h24
  have e34 := quietlist_ne (leg FREE b i) (leg FREE b i) a a j3 j4 h3 h4 h34
  split_ifs <;> simp [e12, e13, e14, e23, e24, e34]

theorem blackmoves_nodup (cb : Board) (hwf : wellformed cb = true) (i : Nat) :
    (blackmoves cb i).Nodup := by
  have hvals := wf_vals cb hwf i
  unfold blackmoves
  by_cases hb : rd cb i &&& BLACK ≠ 0
  · rw [if_pos hb]
    have hi : 5 ≤ i ∧ i ≤ 40 := by
      rcases hvals with h0 | ⟨_, h, h', _⟩
      · rw [h0] at hb; exact absurd rfl hb
      · exact ⟨h, h'⟩
    by_cases hm : rd cb i &&& MAN ≠ 0
    · have hk : ¬ rd cb i &&& KING ≠ 0 := by
        rcases hvals with h0 | ⟨hv, _⟩
        · rw [h0] at hb; exact absurd rfl hb
        · rcases hv with hv | hv | hv | hv | hv <;> rw [hv] at hb hm ⊢ <;> revert hb hm <;> decide
      rw [if_pos hm, if_neg hk, List.append_nil]
      exact quiet_nodup2 cb i _ _ _ _ _ _ (by omega) (by omega) (by omega)
    · have hv := wf_black_king cb hwf i hb hm
      have hk : rd cb i &&& KING ≠ 0 := by rw [hv]; decide
      rw [if_neg hm, if_pos hk, List.nil_append]
      exact quiet_nodup4 cb i _ _ _ _ _ _ (by omega) (by omega) (by omega) (by omega)
        (by omega) (by omega) (by omega) (by omega) (by omega) (by omega)
  · rw [if_neg hb]
    exact List.nodup_nil

theorem whitemoves_nodup (cb : Board) (hwf : wellformed cb = true) (i : Nat) :
    (whitemoves cb i).Nodup := by
  have hvals := wf_vals cb hwf i
  unfold whitemoves
  by_cases hb : rd cb i &&& WHITE ≠ 0
  · rw [if_pos hb]
    have hi : 5 ≤ i ∧ i ≤ 40 := by
      rcases hvals with h0 | ⟨_, h, h', _⟩
      · rw [h0] at hb; exact absurd rfl hb
      · exact ⟨h, h'⟩
    by_cases hm : rd cb i &&& MAN ≠ 0
    · have hk : ¬ rd cb i &&& KING ≠ 0 := by
        rcases hvals with h0 | ⟨hv, _⟩
        · rw [h0] at hb; exact absurd rfl hb
        · rcases hv with hv | hv | hv | hv | hv <;> rw [hv] at hb hm ⊢ <;> revert hb hm <;> decide
      rw [if_pos hm, if_neg hk, List.append_nil]
      exact quiet_nodup2 cb i _ _ _ _ _ _ (by omega) (by omega) (by omega)
    · have hv := wf_white_king cb hwf i hb hm
      have hk : rd cb i &&& KING ≠ 0 := by rw [hv]; decide
      rw [if_neg hm, if_pos hk, List.nil_append]
      exact quiet_nodup4 cb i _ _ _ _ _ _ (by omega) (by omega) (by omega) (by omega)
        (by omega) (by omega) (by omega) (by omega) (by omega) (by omega)
  · rw [if_neg hb]
    exact List.nodup_nil

theorem cells_nodup (g : Nat → List move2) (color : Nat) (cb : Board)
    (hwf : wellformed cb = true) (hc : color = BLACK ∨ color = WHITE)
    (hmem : ∀ i mv, mv ∈ g i ↔ ∃ j, validpair cb color i j = true ∧ mv = quietmove cb color i j)
    (hnd : ∀ i, (g i).Nodup) (cells : List Nat) (hcells : cells.Nodup) :
    (cells.flatMap g).Nodup := by
  rw [List.nodup_flatMap]
  refine ⟨fun i _ => hnd i, hcells.pairwise_of_forall_ne ?_⟩
  intro i _ i' _ hne mv h h'
  obtain ⟨j, hv, rfl⟩ := (hmem i mv).1 h
  obtain ⟨j', hv', he⟩ := (hmem i' _).1 h'
  exact hne (quietmove_inj cb hwf color hc i j i' j' hv hv' he).1

/-- C5: on a well-formed board `generatemovelist(colour)` returns exactly one
2-leg move for each pair (cell `i` holding a piece of that colour, FREE diagonal
neighbour `j` in a rank-legal direction) and no other move; leg 0 is
`(i, piece -> FREE)` and leg 1 is `(j, FREE -> piece or its promoted form)`.
The three parts: the moves are those of the pairs, no move occurs twice, and
different pairs have different moves. -/
theorem generatemovelist_exact (cb : Board) (color : Nat) (hwf : wellformed cb = true)
    (hc : color = BLACK ∨ color = WHITE) :
    (∀ mv, mv ∈ generatemovelist cb color ↔
      ∃ i j, validpair cb color i j = true ∧ mv = quietmove cb color i j) ∧
    (generatemovelist cb color).Nodup ∧
    (∀ i j i' j', validpair cb color i j = true → validpair cb color i' j' = true →
      quietmove cb color i j = quietmove cb color i' j' → i = i' ∧ j = j') := by
  refine ⟨?_, ?_, quietmove_inj cb hwf color hc⟩
  · intro mv
    have key : ∀ (g : Nat → List move2), (∀ i mv, mv ∈ g i ↔
        ∃ j, validpair cb color i j = true ∧ mv = quietmove cb color i j) →
        (mv ∈ (List.range' 5 36).flatMap g ↔
          ∃ i j, validpair cb color i j = true ∧ mv = quietmove cb color i j) := by
      intro g hg
      rw [List.mem_flatMap]
      constructor
      · rintro ⟨i, _, h⟩
        exact ⟨i, (hg i mv).1 h⟩
      · rintro ⟨i, j, hv, he⟩
        have hb := validpair_cells cb hwf color hc i j hv
        exact ⟨i, by rw [List.mem_range'_1]; omega, (hg i mv).2 ⟨j, hv, he⟩⟩
    rcases hc with hc | hc <;> subst hc
    · unfold generatemovelist
      rw [if_pos rfl]
      exact key _ (blackmoves_mem cb hwf)
    · unfold generatemovelist
      rw [if_neg (by decide)]
      exact key _ (whitemoves_mem cb hwf)
  · rcases hc with hc' | hc' <;> subst hc'
    · unfold generatemovelist
      rw [if_pos rfl]
      exact cells_nodup _ BLACK cb hwf (Or.inl rfl) (blackmoves_mem cb hwf) (blackmoves_nodup cb hwf) _
        (List.nodup_range' 5 36)
    · unfold generatemovelist
      rw [if_neg (by decide)]
      exact cells_nodup _ WHITE cb hwf (Or.inr rfl) (whitemoves_mem cb hwf) (whitemoves_nodup cb hwf) _
        (List.nodup_range' 5 36)

/-! ## The search layer: cancellation, terminal score, shortcuts -/

theorem alphabeta_eq (fuel depth : Nat) (alpha beta : Int) (color : Nat) (s : State) :
    alphabeta fuel depth alpha beta color s =
      abnode (fun d a b c t => match fuel with
        | 0 => Outcome.nofuel
        | f + 1 => alphabeta f d a b c t) depth alpha beta color s := by
  cases fuel <;> rfl

theorem alphabeta_cancelled (fuel depth : Nat) (alpha beta : Int) (color : Nat) (s : State)
    (h : s.play ≠ 0) :
    alphabeta fuel depth alpha beta color s = Outcome.ok (0, s.log Call.alphabeta) := by
  rw [alphabeta_eq]
  unfold abnode
  have : (s.log Call.alphabeta).play ≠ 0 := h
  simp only [this, ne_eq, not_false_eq_true, if_true]

theorem firstalphabeta_cancelled (fuel depth : Nat) (alpha beta : Int) (color : Nat)
    (best : move2) (s : State) (h : s.play ≠ 0) :
    firstalphabeta fuel depth alpha beta color best s =
      Outcome.ok (0, best, s.log Call.firstalphabeta) := by
  unfold firstalphabeta
  have : (s.log Call.firstalphabeta).play ≠ 0 := h
  simp only [this, ne_eq, not_false_eq_true, if_true]

/-- C10: with the cancel flag non-zero on entry, `alphabeta` and
`firstalphabeta` return 0 at once: the board, the flag, the pending keys and
`*best` are as on entry, and the only call recorded is the entry itself (no
move generation, no capture test, no evaluation, no key poll). -/
theorem cancel_returns_zero (fuel depth : Nat) (alpha beta : Int) (color : Nat)
    (best : move2) (s : State) (h : s.play ≠ 0) :
    (∃ s1, alphabeta fuel depth alpha beta color s = Outcome.ok (0, s1) ∧
      s1.cboard = s.cboard ∧ s1.play = s.play ∧ s1.keys = s.keys ∧
      s1.trace = s.trace ++ [Call.alphabeta]) ∧
    (∃ s1, firstalphabeta fuel depth alpha beta color best s = Outcome.ok (0, best, s1) ∧
      s1.cboard = s.cboard ∧ s1.play = s.play ∧ s1.keys = s.keys ∧
      s1.trace = s.trace ++ [Call.firstalphabeta]) :=
  ⟨⟨_, alphabeta_cancelled fuel depth alpha beta color s h, rfl, rfl, rfl, rfl⟩,
   ⟨_, firstalphabeta_cancelled fuel depth alpha beta color best s h, rfl, rfl, rfl, rfl⟩⟩

theorem testcapture_zero_or_one (cb : Board) (color : Nat) :
    testcapture cb color = 0 ∨ testcapture cb color = 1 := by
  unfold testcapture
  split_ifs <;> simp

theorem testcapture_zero (cb : Board) (color : Nat) (hwf : wellformed cb = true)
    (hc : color = BLACK ∨ color = WHITE) (h : (generatecapturelist cb color).2 = []) :
    testcapture cb color = 0 := by
  rcases testcapture_zero_or_one cb color with h0 | h1
  · exact h0
  · have := (testcapture_eq_one_iff cb color hwf hc).1 h1
    rw [h] at this
    exact absurd this (by simp)

/-- C6 (amended): with the cancel flag clear and depth at least 1, on a
well-formed board where the side to move has neither a capture nor a quiet
move, `alphabeta` returns -5000 for BLACK and +5000 for WHITE, for every alpha
and beta; the board is left as it was. -/
theorem nomove_score (fuel depth : Nat) (alpha beta : Int) (color : Nat) (s : State)
    (hwf : wellformed s.cboard = true) (hc : color = BLACK ∨ color = WHITE)
    (hplay : s.play = 0) (hd : 1 ≤ depth)
    (hcap : (generatecapturelist s.cboard color).2 = [])
    (hquiet : generatemovelist s.cboard color = []) :
    alphabeta fuel depth alpha beta color s =
      Outcome.ok (if color = BLACK then -5000 else 5000,
        ((s.log Call.alphabeta).log Call.testcapture).log Call.generatemovelist) := by
  rw [alphabeta_eq]
  unfold abnode
  have hp : ¬ ((s.log Call.alphabeta).play ≠ 0) := by
    intro h; exact h hplay
  have ht : testcapture (s.log Call.alphabeta).cboard color = 0 :=
    testcapture_zero s.cboard color hwf hc hcap
  have hq : generatemovelist ((s.log Call.alphabeta).log Call.testcapture).cboard color = [] :=
    hquiet
  have hd0 : ¬ depth = 0 := by omega
  simp only [hp, if_false, prelude, ht, hd0, false_and, and_true, if_true, hq, List.length_nil]

/-- C6, as stated, fails at depth 0: on the board with a lone white man, BLACK
has neither a capture nor a quiet move, and `alphabeta(0, ...)` returns the
evaluation -357, not -5000. -/
theorem nomove_depth0_counterexample :
    wellformed loneboard = true ∧ (generatecapturelist loneboard BLACK).2 = [] ∧
    generatemovelist loneboard BLACK = [] ∧
    alphabeta 1 0 (-10000) 10000 BLACK ⟨loneboard, 0, [], []⟩ =
      Outcome.ok (-357, ⟨loneboard, 0, [],
        [Call.alphabeta, Call.testcapture, Call.evaluation]⟩) := by
  decide!

/-- C8: on a well-formed board, if `generatecapturelist` returns exactly one
move `m`, or none while `generatemovelist` returns exactly one move `m`, then
`checkers` returns 1 and leaves the board equal to `domove(m)` of the original
board, whatever the cancel flag, the pending keys, the content of `best` and the
fuel are; the flag and the keys are untouched and the calls it records do not
include `firstalphabeta`, `alphabeta` or `evaluation`. -/
theorem single_move_shortcut (fuel : Nat) (best : move2) (color : Nat) (s : State) (m : move2)
    (hwf : wellformed s.cboard = true) (hc : color = BLACK ∨ color = WHITE)
    (h : (generatecapturelist s.cboard color).2 = [m] ∨
      ((generatecapturelist s.cboard color).2 = [] ∧ generatemovelist s.cboard color = [m])) :
    ∃ s1 t, checkers fuel best color s = Outcome.ok (1, s1) ∧
      s1.cboard = domove s.cboard m ∧ s1.play = s.play ∧ s1.keys = s.keys ∧
      s1.trace = s.trace ++ t ∧ Call.firstalphabeta ∉ t ∧ Call.alphabeta ∉ t ∧
      Call.evaluation ∉ t := by
  have hb := generatecapturelist_board s.cboard hwf color hc
  unfold checkers
  rcases h with h | ⟨h, hq⟩
  · refine ⟨⟨domove s.cboard m, s.play, s.keys, s.trace ++ [Call.generatecapturelist]⟩,
      [Call.generatecapturelist], ?_, rfl, rfl, rfl, rfl, by decide, by decide, by decide⟩
    simp only [h, List.length_singleton, if_true, State.setboard, State.log, hb, List.headD_cons]
  · refine ⟨⟨domove s.cboard m, s.play, s.keys,
        s.trace ++ [Call.generatecapturelist] ++ [Call.generatemovelist]⟩,
      [Call.generatecapturelist, Call.generatemovelist], ?_, rfl, rfl, rfl, ?_,
      by decide, by decide, by decide⟩
    · simp only [h, List.length_nil, State.setboard, State.log, hb, hq, List.length_singleton,
        if_true, List.headD_cons]
      rfl
    · simp only [List.append_assoc, List.singleton_append]

theorem nozero_fold (cells : List Nat) : ∀ b : Board, (∀ i ∈ cells, rd b i ≠ 0) →
    cells.foldl (fun b i => if rd b i = 0 then wr b i FREE else b) b = b := by
  induction cells with
  | nil => intro b _; rfl
  | cons c cs ih =>
    intro b h
    rw [List.foldl_cons, if_neg (h c (List.mem_cons_self _ _))]
    exact ih b (fun i hi => h i (List.mem_cons_of_mem _ hi))

theorem importboard_eq (b : Inboard)
    (h : ∀ q ∈ squares, rd b (8 * q.2.1 + q.2.2) ≠ 0) : importboard b = imported b := by
  have h3 : squares.foldl (fun c q => wr c q.1 (rd b (8 * q.2.1 + q.2.2)))
      ((List.range' 5 36).foldl (fun c i => wr c i FREE) (List.replicate 46 OCCUPIED)) =
      [0, 0, 0, 0, 0, rd b (8 * 0 + 0), rd b (8 * 2 + 0), rd b (8 * 4 + 0), rd b (8 * 6 + 0),
      16, rd b (8 * 1 + 1), rd b (8 * 3 + 1), rd b (8 * 5 + 1), rd b (8 * 7 + 1), rd b (8 * 0 +
      2), rd b (8 * 2 + 2), rd b (8 * 4 + 2), rd b (8 * 6 + 2), 16, rd b (8 * 1 + 3), rd b (8 *
      3 + 3), rd b (8 * 5 + 3), rd b (8 * 7 + 3), rd b (8 * 0 + 4), rd b (8 * 2 + 4), rd b (8 *
      4 + 4), rd b (8 * 6 + 4), 16, rd b (8 * 1 + 5), rd b (8 * 3 + 5), rd b (8 * 5 + 5), rd b
      (8 * 7 + 5), rd b (8 * 0 + 6), rd b (8 * 2 + 6), rd b (8 * 4 + 6), rd b (8 * 6 + 6), 16,
      rd b (8 * 1 + 7), rd b (8 * 3 + 7), rd b (8 * 5 + 7), rd b (8 * 7 + 7), 0, 0, 0, 0, 0] := by
    simp [squares, wr, OCCUPIED, FREE, List.range', List.replicate]
  unfold importboard
  simp only []
  rw [h3, nozero_fold]
  · rfl
  · intro i hi
    rw [List.mem_range'_1] at hi
    simp only [squares, List.mem_cons, List.mem_singleton, forall_eq_or_imp, forall_eq,
      List.not_mem_nil, false_imp_iff, implies_true, and_true] at h
    obtain ⟨hi1, hi2⟩ := hi
    simp [rd] at h
    interval_cases i <;> simp [rd, h]

theorem playable_ne_zero (v : Nat) (h : playable v = true) : v ≠ 0 := by
  intro h0
  rw [h0] at h
  exact Bool.noConfusion h

theorem imported_wellformed (b : Inboard)
    (h : ∀ q ∈ squares, playable (rd b (8 * q.2.1 + q.2.2)) = true) :
    wellformed (imported b) = true := by
  rw [wellformed_iff]
  refine ⟨rfl, fun i hi => ?_⟩
  simp [squares, rd] at h
  interval_cases i <;> simp [sentinel, imported, rd, h]

theorem imported_cells (b : Inboard) :
    ∀ q ∈ squares, rd (imported b) q.1 = rd b (8 * q.2.1 + q.2.2) := by
  simp [squares, imported, rd]

theorem export_noop (cb : Board) (b : Inboard) (qs : List (Nat × Nat × Nat))
    (h : ∀ q ∈ qs, rd cb q.1 = rd b (8 * q.2.1 + q.2.2)) :
    qs.foldl (fun c q => wr c (8 * q.2.1 + q.2.2) (rd cb q.1)) b = b := by
  induction qs with
  | nil => rfl
  | cons q qs ih =>
    rw [List.foldl_cons, h q (List.mem_cons_self _ _), wr_rd_self]
    exact ih (fun x hx => h x (List.mem_cons_of_mem _ hx))

theorem exportsquares_eq : exportsquares = squares.map (fun q => (q.2.1, q.2.2, q.1)) := by
  decide

theorem exportboard_eq (cb : Board) (b : Inboard) :
    exportboard cb b = squares.foldl (fun c q => wr c (8 * q.2.1 + q.2.2) (rd cb q.1)) b := by
  unfold exportboard
  rw [exportsquares_eq, List.foldl_map]

/-- C7: for an external board whose 32 playable squares each hold FREE or a
valid colour+rank piece, and a colour with no capture and no quiet move on it,
`checkers` returns 0 and `getmove` hands back the external board with every
cell unchanged. -/
theorem getmove_no_legal_move (fuel : Nat) (best : move2) (inboard : Inboard) (color : Nat)
    (play : Int) (keys : List Nat) (hc : color = BLACK ∨ color = WHITE)
    (hsq : ∀ q ∈ squares, playable (rd inboard (8 * q.2.1 + q.2.2)) = true)
    (hcap : (generatecapturelist (importboard inboard) color).2 = [])
    (hquiet : generatemovelist (importboard inboard) color = []) :
    ∃ s, getmove fuel best inboard color play keys = Outcome.ok (0, inboard, s) := by
  have himp : importboard inboard = imported inboard :=
    importboard_eq inboard (fun q hq => playable_ne_zero _ (hsq q hq))
  rw [himp] at hcap hquiet
  have hwf := imported_wellformed inboard hsq
  have hb := generatecapturelist_board (imported inboard) hwf color hc
  have hck : checkers fuel best color ⟨imported inboard, play, keys, []⟩ =
      Outcome.ok (0, ⟨imported inboard, play, keys,
        [Call.generatecapturelist, Call.generatemovelist]⟩) := by
    unfold checkers
    simp only [hcap, List.length_nil, State.setboard, State.log, hb, hquiet, if_true]
    rfl
  refine ⟨⟨imported inboard, play, keys,
    [Call.generatecapturelist, Call.generatemovelist]⟩, ?_⟩
  unfold getmove
  rw [himp, hck]
  simp only []
  rw [exportboard_eq, export_noop _ _ _ (imported_cells inboard)]

/-! ## Failing inputs: `undomove` replays the legs in forward order -/

/-- C1 (failing input): on `circleboard` the generated king capture `circlemove`
starts and lands on cell 15; `undomove` after `domove` leaves cell 15 FREE
instead of the black king, so the board is not restored. -/
theorem undomove_not_inverse :
    wellformed circleboard = true ∧
    circlemove ∈ (generatecapturelist circleboard BLACK).2 ∧
    rd circleboard 15 = BLACK ||| KING ∧
    rd (undomove (domove circleboard circlemove) circlemove) 15 = FREE ∧
    undomove (domove circleboard circlemove) circlemove ≠ circleboard := by
  decide!

/-- C2 (failing input): on `trapboard`, BLACK to move, flag clear and no key
pressed, `checkers` leaves `trapresult`, which is `domove` of no move of the
legal list: the white king of cell 15 has vanished from the board. -/
theorem checkers_drops_king :
    wellformed trapboard = true ∧
    (generatecapturelist trapboard BLACK).2 = [] ∧
    (generatemovelist trapboard BLACK).length = 10 ∧
    (checkers 100 [] BLACK ⟨trapboard, 0, [], []⟩).score = some 787 ∧
    (checkers 100 [] BLACK ⟨trapboard, 0, [], []⟩).board = some trapresult ∧
    rd trapboard 15 = WHITE ||| KING ∧ rd trapresult 15 = FREE ∧
    ∀ m ∈ generatemovelist trapboard BLACK, domove trapboard m ≠ trapresult := by
  decide!

/-- C9 (failing input): on `trapboard`, BLACK to move, `firstalphabeta(1,
-10000, 10000)` returns 787 and stores the move 19 -> 24, while the unpruned
minimax of the position is 584 and the minimax value of the stored move is
141. -/
theorem firstalphabeta_not_minimax :
    wellformed trapboard = true ∧
    (generatemovelist trapboard BLACK).length = 10 ∧
    (firstalphabeta 100 1 (-10000) 10000 BLACK [] ⟨trapboard, 0, [], []⟩).chosen =
      some (787, [leg FREE (BLACK ||| MAN) 19, leg (BLACK ||| MAN) FREE 24]) ∧
    minimax_spec 100 1 BLACK trapboard = Outcome.ok 584 ∧
    minimax_spec 100 0 WHITE
      (domove trapboard [leg FREE (BLACK ||| MAN) 19, leg (BLACK ||| MAN) FREE 24]) =
      Outcome.ok 141 := by
  decide!

/-! ## Instances of the theorems on concrete positions -/

theorem testcapture_iff_capturelist_witness :
    wellformed circleboard = true ∧ (BLACK = BLACK ∨ BLACK = WHITE) ∧
    (testcapture circleboard BLACK = 1 ↔ 0 < (generatecapturelist circleboard BLACK).2.length) :=
  ⟨by decide!, Or.inl rfl,
    testcapture_iff_capturelist circleboard BLACK (by decide!) (Or.inl rfl)⟩

theorem generatemovelist_exact_witness :
    wellformed trapboard = true ∧ (BLACK = BLACK ∨ BLACK = WHITE) ∧
    (generatemovelist trapboard BLACK).Nodup :=
  ⟨by decide!, Or.inl rfl,
    (generatemovelist_exact trapboard BLACK (by decide!) (Or.inl rfl)).2.1⟩

theorem nomove_score_witness :
    wellformed loneboard = true ∧ (BLACK = BLACK ∨ BLACK = WHITE) ∧ (0 : Int) = 0 ∧ 1 ≤ 3 ∧
    (generatecapturelist loneboard BLACK).2 = [] ∧ generatemovelist loneboard BLACK = [] ∧
    alphabeta 0 3 (-10000) 10000 BLACK ⟨loneboard, 0, [], []⟩ =
      Outcome.ok (if BLACK = BLACK then -5000 else 5000,
        (((⟨loneboard, 0, [], []⟩ : State).log Call.alphabeta).log Call.testcapture).log
          Call.generatemovelist) :=
  ⟨by decide!, Or.inl rfl, rfl, by decide, by decide!, by decide!,
    nomove_score 0 3 (-10000) 10000 BLACK ⟨loneboard, 0, [], []⟩ (by decide!) (Or.inl rfl) rfl
      (by decide) (by decide!) (by decide!)⟩

theorem getmove_no_legal_move_witness :
    (BLACK = BLACK ∨ BLACK = WHITE) ∧
    (∀ q ∈ squares, playable (rd freeinboard (8 * q.2.1 + q.2.2)) = true) ∧
    (generatecapturelist (importboard freeinboard) BLACK).2 = [] ∧
    generatemovelist (importboard freeinboard) BLACK = [] ∧
    ∃ s, getmove 0 [] freeinboard BLACK 0 [] = Outcome.ok (0, freeinboard, s) :=
  ⟨Or.inl rfl, by decide!, by decide!, by decide!,
    getmove_no_legal_move 0 [] freeinboard BLACK 0 [] (Or.inl rfl) (by decide!) (by decide!)
      (by decide!)⟩

theorem single_move_shortcut_witness :
    wellformed forcedboard = true ∧ (BLACK = BLACK ∨ BLACK = WHITE) ∧
    (generatecapturelist forcedboard BLACK).2 = [forcedmove] ∧
    ∃ s1 t, checkers 0 [] BLACK ⟨forcedboard, 1, [15], []⟩ = Outcome.ok (1, s1) ∧
      s1.cboard = domove forcedboard forcedmove ∧ s1.play = 1 ∧ s1.keys = [15] ∧
      s1.trace = [] ++ t ∧ Call.firstalphabeta ∉ t ∧ Call.alphabeta ∉ t ∧
      Call.evaluation ∉ t :=
  ⟨by decide!, Or.inl rfl, by decide!,
    single_move_shortcut 0 [] BLACK ⟨forcedboard, 1, [15], []⟩ forcedmove (by decide!)
      (Or.inl rfl) (Or.inl (by decide!))⟩

theorem cancel_returns_zero_witness :
    (1 : Int) ≠ 0 ∧
    (∃ s1, alphabeta 5 1 (-10000) 10000 BLACK ⟨trapboard, 1, [], []⟩ = Outcome.ok (0, s1) ∧
      s1.cboard = trapboard ∧ s1.play = 1 ∧ s1.keys = [] ∧ s1.trace = [] ++ [Call.alphabeta]) ∧
    (∃ s1, firstalphabeta 5 1 (-10000) 10000 BLACK [] ⟨trapboard, 1, [], []⟩ =
        Outcome.ok (0, [], s1) ∧
      s1.cboard = trapboard ∧ s1.play = 1 ∧ s1.keys = [] ∧
      s1.trace = [] ++ [Call.firstalphabeta]) :=
  ⟨by decide, cancel_returns_zero 5 1 (-10000) 10000 BLACK [] ⟨trapboard, 1, [], []⟩ (by decide)⟩

/-! ## Failing inputs: the uninitialised `best` and the 8-slot leg array -/

/-- C11 (failing input): on `trapboard`, BLACK to move (ten legal moves, no
capture), with the cancel flag set on entry, or with the cancel key seen at the
first poll, `firstalphabeta` returns before it stores anything in `*best`, and
`checkers` then runs `domove(best)` on whatever `best` held: with `stalebest`
the final board has a new black man on cell 14, which is neither the original
board nor the result of a legal move. -/
theorem checkers_cancelled_applies_stale_best :
    wellformed trapboard = true ∧
    (generatecapturelist trapboard BLACK).2 = [] ∧
    (generatemovelist trapboard BLACK).length = 10 ∧
    (checkers 100 stalebest BLACK ⟨trapboard, 1, [], []⟩).score = some 0 ∧
    (checkers 100 stalebest BLACK ⟨trapboard, 1, [], []⟩).board =
      some (domove trapboard stalebest) ∧
    (checkers 100 stalebest BLACK ⟨trapboard, 0, [15], []⟩).score = some 0 ∧
    (checkers 100 stalebest BLACK ⟨trapboard, 0, [15], []⟩).board =
      some (domove trapboard stalebest) ∧
    rd trapboard 14 = FREE ∧ rd (domove trapboard stalebest) 14 = BLACK ||| MAN ∧
    domove trapboard stalebest ≠ trapboard ∧
    ∀ m ∈ generatemovelist trapboard BLACK, domove trapboard stalebest ≠ domove trapboard m := by
  decide!

/-- C14 (failing input): on `nineboard` the capture list of BLACK holds
`ninemove`, a move of 11 legs: the generator writes legs `m[8]`, `m[9]` and
`m[10]`, past the 8 slots of `struct move2`. -/
theorem capture_exceeds_leg_array :
    wellformed nineboard = true ∧
    ninemove ∈ (generatecapturelist nineboard BLACK).2 ∧
    ninemove.length = 11 ∧ ¬ ninemove.length ≤ 8 := by
  decide!

/-! ## The board codec of `getmove` -/

theorem zloop_step (c : Board) (i : Nat) :
    (if rd c i = 0 then wr c i FREE else c) = wr c i (zfree (rd c i)) := by
  unfold zfree
  split_ifs with h
  · rfl
  · exact (wr_rd_self c i).symm

/-- The import half of `getmove` in closed form, for every external board. -/
theorem importboard_general (b : Inboard) : importboard b = internalof b := by
  unfold importboard
  simp only [zloop_step]
  simp [squares, wr, rd, OCCUPIED, FREE, List.range', List.replicate, internalof, zfree]

theorem internalof_cells (b : Inboard) :
    ∀ q ∈ squares, rd (internalof b) q.1 = zfree (rd b (8 * q.2.1 + q.2.2)) := by
  simp [squares, internalof, rd]

theorem zfree_ne_zero (v : Nat) : zfree v ≠ 0 := by
  unfold zfree
  split_ifs with h
  · decide
  · exact h

theorem zfree_playable (v : Nat) (h : v = 0 ∨ playable v = true) : playable (zfree v) = true := by
  unfold zfree
  split_ifs with h0
  · rfl
  · rcases h with h | h
    · exact absurd h h0
    · exact h

theorem internalof_occupied (b : Inboard) (i : Nat) (hi : i < 46) :
    rd (internalof b) i = OCCUPIED ↔ sentinel i = true := by
  have hz := fun v => zfree_ne_zero v
  interval_cases i <;> simp [sentinel, internalof, rd, OCCUPIED, hz]

theorem internalof_wellformed (b : Inboard)
    (h : ∀ q ∈ squares, rd b (8 * q.2.1 + q.2.2) = 0 ∨ playable (rd b (8 * q.2.1 + q.2.2)) = true) :
    wellformed (internalof b) = true := by
  rw [wellformed_iff]
  refine ⟨rfl, fun i hi => ?_⟩
  have hp := fun q hq => zfree_playable _ (h q hq)
  simp only [squares, List.mem_cons, List.mem_singleton, forall_eq_or_imp, forall_eq,
    List.not_mem_nil, false_imp_iff, implies_true, and_true] at hp
  simp only [rd, List.getD_eq_getElem?_getD] at hp
  norm_num at hp
  interval_cases i <;> simp [sentinel, internalof, rd, hp]

theorem export_length (cb : Board) (qs : List (Nat × Nat × Nat)) : ∀ b : Inboard,
    (qs.foldl (fun c q => wr c (8 * q.2.1 + q.2.2) (rd cb q.1)) b).length = b.length := by
  induction qs with
  | nil => intro b; rfl
  | cons q qs ih => intro b; rw [List.foldl_cons, ih, length_wr]

theorem export_untouched (cb : Board) (qs : List (Nat × Nat × Nat)) (j : Nat) : ∀ b : Inboard,
    (∀ q ∈ qs, 8 * q.2.1 + q.2.2 ≠ j) →
    rd (qs.foldl (fun c q => wr c (8 * q.2.1 + q.2.2) (rd cb q.1)) b) j = rd b j := by
  induction qs with
  | nil => intro b _; rfl
  | cons q qs ih =>
    intro b h
    rw [List.foldl_cons, ih _ (fun x hx => h x (List.mem_cons_of_mem _ hx)), rd_wr]
    simp [h q (List.mem_cons_self _ _)]

theorem export_written (cb : Board) (qs : List (Nat × Nat × Nat)) :
    (qs.map (fun q => 8 * q.2.1 + q.2.2)).Nodup → ∀ b : Inboard,
    (∀ q ∈ qs, 8 * q.2.1 + q.2.2 < b.length) →
    ∀ q ∈ qs, rd (qs.foldl (fun c q => wr c (8 * q.2.1 + q.2.2) (rd cb q.1)) b)
      (8 * q.2.1 + q.2.2) = rd cb q.1 := by
  induction qs with
  | nil => intro _ b _ q hq; exact absurd hq (List.not_mem_nil _)
  | cons p qs ih =>
    intro hnd b hlt q hq
    rw [List.map_cons, List.nodup_cons] at hnd
    rw [List.foldl_cons]
    rcases List.mem_cons.1 hq with hqp | hqs
    · subst hqp
      rw [export_untouched, rd_wr]
      · simp [hlt q (List.mem_cons_self _ _)]
      · intro x hx hxe
        exact hnd.1 (List.mem_map.2 ⟨x, hx, hxe⟩)
    · apply ih hnd.2 _ _ q hqs
      intro x hx
      rw [length_wr]
      exact hlt x (List.mem_cons_of_mem _ hx)

theorem squares_index_nodup : (squares.map (fun q => 8 * q.2.1 + q.2.2)).Nodup := by
  decide

theorem squares_index_lt : ∀ q ∈ squares, 8 * q.2.1 + q.2.2 < 64 := by
  decide

theorem squares_even : ∀ q ∈ squares, q.2.1 < 8 ∧ q.2.2 < 8 ∧ (q.2.1 + q.2.2) % 2 = 0 := by
  decide

theorem squares_cover (c : Nat) (hc : c < 8) (r : Nat) (hr : r < 8) (he : (c + r) % 2 = 0) :
    (5 + 9 * (r / 2) + 5 * (r % 2) + c / 2, c, r) ∈ squares := by
  have h : ∀ c < 8, ∀ r < 8, (c + r) % 2 = 0 →
      squares.contains (5 + 9 * (r / 2) + 5 * (r % 2) + c / 2, c, r) = true := by
    decide!
  exact List.elem_iff.1 (h c hc r hr he)

theorem exportboard_written (cb : Board) (b : Inboard) (hb : b.length = 64) :
    ∀ q ∈ squares, rd (exportboard cb b) (8 * q.2.1 + q.2.2) = rd cb q.1 := by
  rw [exportboard_eq]
  apply export_written cb squares squares_index_nodup
  intro q hq
  rw [hb]
  exact squares_index_lt q hq

theorem exportboard_odd (cb : Board) (b : Inboard) (c r : Nat) (hr : r < 8)
    (ho : (c + r) % 2 = 1) : rd (exportboard cb b) (8 * c + r) = rd b (8 * c + r) := by
  rw [exportboard_eq]
  apply export_untouched
  intro q hq
  have := squares_even q hq
  omega

theorem internalof_congr (b b2 : Inboard)
    (hag : ∀ c < 8, ∀ r < 8, (c + r) % 2 = 0 → rd b (8 * c + r) = rd b2 (8 * c + r)) :
    internalof b = internalof b2 := by
  unfold internalof
  rw [hag 0 (by decide) 0 (by decide) (by decide), hag 2 (by decide) 0 (by decide) (by decide),
    hag 4 (by decide) 0 (by decide) (by decide), hag 6 (by decide) 0 (by decide) (by decide),
    hag 1 (by decide) 1 (by decide) (by decide), hag 3 (by decide) 1 (by decide) (by decide),
    hag 5 (by decide) 1 (by decide) (by decide), hag 7 (by decide) 1 (by decide) (by decide),
    hag 0 (by decide) 2 (by decide) (by decide), hag 2 (by decide) 2 (by decide) (by decide),
    hag 4 (by decide) 2 (by decide) (by decide), hag 6 (by decide) 2 (by decide) (by decide),
    hag 1 (by decide) 3 (by decide) (by decide), hag 3 (by decide) 3 (by decide) (by decide),
    hag 5 (by decide) 3 (by decide) (by decide), hag 7 (by decide) 3 (by decide) (by decide),
    hag 0 (by decide) 4 (by decide) (by decide), hag 2 (by decide) 4 (by decide) (by decide),
    hag 4 (by decide) 4 (by decide) (by decide), hag 6 (by decide) 4 (by decide) (by decide),
    hag 1 (by decide) 5 (by decide) (by decide), hag 3 (by decide) 5 (by decide) (by decide),
    hag 5 (by decide) 5 (by decide) (by decide), hag 7 (by decide) 5 (by decide) (by decide),
    hag 0 (by decide) 6 (by decide) (by decide), hag 2 (by decide) 6 (by decide) (by decide),
    hag 4 (by decide) 6 (by decide) (by decide), hag 6 (by decide) 6 (by decide) (by decide),
    hag 1 (by decide) 7 (by decide) (by decide), hag 3 (by decide) 7 (by decide) (by decide),
    hag 5 (by decide) 7 (by decide) (by decide), hag 7 (by decide) 7 (by decide) (by decide)]

/-- C16: the codec is a bijection on the playable squares.  The import table
has 32 entries with pairwise different internal cells and pairwise different
external squares, its cells are exactly the non-sentinel cells of 5..40, the
export table pairs every cell with the square it was read from, export writes
the content of each cell on that square, and on an external board whose
playable squares hold FREE or a valid piece import stores the value of each
square unchanged and export after import gives back the external board. -/
theorem codec_bijection (b : Inboard)
    (h : ∀ q ∈ squares, playable (rd b (8 * q.2.1 + q.2.2)) = true) :
    squares.length = 32 ∧
    (squares.map (fun q => q.1)).Nodup ∧
    (squares.map (fun q => (q.2.1, q.2.2))).Nodup ∧
    (∀ i, i ∈ squares.map (fun q => q.1) ↔ (5 ≤ i ∧ i ≤ 40 ∧ sentinel i = false)) ∧
    exportsquares = squares.map (fun q => (q.2.1, q.2.2, q.1)) ∧
    (∀ q ∈ squares, rd (importboard b) q.1 = rd b (8 * q.2.1 + q.2.2)) ∧
    (∀ (cb : Board) (b0 : Inboard), b0.length = 64 →
      ∀ q ∈ squares, rd (exportboard cb b0) (8 * q.2.1 + q.2.2) = rd cb q.1) ∧
    exportboard (importboard b) b = b := by
  have himp : importboard b = imported b :=
    importboard_eq b (fun q hq => playable_ne_zero _ (h q hq))
  refine ⟨rfl, by decide, by decide, ?_, exportsquares_eq, ?_, ?_, ?_⟩
  · intro i
    constructor
    · intro hi
      revert i
      decide
    · rintro ⟨h5, h40, hs⟩
      interval_cases i <;> first | exact absurd hs (by decide) | decide
  · rw [himp]
    exact imported_cells b
  · intro cb b0 hb0
    exact exportboard_written cb b0 hb0
  · rw [himp, exportboard_eq]
    exact export_noop _ _ _ (imported_cells b)

/-- C17 (counterexample): the square (0, 0), whose column + row is even, is in
both tables: import reads it into cell 5 and export writes cell 5 back on it;
no entry of the import table has column + row odd. -/
theorem codec_even_square_counterexample :
    (5, 0, 0) ∈ squares ∧ (0, 0, 5) ∈ exportsquares ∧ (0 + 0) % 2 = 0 ∧
    rd (importboard startinboard) 5 = BLACK ||| MAN ∧
    rd (importboard (wr startinboard (8 * 0 + 0) (BLACK ||| KING))) 5 = BLACK ||| KING ∧
    rd (exportboard (importboard startinboard) freeinboard) (8 * 0 + 0) = BLACK ||| MAN ∧
    ∀ q ∈ squares, (q.2.1 + q.2.2) % 2 ≠ 1 := by
  decide!

/-- C17 (amended): the external squares of the import and export tables are
exactly the squares with column + row even.  Two external boards that agree on
those squares are imported to the same internal board, and export, hence
`getmove`, leaves every square with column + row odd as it was. -/
theorem codec_even_squares (fuel : Nat) (best : move2) (color : Nat) (play : Int)
    (keys : List Nat) (b b2 : Inboard)
    (hag : ∀ c < 8, ∀ r < 8, (c + r) % 2 = 0 → rd b (8 * c + r) = rd b2 (8 * c + r)) :
    (∀ c < 8, ∀ r < 8, ((∃ k, (k, c, r) ∈ squares) ↔ (c + r) % 2 = 0)) ∧
    (∀ c < 8, ∀ r < 8, ((∃ k, (c, r, k) ∈ exportsquares) ↔ (c + r) % 2 = 0)) ∧
    importboard b = importboard b2 ∧
    (∀ (cb : Board), ∀ c < 8, ∀ r < 8, (c + r) % 2 = 1 →
      rd (exportboard cb b) (8 * c + r) = rd b (8 * c + r)) ∧
    (∀ v out s, getmove fuel best b color play keys = Outcome.ok (v, out, s) →
      ∀ c < 8, ∀ r < 8, (c + r) % 2 = 1 → rd out (8 * c + r) = rd b (8 * c + r)) := by
  refine ⟨?_, ?_, ?_, ?_, ?_⟩
  · intro c hc r hr
    constructor
    · rintro ⟨k, hk⟩
      exact (squares_even _ hk).2.2
    · intro he
      exact ⟨_, squares_cover c hc r hr he⟩
  · intro c hc r hr
    rw [exportsquares_eq]
    constructor
    · rintro ⟨k, hk⟩
      obtain ⟨q, hq, he⟩ := List.mem_map.1 hk
      have := squares_even q hq
      simp only [Prod.mk.injEq] at he
      rw [← he.1, ← he.2.1]
      exact this.2.2
    · intro he
      exact ⟨_, List.mem_map.2 ⟨_, squares_cover c hc r hr he, rfl⟩⟩
  · rw [importboard_general, importboard_general]
    exact internalof_congr b b2 hag
  · intro cb c hc r hr ho
    exact exportboard_odd cb b c r hr ho
  · intro v out s hg c hc r hr ho
    unfold getmove at hg
    cases hck : checkers fuel best color
        { cboard := importboard b, play := play, keys := keys, trace := [] } with
    | ok p =>
      rw [hck] at hg
      obtain ⟨v1, s1⟩ := p
      simp only [Outcome.ok.injEq, Prod.mk.injEq] at hg
      rw [← hg.2.1]
      exact exportboard_odd _ b c r hr ho
    | nofuel => rw [hck] at hg; exact Outcome.noConfusion hg
    | divzero => rw [hck] at hg; exact Outcome.noConfusion hg

/-- C18 (counterexample): the value 3 (both colour flags, no rank) on the
playable square (0, 0) is neither FREE nor a valid piece, and import stores 3
in cell 5, not FREE. -/
theorem import_keeps_invalid_counterexample :
    (5, 0, 0) ∈ squares ∧
    rd (wr startinboard (8 * 0 + 0) 3) (8 * 0 + 0) = 3 ∧ playable 3 = false ∧
    rd (importboard (wr startinboard (8 * 0 + 0) 3)) 5 = 3 ∧ 3 ≠ FREE := by
  decide!

/-- C18 (amended): for every external board and every entry of the import
table, import stores FREE in the internal cell when the external square holds
0, and the value of the square itself in every other case. -/
theorem import_stores (b : Inboard) (q : Nat × Nat × Nat) (hq : q ∈ squares) :
    rd (importboard b) q.1 =
      if rd b (8 * q.2.1 + q.2.2) = 0 then FREE else rd b (8 * q.2.1 + q.2.2) := by
  rw [importboard_general, internalof_cells b q hq]
  rfl

/-- C19: on an external board whose playable squares hold FREE, 0 or a valid
piece, the imported board has 46 cells, a cell holds OCCUPIED exactly if it is
one of the sentinels 0..4, 9, 18, 27, 36, 41..45, the 32 other cells hold FREE
or a valid piece, and the board is well-formed. -/
theorem import_sentinels (b : Inboard)
    (h : ∀ q ∈ squares, rd b (8 * q.2.1 + q.2.2) = 0 ∨ playable (rd b (8 * q.2.1 + q.2.2)) = true) :
    (importboard b).length = 46 ∧
    (∀ i, i < 46 → (rd (importboard b) i = OCCUPIED ↔ sentinel i = true)) ∧
    ((List.range 46).filter (fun i => !sentinel i)).length = 32 ∧
    (∀ i, i < 46 → sentinel i = false → playable (rd (importboard b) i) = true) ∧
    wellformed (importboard b) = true := by
  rw [importboard_general]
  have hwf := internalof_wellformed b h
  refine ⟨rfl, fun i hi => internalof_occupied b i hi, by decide, ?_, hwf⟩
  intro i _ hs
  exact (wf_cell _ hwf i).2 hs

/-! ## The shape of a capture move -/

theorem holdsopp_of_flag (cb : Board) (hwf : wellformed cb = true) (color : Nat)
    (hc : color = BLACK ∨ color = WHITE) (a : Nat)
    (h : rd cb a &&& (color ^^^ CHANGECOLOR) ≠ 0) : holdsopp cb color a = true := by
  unfold holdsopp
  rcases wf_vals cb hwf a with h0 | ⟨hv, _⟩
  · rw [h0] at h; exact absurd (Nat.zero_and _) h
  · rcases hc with hc | hc <;> subst hc <;> rcases hv with hv | hv | hv | hv | hv <;>
      rw [hv] at h ⊢ <;> revert h <;> decide

theorem wf_black_man (cb : Board) (h : wellformed cb = true) (i : Nat)
    (hb : rd cb i &&& BLACK ≠ 0) (hm : rd cb i &&& MAN ≠ 0) : rd cb i = BLACK ||| MAN := by
  rcases wf_vals cb h i with h0 | ⟨hv, _⟩
  · rw [h0] at hb; exact absurd rfl hb
  · rcases hv with hv | hv | hv | hv | hv <;> rw [hv] at hb hm ⊢ <;> revert hb hm <;> decide

theorem wf_white_man (cb : Board) (h : wellformed cb = true) (i : Nat)
    (hb : rd cb i &&& WHITE ≠ 0) (hm : rd cb i &&& MAN ≠ 0) : rd cb i = WHITE ||| MAN := by
  rcases wf_vals cb h i with h0 | ⟨hv, _⟩
  · rw [h0] at hb; exact absurd rfl hb
  · rcases hv with hv | hv | hv | hv | hv <;> rw [hv] at hb hm ⊢ <;> revert hb hm <;> decide

/-- The test `i >= 28` of the black capture code agrees with "the landing cell
is on the farthest row". -/
theorem black_promote (i l : Nat) (hi9 : i % 9 ≠ 0) (hl9 : l % 9 ≠ 0) (hl40 : l ≤ 40)
    (hl : l = i + 8 ∨ l = i + 10) :
    (if i ≥ 28 then BLACK ||| KING else BLACK ||| MAN) =
      (if farthest BLACK l then BLACK ||| KING else BLACK ||| MAN) := by
  unfold farthest
  rw [if_pos rfl]
  by_cases h : i ≥ 28
  · have h1 : 37 ≤ l := by omega
    simp [h, h1, hl40]
  · have h1 : ¬ 37 ≤ l := by omega
    simp [h, h1]

/-- The test `i <= 17` of the white capture code agrees with "the landing cell
is on the farthest row". -/
theorem white_promote (i l : Nat) (hi9 : i % 9 ≠ 0) (hl9 : l % 9 ≠ 0) (hl5 : 5 ≤ l)
    (hl : l = i - 8 ∨ l = i - 10) :
    (if i ≤ 17 then WHITE ||| KING else WHITE ||| MAN) =
      (if farthest WHITE l then WHITE ||| KING else WHITE ||| MAN) := by
  have hw : ¬ (WHITE = BLACK) := by decide
  unfold farthest
  rw [if_neg hw]
  by_cases h : i ≤ 17
  · have h1 : l ≤ 8 := by omega
    simp [h, h1, hl5]
  · have h1 : ¬ l ≤ 8 := by omega
    simp [h, h1]

theorem caplegs_snoc (cb : Board) (caps : List Nat) (a : Nat) :
    caplegs cb caps ++ [leg FREE (rd cb a) a] = caplegs cb (caps ++ [a]) := by
  simp [caplegs]

theorem blackman_shape (cb : Board) (hwf : wellformed cb = true) (m0 : Nat) :
    ∀ (f : Nat) (caps : List Nat) (i : Nat),
      5 ≤ i → i ≤ 40 → i % 9 ≠ 0 → caps ≠ [] → caps.Nodup →
      (∀ a ∈ caps, a < i ∧ holdsopp cb BLACK a = true) →
      ∀ mv ∈ blackmancapture f cb
          (m0 :: leg (if farthest BLACK i then BLACK ||| KING else BLACK ||| MAN) FREE i ::
            caplegs cb caps) i,
        ∃ l caps2, mv = m0 ::
            leg (if farthest BLACK l then BLACK ||| KING else BLACK ||| MAN) FREE l ::
            caplegs cb caps2 ∧
          5 ≤ l ∧ l ≤ 40 ∧ l % 9 ≠ 0 ∧ caps2 ≠ [] ∧ caps2.Nodup ∧
          ∀ a ∈ caps2, holdsopp cb BLACK a = true := by
  intro f
  induction f with
  | zero =>
    intro caps i h5 h40 h9 hne hnd hcaps mv hmv
    simp only [blackmancapture, List.mem_singleton] at hmv
    exact ⟨i, caps, hmv, h5, h40, h9, hne, hnd, fun a ha => (hcaps a ha).2⟩
  | succ f ih =>
    intro caps i h5 h40 h9 hne hnd hcaps mv hmv
    simp only [blackmancapture] at hmv
    have branch : ∀ a l, i < a → a < l → (l = i + 8 ∨ l = i + 10) →
        canjump cb WHITE a l = true →
        mv ∈ blackmancapture f cb
          (extend (m0 :: leg (if farthest BLACK i then BLACK ||| KING else BLACK ||| MAN) FREE i ::
            caplegs cb caps) (leg (if i ≥ 28 then BLACK ||| KING else BLACK ||| MAN) FREE l)
            (leg FREE (rd cb a) a)) l →
        ∃ l caps2, mv = m0 ::
            leg (if farthest BLACK l then BLACK ||| KING else BLACK ||| MAN) FREE l ::
            caplegs cb caps2 ∧
          5 ≤ l ∧ l ≤ 40 ∧ l % 9 ≠ 0 ∧ caps2 ≠ [] ∧ caps2.Nodup ∧
          ∀ a ∈ caps2, holdsopp cb BLACK a = true := by
      intro a l hia hal hl hj hmem
      obtain ⟨ha1, _, _, _, hl1, hl2, hl3⟩ := canjump_facts cb hwf _ a l hj
      have hl9 := (free_cell cb hwf l hl1).2.2
      rw [extend_cons, black_promote i l h9 hl9 hl3 hl, caplegs_snoc] at hmem
      refine ih (caps ++ [a]) l hl2 hl3 hl9 (by simp) ?_ ?_ mv hmem
      · rw [List.nodup_append]
        refine ⟨hnd, List.nodup_singleton _, ?_⟩
        intro x hx hx2
        rw [List.mem_singleton] at hx2
        have := (hcaps x hx).1
        omega
      · intro x hx
        rcases List.mem_append.1 hx with hx | hx
        · exact ⟨by have := (hcaps x hx).1; omega, (hcaps x hx).2⟩
        · rw [List.mem_singleton] at hx
          subst hx
          exact ⟨hal, holdsopp_of_flag cb hwf BLACK (Or.inl rfl) x ha1⟩
    cases h1 : canjump cb WHITE (i + 4) (i + 8) <;>
      cases h2 : canjump cb WHITE (i + 5) (i + 10) <;>
      simp only [h1, h2, Bool.false_eq_true, if_false, if_true, Bool.or_self, Bool.or_true,
        Bool.or_false, List.append_nil, List.nil_append, List.mem_singleton,
        List.mem_append] at hmv
    · exact ⟨i, caps, hmv, h5, h40, h9, hne, hnd, fun a ha => (hcaps a ha).2⟩
    · exact branch _ _ (by omega) (by omega) (Or.inr rfl) h2 hmv
    · exact branch _ _ (by omega) (by omega) (Or.inl rfl) h1 hmv
    · rcases hmv with h | h
      · exact branch _ _ (by omega) (by omega) (Or.inl rfl) h1 h
      · exact branch _ _ (by omega) (by omega) (Or.inr rfl) h2 h

theorem whiteman_shape (cb : Board) (hwf : wellformed cb = true) (m0 : Nat) :
    ∀ (f : Nat) (caps : List Nat) (i : Nat),
      5 ≤ i → i ≤ 40 → i % 9 ≠ 0 → caps ≠ [] → caps.Nodup →
      (∀ a ∈ caps, i < a ∧ holdsopp cb WHITE a = true) →
      ∀ mv ∈ whitemancapture f cb
          (m0 :: leg (if farthest WHITE i then WHITE ||| KING else WHITE ||| MAN) FREE i ::
            caplegs cb caps) i,
        ∃ l caps2, mv = m0 ::
            leg (if farthest WHITE l then WHITE ||| KING else WHITE ||| MAN) FREE l ::
            caplegs cb caps2 ∧
          5 ≤ l ∧ l ≤ 40 ∧ l % 9 ≠ 0 ∧ caps2 ≠ [] ∧ caps2.Nodup ∧
          ∀ a ∈ caps2, holdsopp cb WHITE a = true := by
  intro f
  induction f with
  | zero =>
    intro caps i h5 h40 h9 hne hnd hcaps mv hmv
    simp only [whitemancapture, List.mem_singleton] at hmv
    exact ⟨i, caps, hmv, h5, h40, h9, hne, hnd, fun a ha => (hcaps a ha).2⟩
  | succ f ih =>
    intro caps i h5 h40 h9 hne hnd hcaps mv hmv
    simp only [whitemancapture] at hmv
    have branch : ∀ a l, a < i → (5 ≤ l → l < a) → (l = i - 8 ∨ l = i - 10) →
        canjump cb BLACK a l = true →
        mv ∈ whitemancapture f cb
          (extend (m0 :: leg (if farthest WHITE i then WHITE ||| KING else WHITE ||| MAN) FREE i ::
            caplegs cb caps) (leg (if i ≤ 17 then WHITE ||| KING else WHITE ||| MAN) FREE l)
            (leg FREE (rd cb a) a)) l →
        ∃ l caps2, mv = m0 ::
            leg (if farthest WHITE l then WHITE ||| KING else WHITE ||| MAN) FREE l ::
            caplegs cb caps2 ∧
          5 ≤ l ∧ l ≤ 40 ∧ l % 9 ≠ 0 ∧ caps2 ≠ [] ∧ caps2.Nodup ∧
          ∀ a ∈ caps2, holdsopp cb WHITE a = true := by
      intro a l hia hal hl hj hmem
      obtain ⟨ha1, _, _, _, hl1, hl2, hl3⟩ := canjump_facts cb hwf _ a l hj
      have hal := hal hl2
      have hl9 := (free_cell cb hwf l hl1).2.2
      rw [extend_cons, white_promote i l h9 hl9 hl2 hl, caplegs_snoc] at hmem
      refine ih (caps ++ [a]) l hl2 hl3 hl9 (by simp) ?_ ?_ mv hmem
      · rw [List.nodup_append]
        refine ⟨hnd, List.nodup_singleton _, ?_⟩
        intro x hx hx2
        rw [List.mem_singleton] at hx2
        have := (hcaps x hx).1
        omega
      · intro x hx
        rcases List.mem_append.1 hx with hx | hx
        · exact ⟨by have := (hcaps x hx).1; omega, (hcaps x hx).2⟩
        · rw [List.mem_singleton] at hx
          subst hx
          exact ⟨hal, holdsopp_of_flag cb hwf WHITE (Or.inr rfl) x ha1⟩
    cases h1 : canjump cb BLACK (i - 4) (i - 8) <;>
      cases h2 : canjump cb BLACK (i - 5) (i - 10) <;>
      simp only [h1, h2, Bool.false_eq_true, if_false, if_true, Bool.or_self, Bool.or_true,
        Bool.or_false, List.append_nil, List.nil_append, List.mem_singleton,
        List.mem_append] at hmv
    · exact ⟨i, caps, hmv, h5, h40, h9, hne, hnd, fun a ha => (hcaps a ha).2⟩
    · exact branch _ _ (by omega) (by omega) (Or.inr rfl) h2 hmv
    · exact branch _ _ (by omega) (by omega) (Or.inl rfl) h1 hmv
    · rcases hmv with h | h
      · exact branch _ _ (by omega) (by omega) (Or.inl rfl) h1 h
      · exact branch _ _ (by omega) (by omega) (Or.inr rfl) h2 h

theorem free_and_opp (opp : Nat) (ho : opp = 1 ∨ opp = 2) : FREE &&& opp = 0 := by
  rcases ho with ho | ho <;> subst ho <;> decide

theorem king_shape (cb : Board) (color : Nat) (hc : color = BLACK ∨ color = WHITE) (m0 : Nat) :
    ∀ (f : Nat) (cbg : Board) (caps : List Nat) (i : Nat),
      wellformed cbg = true → (∀ j, rd cbg j = rd cb j ∨ rd cbg j = FREE) →
      5 ≤ i → i ≤ 40 → i % 9 ≠ 0 → caps ≠ [] → caps.Nodup →
      (∀ a ∈ caps, rd cbg a = FREE ∧ holdsopp cb color a = true) →
      ∀ mv ∈ (kingcapture (color ||| KING) (color ^^^ CHANGECOLOR) f cbg
          (m0 :: leg (color ||| KING) FREE i :: caplegs cb caps) i).2,
        ∃ l caps2, mv = m0 :: leg (color ||| KING) FREE l :: caplegs cb caps2 ∧
          5 ≤ l ∧ l ≤ 40 ∧ l % 9 ≠ 0 ∧ caps2 ≠ [] ∧ caps2.Nodup ∧
          ∀ a ∈ caps2, holdsopp cb color a = true := by
  have hopp : color ^^^ CHANGECOLOR = 1 ∨ color ^^^ CHANGECOLOR = 2 := by
    rcases hc with hc | hc <;> subst hc <;> decide
  intro f
  induction f with
  | zero =>
    intro cbg caps i hwf hrel h5 h40 h9 hne hnd hcaps mv hmv
    simp only [kingcapture, List.mem_singleton] at hmv
    exact ⟨i, caps, hmv, h5, h40, h9, hne, hnd, fun a ha => (hcaps a ha).2⟩
  | succ f ih =>
    intro cbg caps i hwf hrel h5 h40 h9 hne hnd hcaps mv hmv
    rw [kingcapture_succ] at hmv
    have branch : ∀ a l, mv ∈ kingbranch (color ||| KING) (color ^^^ CHANGECOLOR) f cbg
        (m0 :: leg (color ||| KING) FREE i :: caplegs cb caps) a l →
        ∃ l caps2, mv = m0 :: leg (color ||| KING) FREE l :: caplegs cb caps2 ∧
          5 ≤ l ∧ l ≤ 40 ∧ l % 9 ≠ 0 ∧ caps2 ≠ [] ∧ caps2.Nodup ∧
          ∀ a ∈ caps2, holdsopp cb color a = true := by
      intro a l hmem
      unfold kingbranch at hmem
      by_cases hj : canjump cbg (color ^^^ CHANGECOLOR) a l = true
      · rw [if_pos hj, extend_cons] at hmem
        obtain ⟨ha1, ha2, ha3, ha4, hl1, hl2, hl3⟩ := canjump_facts cbg hwf _ a l hj
        have hl9 := (free_cell cbg hwf l hl1).2.2
        have hnf : rd cbg a ≠ FREE := by
          intro hf
          rw [hf] at ha1
          exact ha1 (free_and_opp _ hopp)
        have heq : rd cbg a = rd cb a := by
          rcases hrel a with h | h
          · exact h
          · exact absurd h hnf
        have hho : holdsopp cb color a = true := by
          have := holdsopp_of_flag cbg hwf color hc a ha1
          unfold holdsopp at this ⊢
          rw [← heq]
          exact this
        have hlen : a < cbg.length := by rw [wf_length cbg hwf]; omega
        rw [heq, caplegs_snoc] at hmem
        refine ih (wr cbg a FREE) (caps ++ [a]) l (wf_wr_free cbg hwf a ha2) ?_ hl2 hl3 hl9
          (by simp) ?_ ?_ mv hmem
        · intro j
          rw [rd_wr]
          split_ifs with h
          · exact Or.inr rfl
          · exact hrel j
        · rw [List.nodup_append]
          refine ⟨hnd, List.nodup_singleton _, ?_⟩
          intro x hx hx2
          rw [List.mem_singleton] at hx2
          subst hx2
          exact hnf (hcaps x hx).1
        · intro x hx
          rw [rd_wr]
          rcases List.mem_append.1 hx with hx | hx
          · refine ⟨?_, (hcaps x hx).2⟩
            split_ifs
            · rfl
            · exact (hcaps x hx).1
          · rw [List.mem_singleton] at hx
            subst hx
            exact ⟨by simp [hlen], hho⟩
      · rw [if_neg hj] at hmem
        exact absurd hmem (List.not_mem_nil _)
    split_ifs at hmv with hany
    · simp only [List.mem_append] at hmv
      rcases hmv with ((h | h) | h) | h <;> exact branch _ _ h
    · simp only [List.mem_singleton] at hmv
      exact ⟨i, caps, hmv, h5, h40, h9, hne, hnd, fun a ha => (hcaps a ha).2⟩

theorem kingstart_shape (color : Nat) (hc : color = BLACK ∨ color = WHITE) (cb : Board)
    (hwf : wellformed cb = true) (i a l : Nat) (hki : rd cb i = color ||| KING) (hai : a ≠ i) :
    ∀ mv ∈ kingstart (color ||| KING) (color ^^^ CHANGECOLOR) cb i a l,
      ∃ l caps, mv = leg FREE (rd cb i) i :: leg (color ||| KING) FREE l :: caplegs cb caps ∧
        5 ≤ l ∧ l ≤ 40 ∧ l % 9 ≠ 0 ∧ caps ≠ [] ∧ caps.Nodup ∧
        ∀ a ∈ caps, holdsopp cb color a = true := by
  intro mv hmv
  unfold kingstart at hmv
  by_cases hj : canjump cb (color ^^^ CHANGECOLOR) a l = true
  · rw [if_pos hj] at hmv
    obtain ⟨ha1, ha2, _, ha4, hl1, hl2, hl3⟩ := canjump_facts cb hwf _ a l hj
    have hl9 := (free_cell cb hwf l hl1).2.2
    have hme : color ||| KING ≠ 0 := by
      rcases hc with hc | hc <;> subst hc <;> decide
    have hi0 : rd cb i ≠ 0 := by rw [hki]; exact hme
    have hlen : a < cb.length := by rw [wf_length cb hwf]; omega
    have hcl : [leg FREE (rd cb a) a] = caplegs cb [a] := rfl
    rw [hcl, ← hki] at hmv
    rw [hki] at hmv
    have hmv2 : mv ∈ (kingcapture (color ||| KING) (color ^^^ CHANGECOLOR) CHAINFUEL
        (wr (wr cb a FREE) i FREE)
        (leg FREE (color ||| KING) i :: leg (color ||| KING) FREE l :: caplegs cb [a]) l).2 := hmv
    rw [hki]
    refine king_shape cb color hc (leg FREE (color ||| KING) i) CHAINFUEL
      (wr (wr cb a FREE) i FREE) [a] l ?_ ?_ hl2 hl3 hl9 (by simp) (List.nodup_singleton _) ?_
      mv hmv2
    · apply wf_wr_free _ (wf_wr_free cb hwf a ha2)
      rw [rd_wr]
      simp only [hai, false_and, if_false]
      exact hi0
    · intro j
      rw [rd_wr, rd_wr]
      split_ifs
      · exact Or.inr rfl
      · exact Or.inr rfl
      · exact Or.inl rfl
    · intro x hx
      rw [List.mem_singleton] at hx
      subst hx
      refine ⟨?_, holdsopp_of_flag cb hwf color hc x ha1⟩
      rw [rd_wr, rd_wr]
      simp [hlen, hai]
  · rw [if_neg hj] at hmv
    exact absurd hmv (List.not_mem_nil _)

theorem blackstart_shape (cb : Board) (hwf : wellformed cb = true) (i a l : Nat)
    (hki : rd cb i = BLACK ||| MAN) (hia : i < a) (hal : a < l) (hl : l = i + 8 ∨ l = i + 10) :
    ∀ mv ∈ manstart blackmancapture WHITE (BLACK ||| MAN)
        (if i ≥ 28 then BLACK ||| KING else BLACK ||| MAN) cb i a l,
      ∃ l caps, mv = leg FREE (rd cb i) i ::
          leg (if farthest BLACK l then BLACK ||| KING else BLACK ||| MAN) FREE l ::
          caplegs cb caps ∧
        5 ≤ l ∧ l ≤ 40 ∧ l % 9 ≠ 0 ∧ caps ≠ [] ∧ caps.Nodup ∧
        ∀ a ∈ caps, holdsopp cb BLACK a = true := by
  intro mv hmv
  unfold manstart at hmv
  by_cases hj : canjump cb WHITE a l = true
  · rw [if_pos hj] at hmv
    obtain ⟨ha1, _, _, _, hl1, hl2, hl3⟩ := canjump_facts cb hwf _ a l hj
    have hl9 := (free_cell cb hwf l hl1).2.2
    have hi9 : i % 9 ≠ 0 := by
      rcases wf_vals cb hwf i with h0 | ⟨_, _, _, h9⟩
      · rw [hki] at h0; exact absurd h0 (by decide)
      · exact h9
    have hcl : [leg FREE (rd cb a) a] = caplegs cb [a] := rfl
    rw [hcl, black_promote i l hi9 hl9 hl3 hl] at hmv
    rw [hki]
    refine blackman_shape cb hwf (leg FREE (BLACK ||| MAN) i) CHAINFUEL [a] l hl2 hl3 hl9
      (by simp) (List.nodup_singleton _) ?_ mv hmv
    intro x hx
    rw [List.mem_singleton] at hx
    subst hx
    exact ⟨hal, holdsopp_of_flag cb hwf BLACK (Or.inl rfl) x ha1⟩
  · rw [if_neg hj] at hmv
    exact absurd hmv (List.not_mem_nil _)

theorem whitestart_shape (cb : Board) (hwf : wellformed cb = true) (i a l : Nat)
    (hki : rd cb i = WHITE ||| MAN) (hal : 5 ≤ l → l < a) (hl : l = i - 8 ∨ l = i - 10) :
    ∀ mv ∈ manstart whitemancapture BLACK (WHITE ||| MAN)
        (if i ≤ 17 then WHITE ||| KING else WHITE ||| MAN) cb i a l,
      ∃ l caps, mv = leg FREE (rd cb i) i ::
          leg (if farthest WHITE l then WHITE ||| KING else WHITE ||| MAN) FREE l ::
          caplegs cb caps ∧
        5 ≤ l ∧ l ≤ 40 ∧ l % 9 ≠ 0 ∧ caps ≠ [] ∧ caps.Nodup ∧
        ∀ a ∈ caps, holdsopp cb WHITE a = true := by
  intro mv hmv
  unfold manstart at hmv
  by_cases hj : canjump cb BLACK a l = true
  · rw [if_pos hj] at hmv
    obtain ⟨ha1, _, _, _, hl1, hl2, hl3⟩ := canjump_facts cb hwf _ a l hj
    have hl9 := (free_cell cb hwf l hl1).2.2
    have hi9 : i % 9 ≠ 0 := by
      rcases wf_vals cb hwf i with h0 | ⟨_, _, _, h9⟩
      · rw [hki] at h0; exact absurd h0 (by decide)
      · exact h9
    have hcl : [leg FREE (rd cb a) a] = caplegs cb [a] := rfl
    rw [hcl, white_promote i l hi9 hl9 hl2 hl] at hmv
    rw [hki]
    refine whiteman_shape cb hwf (leg FREE (WHITE ||| MAN) i) CHAINFUEL [a] l hl2 hl3 hl9
      (by simp) (List.nodup_singleton _) ?_ mv hmv
    intro x hx
    rw [List.mem_singleton] at hx
    subst hx
    exact ⟨hal hl2, holdsopp_of_flag cb hwf WHITE (Or.inr rfl) x ha1⟩
  · rw [if_neg hj] at hmv
    exact absurd hmv (List.not_mem_nil _)

/-- Every move of the capture list is a clear-origin leg, a landing leg that
follows the promotion rule, and one clear-captured leg for each of a non-empty
list of pairwise different cells holding opposing pieces. -/
theorem capture_shape (cb : Board) (color : Nat) (hwf : wellformed cb = true)
    (hc : color = BLACK ∨ color = WHITE) (mv : move2)
    (hmv : mv ∈ (generatecapturelist cb color).2) :
    ∃ o l caps, mv = leg FREE (rd cb o) o ::
        leg (if rd cb o = color ||| MAN ∧ farthest color l = true then color ||| KING
          else rd cb o) FREE l :: caplegs cb caps ∧
      ownpiece cb color o = true ∧ 5 ≤ o ∧ o ≤ 40 ∧ 5 ≤ l ∧ l ≤ 40 ∧ l % 9 ≠ 0 ∧
      caps ≠ [] ∧ caps.Nodup ∧ ∀ a ∈ caps, holdsopp cb color a = true := by
  rcases hc with hc | hc <;> subst hc
  · rw [generatecapturelist_black cb hwf] at hmv
    obtain ⟨i, hi, hmem⟩ := List.mem_flatMap.1 hmv
    rw [List.mem_range'_1] at hi
    unfold blackcaps at hmem
    by_cases hb : rd cb i &&& BLACK ≠ 0
    · rw [if_pos hb] at hmem
      by_cases hm : rd cb i &&& MAN ≠ 0
      · rw [if_pos hm] at hmem
        have hk := wf_black_man cb hwf i hb hm
        have fin : (∃ l caps, mv = leg FREE (rd cb i) i ::
            leg (if farthest BLACK l then BLACK ||| KING else BLACK ||| MAN) FREE l ::
            caplegs cb caps ∧
            5 ≤ l ∧ l ≤ 40 ∧ l % 9 ≠ 0 ∧ caps ≠ [] ∧ caps.Nodup ∧
            ∀ a ∈ caps, holdsopp cb BLACK a = true) := by
          rcases List.mem_append.1 hmem with h | h
          · exact blackstart_shape cb hwf i _ _ hk (by omega) (by omega) (Or.inl rfl) mv h
          · exact blackstart_shape cb hwf i _ _ hk (by omega) (by omega) (Or.inr rfl) mv h
        obtain ⟨l, caps, h1, h2, h3, h4, h5, h6, h7⟩ := fin
        refine ⟨i, l, caps, ?_, ?_, hi.1, by omega, h2, h3, h4, h5, h6, h7⟩
        · rw [h1, hk]
          cases hf : farthest BLACK l <;> simp
        · unfold ownpiece
          rw [hk]
          rfl
      · rw [if_neg hm] at hmem
        have hk := wf_black_king cb hwf i hb hm
        have fin : (∃ l caps, mv = leg FREE (rd cb i) i ::
            leg (BLACK ||| KING) FREE l :: caplegs cb caps ∧
            5 ≤ l ∧ l ≤ 40 ∧ l % 9 ≠ 0 ∧ caps ≠ [] ∧ caps.Nodup ∧
            ∀ a ∈ caps, holdsopp cb BLACK a = true) := by
          simp only [List.mem_append] at hmem
          rcases hmem with ((h | h) | h) | h
          · exact kingstart_shape BLACK (Or.inl rfl) cb hwf i _ _ hk (by omega) mv h
          · exact kingstart_shape BLACK (Or.inl rfl) cb hwf i _ _ hk (by omega) mv h
          · exact kingstart_shape BLACK (Or.inl rfl) cb hwf i _ _ hk (by omega) mv h
          · exact kingstart_shape BLACK (Or.inl rfl) cb hwf i _ _ hk (by omega) mv h
        obtain ⟨l, caps, h1, h2, h3, h4, h5, h6, h7⟩ := fin
        refine ⟨i, l, caps, ?_, ?_, hi.1, by omega, h2, h3, h4, h5, h6, h7⟩
        · rw [h1, hk]
          have : ¬ (BLACK ||| KING = BLACK ||| MAN) := by decide
          simp [this]
        · unfold ownpiece
          rw [hk]
          rfl
    · rw [if_neg hb] at hmem
      exact absurd hmem (List.not_mem_nil _)
  · rw [generatecapturelist_white cb hwf] at hmv
    obtain ⟨i, hi, hmem⟩ := List.mem_flatMap.1 hmv
    rw [List.mem_range'_1] at hi
    unfold whitecaps at hmem
    by_cases hb : rd cb i &&& WHITE ≠ 0
    · rw [if_pos hb] at hmem
      by_cases hm : rd cb i &&& MAN ≠ 0
      · rw [if_pos hm] at hmem
        have hk := wf_white_man cb hwf i hb hm
        have fin : (∃ l caps, mv = leg FREE (rd cb i) i ::
            leg (if farthest WHITE l then WHITE ||| KING else WHITE ||| MAN) FREE l ::
            caplegs cb caps ∧
            5 ≤ l ∧ l ≤ 40 ∧ l % 9 ≠ 0 ∧ caps ≠ [] ∧ caps.Nodup ∧
            ∀ a ∈ caps, holdsopp cb WHITE a = true) := by
          rcases List.mem_append.1 hmem with h | h
          · exact whitestart_shape cb hwf i _ _ hk (by omega) (Or.inl rfl) mv h
          · exact whitestart_shape cb hwf i _ _ hk (by omega) (Or.inr rfl) mv h
        obtain ⟨l, caps, h1, h2, h3, h4, h5, h6, h7⟩ := fin
        refine ⟨i, l, caps, ?_, ?_, hi.1, by omega, h2, h3, h4, h5, h6, h7⟩
        · rw [h1, hk]
          cases hf : farthest WHITE l <;> simp
        · unfold ownpiece
          rw [hk]
          rfl
      · rw [if_neg hm] at hmem
        have hk := wf_white_king cb hwf i hb hm
        have fin : (∃ l caps, mv = leg FREE (rd cb i) i ::
            leg (WHITE ||| KING) FREE l :: caplegs cb caps ∧
            5 ≤ l ∧ l ≤ 40 ∧ l % 9 ≠ 0 ∧ caps ≠ [] ∧ caps.Nodup ∧
            ∀ a ∈ caps, holdsopp cb WHITE a = true) := by
          simp only [List.mem_append] at hmem
          rcases hmem with ((h | h) | h) | h
          · exact kingstart_shape WHITE (Or.inr rfl) cb hwf i _ _ hk (by omega) mv h
          · exact kingstart_shape WHITE (Or.inr rfl) cb hwf i _ _ hk (by omega) mv h
          · exact kingstart_shape WHITE (Or.inr rfl) cb hwf i _ _ hk (by omega) mv h
          · exact kingstart_shape WHITE (Or.inr rfl) cb hwf i _ _ hk (by omega) mv h
        obtain ⟨l, caps, h1, h2, h3, h4, h5, h6, h7⟩ := fin
        refine ⟨i, l, caps, ?_, ?_, hi.1, by omega, h2, h3, h4, h5, h6, h7⟩
        · rw [h1, hk]
          have : ¬ (WHITE ||| KING = WHITE ||| MAN) := by decide
          simp [this]
        · unfold ownpiece
          rw [hk]
          rfl
    · rw [if_neg hb] at hmem
      exact absurd hmem (List.not_mem_nil _)

theorem promotionok_of_shape (cb : Board) (color : Nat) (hwf : wellformed cb = true)
    (hc : color = BLACK ∨ color = WHITE) (o l : Nat) (rest mv : move2)
    (hown : ownpiece cb color o = true) (ho : o ≤ 40) (hl : l ≤ 40)
    (hmv : mv = leg FREE (rd cb o) o ::
      leg (if rd cb o = color ||| MAN ∧ farthest color l = true then color ||| KING
        else rd cb o) FREE l :: rest) :
    (mv.getD 0 0 >>> 8) % 256 = rd cb (mv.getD 0 0 % 256) ∧
    ownpiece cb color (mv.getD 0 0 % 256) = true ∧ promotionok color mv = true := by
  have h16 := wf_le16 cb hwf o
  have hs : leg FREE (rd cb o) o % 256 = o := leg_square _ _ _ (by omega)
  have hb : (leg FREE (rd cb o) o >>> 8) % 256 = rd cb o := leg_before _ _ _ (by omega) (by omega)
  have hs1 : ∀ s, leg s FREE l % 256 = l := fun s => leg_square _ _ _ (by omega)
  have ha1 : ∀ s, s < 256 → (leg s FREE l >>> 16) % 256 = s :=
    fun s h => leg_after _ _ _ h (by decide) (by omega)
  subst hmv
  unfold promotionok
  simp only [List.getD_cons_zero, List.getD_cons_succ, hs, hb, hs1]
  refine ⟨trivial, hown, ?_⟩
  unfold ownpiece at hown
  simp only [Bool.or_eq_true, beq_iff_eq] at hown
  rcases hc with hc | hc <;> subst hc <;> rcases hown with h | h <;> rw [h] <;>
    cases hf : farthest _ l <;>
    simp only [true_and, and_true, and_false, if_true, if_false, Bool.false_eq_true] <;>
    rw [ha1 _ (by decide)] <;> decide

theorem landedas_eq (cb : Board) (color : Nat) (hc : color = BLACK ∨ color = WHITE) (i j : Nat)
    (hj5 : 5 ≤ j) (hj40 : j ≤ 40) :
    landedas cb color i j =
      if rd cb i = color ||| MAN ∧ farthest color j = true then color ||| KING else rd cb i := by
  unfold landedas farthest
  have hw : ¬ (WHITE = BLACK) := by decide
  rcases hc with hc | hc <;> subst hc <;>
    simp only [hw, if_true, if_false, Bool.and_eq_true, decide_eq_true_eq, hj5, hj40, and_true,
      true_and]

/-- C12: on a well-formed board, every generated move (quiet or capture) moves
the piece standing on its origin cell, a man or king of the colour to move, and
the after-state of its landing leg (leg 1) is, for a man, the king of that
colour when the landing cell is on the farthest row (37..40 for BLACK, 5..8 for
WHITE) and the man otherwise, and for a king the same king. -/
theorem promotion_on_landing (cb : Board) (color : Nat) (hwf : wellformed cb = true)
    (hc : color = BLACK ∨ color = WHITE) (mv : move2)
    (hmv : mv ∈ generatemovelist cb color ∨ mv ∈ (generatecapturelist cb color).2) :
    (mv.getD 0 0 >>> 8) % 256 = rd cb (mv.getD 0 0 % 256) ∧
    ownpiece cb color (mv.getD 0 0 % 256) = true ∧ promotionok color mv = true := by
  rcases hmv with hq | hcap
  · have key : ∃ i j, 5 ≤ i ∧ i ≤ 40 ∧ validpair cb color i j = true ∧
        mv = quietmove cb color i j := by
      unfold generatemovelist at hq
      rcases hc with hc | hc <;> subst hc
      · rw [if_pos rfl] at hq
        obtain ⟨i, hi, hmem⟩ := List.mem_flatMap.1 hq
        rw [List.mem_range'_1] at hi
        obtain ⟨j, hv, he⟩ := (blackmoves_mem cb hwf i mv).1 hmem
        exact ⟨i, j, hi.1, by omega, hv, he⟩
      · rw [if_neg (show ¬ (WHITE = BLACK) by decide)] at hq
        obtain ⟨i, hi, hmem⟩ := List.mem_flatMap.1 hq
        rw [List.mem_range'_1] at hi
        obtain ⟨j, hv, he⟩ := (whitemoves_mem cb hwf i mv).1 hmem
        exact ⟨i, j, hi.1, by omega, hv, he⟩
    obtain ⟨i, j, hi5, hi40, hv, he⟩ := key
    have hv2 := (validpair_iff cb color i j).1 hv
    have hj := free_cell cb hwf j hv2.2.1
    apply promotionok_of_shape cb color hwf hc i j [] mv _ hi40 hj.2.1
    · rw [he]
      unfold quietmove
      rw [landedas_eq cb color hc i j hj.1 hj.2.1]
    · unfold ownpiece
      simp only [Bool.or_eq_true, beq_iff_eq]
      exact hv2.1
  · obtain ⟨o, l, caps, h1, h2, _, h4, _, h6, _⟩ := capture_shape cb color hwf hc mv hcap
    exact promotionok_of_shape cb color hwf hc o l (caplegs cb caps) mv h2 h4 h6 h1

/-- On a well-formed board the jump test of the generator and the open jump of
the rules are the same test. -/
theorem jumpopen_eq_canjump (b : Board) (hwf : wellformed b = true) (color : Nat)
    (hc : color = BLACK ∨ color = WHITE) (a l : Nat) :
    jumpopen b color a l = canjump b (color ^^^ CHANGECOLOR) a l := by
  unfold jumpopen holdsopp canjump
  have va : rd b a = 0 ∨ rd b a = 16 ∨ rd b a = 5 ∨ rd b a = 6 ∨ rd b a = 9 ∨ rd b a = 10 := by
    rcases wf_vals b hwf a with h | ⟨h, _⟩
    · exact Or.inl h
    · exact Or.inr h
  have vl : rd b l = 0 ∨ rd b l = 16 ∨ rd b l = 5 ∨ rd b l = 6 ∨ rd b l = 9 ∨ rd b l = 10 := by
    rcases wf_vals b hwf l with h | ⟨h, _⟩
    · exact Or.inl h
    · exact Or.inr h
  rcases hc with hc | hc <;> subst hc <;>
    rcases va with h | h | h | h | h | h <;> rw [h] <;>
    rcases vl with h2 | h2 | h2 | h2 | h2 | h2 <;> rw [h2] <;> rfl

theorem kingjumps_mem (b : Board) (color i a l : Nat) (h : (a, l) ∈ kingjumps b color i) :
    jumpopen b color a l = true ∧
    ((a = i + 4 ∧ l = i + 8) ∨ (a = i + 5 ∧ l = i + 10) ∨ (a = i - 4 ∧ l = i - 8) ∨
      (a = i - 5 ∧ l = i - 10)) := by
  unfold kingjumps at h
  rw [List.mem_filter] at h
  refine ⟨h.2, ?_⟩
  have := h.1
  simp only [List.mem_cons, Prod.mk.injEq, List.mem_singleton, List.not_mem_nil, or_false] at this
  exact this

theorem kingcapture_single (color : Nat) (hc : color = BLACK ∨ color = WHITE) (f : Nat)
    (b : Board) (hwf : wellformed b = true) (org : move2) (i a l : Nat)
    (h : kingjumps b color i = [(a, l)]) :
    (kingcapture (color ||| KING) (color ^^^ CHANGECOLOR) (f + 1) b org i).2 =
      (kingcapture (color ||| KING) (color ^^^ CHANGECOLOR) f (wr b a FREE)
        (extend org (leg (color ||| KING) FREE l) (leg FREE (rd b a) a)) l).2 := by
  rw [kingcapture_succ]
  unfold kingbranch
  simp only [← jumpopen_eq_canjump b hwf color hc]
  unfold kingjumps at h
  cases e1 : jumpopen b color (i + 4) (i + 8) <;>
    cases e2 : jumpopen b color (i + 5) (i + 10) <;>
    cases e3 : jumpopen b color (i - 4) (i - 8) <;>
    cases e4 : jumpopen b color (i - 5) (i - 10) <;>
    simp [List.filter, e1, e2, e3, e4] at h ⊢ <;>
    rw [h.1, h.2]

theorem kingcapture_stop (color : Nat) (hc : color = BLACK ∨ color = WHITE) (f : Nat)
    (b : Board) (hwf : wellformed b = true) (org : move2) (i : Nat)
    (h : kingjumps b color i = []) :
    (kingcapture (color ||| KING) (color ^^^ CHANGECOLOR) (f + 1) b org i).2 = [org] := by
  rw [kingcapture_succ]
  unfold kingbranch
  simp only [← jumpopen_eq_canjump b hwf color hc]
  unfold kingjumps at h
  cases e1 : jumpopen b color (i + 4) (i + 8) <;>
    cases e2 : jumpopen b color (i + 5) (i + 10) <;>
    cases e3 : jumpopen b color (i - 4) (i - 8) <;>
    cases e4 : jumpopen b color (i - 5) (i - 10) <;>
    simp [List.filter, e1, e2, e3, e4] at h ⊢

theorem kingstart_single (color : Nat) (hc : color = BLACK ∨ color = WHITE)
    (cb : Board) (hwf : wellformed cb = true) (o a l : Nat)
    (h : kingjumps cb color o = [(a, l)]) :
    kingstart (color ||| KING) (color ^^^ CHANGECOLOR) cb o (o + 4) (o + 8) ++
      kingstart (color ||| KING) (color ^^^ CHANGECOLOR) cb o (o + 5) (o + 10) ++
      kingstart (color ||| KING) (color ^^^ CHANGECOLOR) cb o (o - 4) (o - 8) ++
      kingstart (color ||| KING) (color ^^^ CHANGECOLOR) cb o (o - 5) (o - 10) =
    (kingcapture (color ||| KING) (color ^^^ CHANGECOLOR) CHAINFUEL (wr (wr cb a FREE) o FREE)
      [leg FREE (color ||| KING) o, leg (color ||| KING) FREE l, leg FREE (rd cb a) a] l).2 := by
  unfold kingstart
  simp only [← jumpopen_eq_canjump cb hwf color hc]
  unfold kingjumps at h
  cases e1 : jumpopen cb color (o + 4) (o + 8) <;>
    cases e2 : jumpopen cb color (o + 5) (o + 10) <;>
    cases e3 : jumpopen cb color (o - 4) (o - 8) <;>
    cases e4 : jumpopen cb color (o - 5) (o - 10) <;>
    simp [List.filter, e1, e2, e3, e4] at h ⊢ <;>
    rw [h.1, h.2]

theorem flatMap_only (g : Nat → List move2) (o : Nat) : ∀ cells : List Nat, cells.Nodup →
    o ∈ cells → (∀ j ∈ cells, j ≠ o → g j = []) → cells.flatMap g = g o := by
  intro cells
  induction cells with
  | nil => intro _ ho _; exact absurd ho (List.not_mem_nil _)
  | cons c cs ih =>
    intro hnd ho h
    rw [List.nodup_cons] at hnd
    rw [List.flatMap_cons]
    by_cases hco : c = o
    · subst hco
      have : cs.flatMap g = [] := by
        rw [List.flatMap_eq_nil_iff]
        intro j hj
        apply h j (List.mem_cons_of_mem _ hj)
        intro hjc
        rw [hjc] at hj
        exact hnd.1 hj
      rw [this, List.append_nil]
    · rw [h c (List.mem_cons_self _ _) hco, List.nil_append]
      rcases List.mem_cons.1 ho with hoc | hoc
      · exact absurd hoc.symm hco
      · exact ih hnd.2 hoc (fun j hj => h j (List.mem_cons_of_mem _ hj))

theorem blacktest_of_cancapture (cb : Board) (hwf : wellformed cb = true) (j : Nat)
    (h : cancapture cb BLACK j = false) : blacktest cb j = false := by
  unfold blacktest
  by_cases hb : rd cb j &&& BLACK ≠ 0
  · rw [if_pos hb]
    unfold cancapture at h
    have e : ∀ a l, canjump cb WHITE a l = jumpopen cb BLACK a l :=
      fun a l => (jumpopen_eq_canjump cb hwf BLACK (Or.inl rfl) a l).symm
    simp only [e]
    by_cases hm : rd cb j &&& MAN ≠ 0
    · rw [if_pos hm]
      rw [if_pos (wf_black_man cb hwf j hb hm), if_pos rfl] at h
      exact h
    · rw [if_neg hm]
      have hk := wf_black_king cb hwf j hb hm
      rw [if_neg (by rw [hk]; decide), if_pos hk] at h
      unfold kingjumps at h
      cases e1 : jumpopen cb BLACK (j + 4) (j + 8) <;>
        cases e2 : jumpopen cb BLACK (j + 5) (j + 10) <;>
        cases e3 : jumpopen cb BLACK (j - 4) (j - 8) <;>
        cases e4 : jumpopen cb BLACK (j - 5) (j - 10) <;>
        simp [List.filter, e1, e2, e3, e4] at h ⊢
  · rw [if_neg hb]

theorem whitetest_of_cancapture (cb : Board) (hwf : wellformed cb = true) (j : Nat)
    (h : cancapture cb WHITE j = false) : whitetest cb j = false := by
  have hw : ¬ (WHITE = BLACK) := by decide
  unfold whitetest
  by_cases hb : rd cb j &&& WHITE ≠ 0
  · rw [if_pos hb]
    unfold cancapture at h
    have e : ∀ a l, canjump cb BLACK a l = jumpopen cb WHITE a l :=
      fun a l => (jumpopen_eq_canjump cb hwf WHITE (Or.inr rfl) a l).symm
    simp only [e]
    by_cases hm : rd cb j &&& MAN ≠ 0
    · rw [if_pos hm]
      rw [if_pos (wf_white_man cb hwf j hb hm), if_neg hw] at h
      exact h
    · rw [if_neg hm]
      have hk := wf_white_king cb hwf j hb hm
      rw [if_neg (by rw [hk]; decide), if_pos hk] at h
      unfold kingjumps at h
      cases e1 : jumpopen cb WHITE (j + 4) (j + 8) <;>
        cases e2 : jumpopen cb WHITE (j + 5) (j + 10) <;>
        cases e3 : jumpopen cb WHITE (j - 4) (j - 8) <;>
        cases e4 : jumpopen cb WHITE (j - 5) (j - 10) <;>
        simp [List.filter, e1, e2, e3, e4] at h ⊢
  · rw [if_neg hb]

/-- C13 (counterexample): on `tripleplusboard` the black king of cell 6 has
exactly one capture path, 6 -> 16 -> 24 -> 34 over the men on 11, 20 and 29
with every landing cell FREE, and the capture list of BLACK holds two moves:
the second is the capture of the man on cell 8. -/
theorem king_path_counterexample :
    wellformed tripleplusboard = true ∧
    rd tripleplusboard 6 = BLACK ||| KING ∧
    kingjumps tripleplusboard BLACK 6 = [(11, 16)] ∧
    kingjumps (wr (wr tripleplusboard 6 FREE) 11 FREE) BLACK 16 = [(20, 24)] ∧
    kingjumps (wr (wr (wr tripleplusboard 6 FREE) 11 FREE) 20 FREE) BLACK 24 = [(29, 34)] ∧
    kingjumps (wr (wr (wr (wr tripleplusboard 6 FREE) 11 FREE) 20 FREE) 29 FREE) BLACK 34 = [] ∧
    rd tripleplusboard 11 = WHITE ||| MAN ∧ rd tripleplusboard 20 = WHITE ||| MAN ∧
    rd tripleplusboard 29 = WHITE ||| MAN ∧
    (generatecapturelist tripleplusboard BLACK).2.length = 2 ∧
    (generatecapturelist tripleplusboard BLACK).2 ≠ [triplecapture BLACK 6 34 11 20 29] := by
  decide!

theorem rd_wr_ne_free (b : Board) (a j : Nat) (ha : a < b.length)
    (h : rd (wr b a FREE) j ≠ FREE) : a ≠ j ∧ rd (wr b a FREE) j = rd b j := by
  rw [rd_wr] at h ⊢
  by_cases e : a = j
  · subst e
    simp [ha] at h
  · simp [e]

theorem holdsopp_ne_free (b : Board) (color : Nat) (hc : color = BLACK ∨ color = WHITE) (a : Nat)
    (h : holdsopp b color a = true) : rd b a ≠ FREE ∧ rd b a ≠ 0 := by
  unfold holdsopp at h
  simp only [Bool.or_eq_true, beq_iff_eq] at h
  rcases hc with hc | hc <;> subst hc <;> rcases h with h | h <;> rw [h] <;> decide

theorem jump_facts (b : Board) (hwf : wellformed b = true) (color : Nat)
    (hc : color = BLACK ∨ color = WHITE) (i a l : Nat) (h : kingjumps b color i = [(a, l)]) :
    holdsopp b color a = true ∧ rd b l = FREE ∧ 5 ≤ a ∧ a ≤ 40 ∧ 5 ≤ l ∧ l ≤ 40 ∧
    ((a = i + 4 ∧ l = i + 8) ∨ (a = i + 5 ∧ l = i + 10) ∨ (a = i - 4 ∧ l = i - 8) ∨
      (a = i - 5 ∧ l = i - 10)) := by
  have hm := kingjumps_mem b color i a l (by rw [h]; exact List.mem_singleton.2 rfl)
  have hj := hm.1
  rw [jumpopen_eq_canjump b hwf color hc] at hj
  obtain ⟨_, _, ha3, ha4, hl1, hl2, hl3⟩ := canjump_facts b hwf _ a l hj
  have hm1 := hm.1
  unfold jumpopen at hm1
  simp only [Bool.and_eq_true, beq_iff_eq] at hm1
  exact ⟨hm1.1, hl1, ha3, ha4, hl2, hl3, hm.2⟩

/-- Three jumps in a row never end on the cell they started from, nor on one
of the jumped cells. -/
theorem triple_distinct (o a1 l1 a2 l2 a3 l3 : Nat) (h1 : 5 ≤ l1) (h2 : 5 ≤ l2) (h3 : 5 ≤ l3)
    (d1 : (a1 = o + 4 ∧ l1 = o + 8) ∨ (a1 = o + 5 ∧ l1 = o + 10) ∨ (a1 = o - 4 ∧ l1 = o - 8) ∨
      (a1 = o - 5 ∧ l1 = o - 10))
    (d2 : (a2 = l1 + 4 ∧ l2 = l1 + 8) ∨ (a2 = l1 + 5 ∧ l2 = l1 + 10) ∨
      (a2 = l1 - 4 ∧ l2 = l1 - 8) ∨ (a2 = l1 - 5 ∧ l2 = l1 - 10))
    (d3 : (a3 = l2 + 4 ∧ l3 = l2 + 8) ∨ (a3 = l2 + 5 ∧ l3 = l2 + 10) ∨
      (a3 = l2 - 4 ∧ l3 = l2 - 8) ∨ (a3 = l2 - 5 ∧ l3 = l2 - 10)) :
    l3 ≠ o ∧ l3 ≠ a1 ∧ l3 ≠ a2 ∧ l3 ≠ a3 := by
  rcases d1 with ⟨e1, e2⟩ | ⟨e1, e2⟩ | ⟨e1, e2⟩ | ⟨e1, e2⟩ <;>
    rcases d2 with ⟨e3, e4⟩ | ⟨e3, e4⟩ | ⟨e3, e4⟩ | ⟨e3, e4⟩ <;>
    rcases d3 with ⟨e5, e6⟩ | ⟨e5, e6⟩ | ⟨e5, e6⟩ | ⟨e5, e6⟩ <;>
    refine ⟨?_, ?_, ?_, ?_⟩ <;> omega

/-- C13 (amended): on a well-formed board where a king of the moving colour
stands on `o` and has exactly one capture path, three jumps over the men on
`a1`, `a2`, `a3` with the landing cells `l1`, `l2`, `l3` FREE (the origin and
each jumped cell being emptied as the king goes), and where no piece of that
colour on another cell has a jump open, `generatecapturelist` returns exactly
one move; `domove` of it puts the king on `l3`, sets `o`, `a1`, `a2`, `a3` to
FREE and changes no other cell, and these five cells are pairwise different. -/
theorem king_triple_capture (cb : Board) (color : Nat) (hwf : wellformed cb = true)
    (hc : color = BLACK ∨ color = WHITE) (o a1 l1 a2 l2 a3 l3 : Nat)
    (hk : rd cb o = color ||| KING)
    (h1 : kingjumps cb color o = [(a1, l1)])
    (h2 : kingjumps (wr (wr cb o FREE) a1 FREE) color l1 = [(a2, l2)])
    (h3 : kingjumps (wr (wr (wr cb o FREE) a1 FREE) a2 FREE) color l2 = [(a3, l3)])
    (h4 : kingjumps (wr (wr (wr (wr cb o FREE) a1 FREE) a2 FREE) a3 FREE) color l3 = [])
    (hmen : rd cb a1 = (color ^^^ CHANGECOLOR) ||| MAN ∧
      rd cb a2 = (color ^^^ CHANGECOLOR) ||| MAN ∧ rd cb a3 = (color ^^^ CHANGECOLOR) ||| MAN)
    (hother : ∀ j < 46, j ≠ o → cancapture cb color j = false) :
    (generatecapturelist cb color).2 = [triplecapture color o l3 a1 a2 a3] ∧
    [l3, o, a1, a2, a3].Nodup ∧
    ∀ j, rd (domove cb (triplecapture color o l3 a1 a2 a3)) j =
      if j = l3 then color ||| KING
      else if j = o ∨ j = a1 ∨ j = a2 ∨ j = a3 then FREE else rd cb j := by
  have hlen := wf_length cb hwf
  have hK : color ||| KING < 256 ∧ color ||| KING ≠ 0 := by
    rcases hc with hc | hc <;> subst hc <;> decide
  have hM : (color ^^^ CHANGECOLOR) ||| MAN < 256 := by
    rcases hc with hc | hc <;> subst hc <;> decide
  have hKM : color ||| KING ≠ (color ^^^ CHANGECOLOR) ||| MAN := by
    rcases hc with hc | hc <;> subst hc <;> decide
  have ho0 : rd cb o ≠ 0 := by rw [hk]; exact hK.2
  have ho : 5 ≤ o ∧ o ≤ 40 := by
    rcases wf_vals cb hwf o with h0 | ⟨_, h5, h40, _⟩
    · exact absurd h0 ho0
    · exact ⟨h5, h40⟩
  -- first jump, on the board itself
  obtain ⟨p1, f1, a1lo, a1hi, l1lo, l1hi, d1⟩ := jump_facts cb hwf color hc o a1 l1 h1
  have a1o : o ≠ a1 := by
    intro e
    rw [← e, hk] at hmen
    exact hKM hmen.1
  have wf0 : wellformed (wr cb o FREE) = true := wf_wr_free cb hwf o ho0
  have r0a1 : rd (wr cb o FREE) a1 = rd cb a1 := by
    rw [rd_wr]; simp [a1o]
  have wf1 : wellformed (wr (wr cb o FREE) a1 FREE) = true :=
    wf_wr_free _ wf0 a1 (by rw [r0a1]; exact (holdsopp_ne_free cb color hc a1 p1).2)
  -- second jump
  obtain ⟨p2, f2, a2lo, a2hi, l2lo, l2hi, d2⟩ := jump_facts _ wf1 color hc l1 a2 l2 h2
  have n2 := holdsopp_ne_free _ color hc a2 p2
  obtain ⟨a2a1, r2⟩ := rd_wr_ne_free (wr cb o FREE) a1 a2
    (by rw [length_wr, hlen]; omega) n2.1
  obtain ⟨a2o, r2b⟩ := rd_wr_ne_free cb o a2 (by rw [hlen]; omega) (by rw [← r2]; exact n2.1)
  have r1a2 : rd (wr (wr cb o FREE) a1 FREE) a2 = rd cb a2 := by rw [r2, r2b]
  have wf2 : wellformed (wr (wr (wr cb o FREE) a1 FREE) a2 FREE) = true :=
    wf_wr_free _ wf1 a2 n2.2
  -- third jump
  obtain ⟨p3, f3, a3lo, a3hi, l3lo, l3hi, d3⟩ := jump_facts _ wf2 color hc l2 a3 l3 h3
  have n3 := holdsopp_ne_free _ color hc a3 p3
  obtain ⟨a3a2, r3⟩ := rd_wr_ne_free (wr (wr cb o FREE) a1 FREE) a2 a3
    (by rw [length_wr, length_wr, hlen]; omega) n3.1
  obtain ⟨a3a1, r3b⟩ := rd_wr_ne_free (wr cb o FREE) a1 a3
    (by rw [length_wr, hlen]; omega) (by rw [← r3]; exact n3.1)
  obtain ⟨a3o, r3c⟩ := rd_wr_ne_free cb o a3 (by rw [hlen]; omega)
    (by rw [← r3b, ← r3]; exact n3.1)
  have r2a3 : rd (wr (wr (wr cb o FREE) a1 FREE) a2 FREE) a3 = rd cb a3 := by rw [r3, r3b, r3c]
  have wf3 : wellformed (wr (wr (wr (wr cb o FREE) a1 FREE) a2 FREE) a3 FREE) = true :=
    wf_wr_free _ wf2 a3 n3.2
  -- the landing cell differs from the origin and from the jumped cells
  obtain ⟨l3o, l3a1, l3a2, l3a3⟩ := triple_distinct o a1 l1 a2 l2 a3 l3 l1lo l2lo l3lo d1 d2 d3
  -- the capture list
  have hgen : (generatecapturelist cb color).2 =
      kingstart (color ||| KING) (color ^^^ CHANGECOLOR) cb o (o + 4) (o + 8) ++
      kingstart (color ||| KING) (color ^^^ CHANGECOLOR) cb o (o + 5) (o + 10) ++
      kingstart (color ||| KING) (color ^^^ CHANGECOLOR) cb o (o - 4) (o - 8) ++
      kingstart (color ||| KING) (color ^^^ CHANGECOLOR) cb o (o - 5) (o - 10) := by
    have hnd : (List.range' 5 36).Nodup := List.nodup_range' 5 36
    have hmem : o ∈ List.range' 5 36 := by rw [List.mem_range'_1]; omega
    rcases hc with hc | hc <;> subst hc
    · rw [generatecapturelist_black cb hwf]
      simp only []
      rw [flatMap_only (blackcaps cb) o _ hnd hmem
        (fun j hm hj => (blackcaps_eq_nil cb j).2 (blacktest_of_cancapture cb hwf j
          (hother j (by rw [List.mem_range'_1] at hm; omega) hj)))]
      unfold blackcaps
      rw [if_pos (by rw [hk]; decide), if_neg (by rw [hk]; decide)]
      rfl
    · rw [generatecapturelist_white cb hwf]
      simp only []
      rw [flatMap_only (whitecaps cb) o _ hnd hmem
        (fun j hm hj => (whitecaps_eq_nil cb j).2 (whitetest_of_cancapture cb hwf j
          (hother j (by rw [List.mem_range'_1] at hm; omega) hj)))]
      unfold whitecaps
      rw [if_pos (by rw [hk]; decide), if_neg (by rw [hk]; decide)]
      rfl
  refine ⟨?_, ?_, ?_⟩
  · rw [hgen, kingstart_single color hc cb hwf o a1 l1 h1, wr_comm_free cb a1 o]
    show (kingcapture (color ||| KING) (color ^^^ CHANGECOLOR) (45 + 1) _ _ _).2 = _
    rw [kingcapture_single color hc 45 _ wf1 _ l1 a2 l2 h2,
      kingcapture_single color hc 44 _ wf2 _ l2 a3 l3 h3,
      kingcapture_stop color hc 43 _ wf3 _ l3 h4, r1a2, r2a3, hmen.1, hmen.2.1, hmen.2.2]
    rfl
  · simp only [List.nodup_cons, List.mem_cons, List.mem_singleton, List.not_mem_nil, or_false,
      not_or, List.nodup_nil, and_true, not_false_eq_true]
    exact ⟨⟨l3o, l3a1, l3a2, l3a3⟩, ⟨a1o, fun e => a2o e, fun e => a3o e⟩,
      ⟨fun e => a2a1 e, fun e => a3a1 e⟩, fun e => a3a2 e⟩
  · intro j
    have s0 := leg_square FREE (color ||| KING) o (by omega)
    have s1 := leg_square (color ||| KING) FREE l3 (by omega)
    have s2 := leg_square FREE ((color ^^^ CHANGECOLOR) ||| MAN) a1 (by omega)
    have s3 := leg_square FREE ((color ^^^ CHANGECOLOR) ||| MAN) a2 (by omega)
    have s4 := leg_square FREE ((color ^^^ CHANGECOLOR) ||| MAN) a3 (by omega)
    have t0 := leg_after FREE (color ||| KING) o (by decide) hK.1 (by omega)
    have t1 := leg_after (color ||| KING) FREE l3 hK.1 (by decide) (by omega)
    have t2 := leg_after FREE ((color ^^^ CHANGECOLOR) ||| MAN) a1 (by decide) hM (by omega)
    have t3 := leg_after FREE ((color ^^^ CHANGECOLOR) ||| MAN) a2 (by decide) hM (by omega)
    have t4 := leg_after FREE ((color ^^^ CHANGECOLOR) ||| MAN) a3 (by decide) hM (by omega)
    unfold triplecapture
    simp only [domove_cons, s0, s1, s2, s3, s4, t0, t1, t2, t3, t4]
    show rd (wr (wr (wr (wr (wr cb o FREE) l3 (color ||| KING)) a1 FREE) a2 FREE) a3 FREE) j = _
    simp only [rd_wr, length_wr, hlen]
    by_cases e1 : j = l3
    · subst e1
      simp [l3o.symm, l3a1.symm, l3a2.symm, l3a3.symm, Ne.symm l3o, Ne.symm l3a1, Ne.symm l3a2,
        Ne.symm l3a3]
      omega
    · by_cases e2 : j = a3
      · subst e2
        simp [e1]
        omega
      · by_cases e3 : j = a2
        · subst e3
          simp [e1, e2, Ne.symm e2]
          omega
        · by_cases e4 : j = a1
          · subst e4
            simp [e1, e2, e3, Ne.symm e2, Ne.symm e3]
            omega
          · by_cases e5 : j = o
            · subst e5
              simp [e1, e2, e3, e4, Ne.symm e1, Ne.symm e2, Ne.symm e3, Ne.symm e4]
              omega
            · simp [e1, e2, e3, e4, e5, Ne.symm e1, Ne.symm e2, Ne.symm e3, Ne.symm e4,
                Ne.symm e5]

/-! ## The range of `evaluation` -/

theorem material_counts (cb : Board) (hwf : wellformed cb = true) (cells : List Nat) :
    ∃ wm wk bm bk : Nat,
      (cells.map (fun i => value.getD (rd cb i) 0)).sum = wm + 16 * wk + 256 * bm + 4096 * bk ∧
      cells.countP (fun i => ownpiece cb WHITE i) = wm + wk ∧
      cells.countP (fun i => ownpiece cb BLACK i) = bm + bk := by
  induction cells with
  | nil => exact ⟨0, 0, 0, 0, rfl, rfl, rfl⟩
  | cons c cs ih =>
    obtain ⟨wm, wk, bm, bk, h1, h2, h3⟩ := ih
    rw [List.map_cons, List.sum_cons, List.countP_cons, List.countP_cons, h1, h2, h3]
    unfold ownpiece
    rcases wf_vals cb hwf c with h | ⟨h | h | h | h | h, _⟩ <;> rw [h]
    · exact ⟨wm, wk, bm, bk, by simp [value], by simp [WHITE, MAN, KING],
        by simp [BLACK, MAN, KING]⟩
    · exact ⟨wm, wk, bm, bk, by simp [value], by simp [WHITE, MAN, KING],
        by simp [BLACK, MAN, KING]⟩
    · exact ⟨wm + 1, wk, bm, bk, by simp [value]; omega, by simp [WHITE, MAN, KING]; omega,
        by simp [BLACK, MAN, KING]⟩
    · exact ⟨wm, wk, bm + 1, bk, by simp [value]; omega, by simp [WHITE, MAN, KING],
        by simp [BLACK, MAN, KING]; omega⟩
    · exact ⟨wm, wk + 1, bm, bk, by simp [value]; omega, by simp [WHITE, MAN, KING]; omega,
        by simp [BLACK, MAN, KING]⟩
    · exact ⟨wm, wk, bm, bk + 1, by simp [value]; omega, by simp [WHITE, MAN, KING],
        by simp [BLACK, MAN, KING]; omega⟩

theorem countcells_bound (cb : Board) (cells : List Nat) (v : Nat) :
    0 ≤ countcells cb cells v ∧ countcells cb cells v ≤ cells.length := by
  unfold countcells
  refine ⟨Int.natCast_nonneg _, ?_⟩
  exact Int.ofNat_le.2 (List.length_filter_le _ _)

theorem brg_bound (n : Nat) : -1 ≤ brg.getD n 0 ∧ brg.getD n 0 ≤ 9 := by
  by_cases h : n < 16
  · interval_cases n <;> decide
  · rw [List.getD_eq_default _ _ (by simp [brg]; omega)]
    decide

theorem row_bound (n : Nat) : 0 ≤ row.getD n 0 ∧ row.getD n 0 ≤ 7 := by
  by_cases h : n < 41
  · interval_cases n <;> decide
  · rw [List.getD_eq_default _ _ (by simp [row]; omega)]
    decide

theorem tempo_fold_bound (cb : Board) (cells : List Nat) : ∀ t : Int,
    t - 7 * cells.length ≤ cells.foldl (fun t i =>
      let t1 := if rd cb i = (BLACK ||| MAN) then t + row.getD i 0 else t
      if rd cb i = (WHITE ||| MAN) then t1 - (7 - row.getD i 0) else t1) t ∧
    cells.foldl (fun t i =>
      let t1 := if rd cb i = (BLACK ||| MAN) then t + row.getD i 0 else t
      if rd cb i = (WHITE ||| MAN) then t1 - (7 - row.getD i 0) else t1) t ≤
      t + 7 * cells.length := by
  induction cells with
  | nil => intro t; simp
  | cons c cs ih =>
    intro t
    rw [List.foldl_cons]
    have h := ih (let t1 := if rd cb c = (BLACK ||| MAN) then t + row.getD c 0 else t
      if rd cb c = (WHITE ||| MAN) then t1 - (7 - row.getD c 0) else t1)
    have hr := row_bound c
    have hstep : t - 7 ≤ (let t1 := if rd cb c = (BLACK ||| MAN) then t + row.getD c 0 else t
        if rd cb c = (WHITE ||| MAN) then t1 - (7 - row.getD c 0) else t1) ∧
      (let t1 := if rd cb c = (BLACK ||| MAN) then t + row.getD c 0 else t
        if rd cb c = (WHITE ||| MAN) then t1 - (7 - row.getD c 0) else t1) ≤ t + 7 := by
      simp only []
      split_ifs <;> omega
    rw [List.length_cons]
    push_cast
    constructor
    · linarith [h.1, hstep.1]
    · linarith [h.2, hstep.2]

theorem tempoterm_bound (cb : Board) : -252 ≤ tempoterm cb ∧ tempoterm cb ≤ 252 := by
  have h := tempo_fold_bound cb (List.range' 5 36) 0
  have hl : ((List.range' 5 36).length : Int) = 36 := by simp
  rw [hl] at h
  unfold tempoterm
  constructor
  · linarith [h.1]
  · linarith [h.2]

theorem themove_bound (total : Nat) (sgn : Int) (hs : sgn = 1 ∨ sgn = -1) :
    -6 ≤ themove total sgn ∧ themove total sgn ≤ 6 := by
  unfold themove
  rcases hs with hs | hs <;> subst hs <;> split_ifs <;> omega

theorem tdiv_bound (a b : Int) (hb : 0 < b) (h1 : -b ≤ a) (h2 : a ≤ b) :
    -250 ≤ Int.tdiv (250 * a) b ∧ Int.tdiv (250 * a) b ≤ 250 := by
  by_cases ha : 0 ≤ a
  · rw [Int.tdiv_eq_ediv (by omega) (by omega)]
    constructor
    · have := Int.ediv_nonneg (show 0 ≤ 250 * a by omega) (show 0 ≤ b by omega)
      omega
    · apply Int.ediv_le_of_le_mul hb
      nlinarith
  · have e : 250 * a = -(250 * (-a)) := by ring
    rw [e, Int.neg_tdiv, Int.tdiv_eq_ediv (by omega) (by omega)]
    constructor
    · have : 250 * -a / b ≤ 250 := by
        apply Int.ediv_le_of_le_mul hb
        nlinarith
      omega
    · have := Int.ediv_nonneg (show 0 ≤ 250 * (-a) by omega) (show 0 ≤ b by omega)
      omega

theorem decode_counts (wm wk bm bk code : Nat)
    (h : code = wm + 16 * wk + 256 * bm + 4096 * bk) (hw : wm + wk ≤ 12) (hb : bm + bk ≤ 12) :
    code % 16 = wm ∧ code >>> 4 % 16 = wk ∧ code >>> 8 % 16 = bm ∧ code >>> 12 % 16 = bk := by
  simp only [Nat.shiftRight_eq_div_pow]
  omega

/-- C20: on a well-formed board with at least one piece and at most 12 pieces
of each colour, `evaluation` returns a value (the divisor `v1 + v2` is not 0)
and its absolute value is below 5000, the magnitude of the score for a side
without a legal move; this holds for either colour to move. -/
theorem evaluation_below_mate (cb : Board) (color : Nat) (hwf : wellformed cb = true)
    (hone : 1 ≤ piececount cb BLACK + piececount cb WHITE)
    (hb : piececount cb BLACK ≤ 12) (hw : piececount cb WHITE ≤ 12) :
    ∃ v, evaluation cb color = some v ∧ |v| < 5000 := by
  obtain ⟨wm, wk, bm, bk, hcode, hcw, hcb⟩ := material_counts cb hwf (List.range' 5 36)
  unfold piececount at hone hb hw
  rw [hcb] at hone hb
  rw [hcw] at hone hw
  have hcc := fun v => countcells_bound cb center v
  have hce := fun v => countcells_bound cb edge v
  have hcs := fun v => countcells_bound cb safeedge v
  have hlc : (center.length : Int) = 8 := rfl
  have hle : (edge.length : Int) = 14 := rfl
  have hls : (safeedge.length : Int) = 4 := rfl
  rw [hlc] at hcc
  rw [hle] at hce
  rw [hls] at hcs
  have htempo := tempoterm_bound cb
  have hbrg := brg_bound
  have hmv1 := fun t => themove_bound t 1 (Or.inl rfl)
  have hmv2 := fun t => themove_bound t (-1) (Or.inr rfl)
  unfold evaluation
  lift_lets
  intro code nwm nwk nbm nbk v1 v2 e0 e1 nm nk e2 e3 e4 code1 code2 backrank e5 e6 e7 e8 e9 e10
    e11 tempo e12 e13 e14 e15 e16 e17
  obtain ⟨hnwm, hnwk, hnbm, hnbk⟩ : nwm = wm ∧ nwk = wk ∧ nbm = bm ∧ nbk = bk :=
    decode_counts wm wk bm bk code hcode hw hb
  have hv1 : v1 = 100 * (bm : Int) + 130 * (bk : Int) := by
    simp only [v1, hnbm, hnbk]
  have hv2 : v2 = 100 * (wm : Int) + 130 * (wk : Int) := by
    simp only [v2, hnwm, hnwk]
  have hpos : 0 < v1 + v2 := by omega
  have hne : ¬ (v1 + v2 = 0) := by omega
  have hdiv := tdiv_bound (v1 - v2) (v1 + v2) hpos (by omega) (by omega)
  have b0 : -1560 ≤ e0 ∧ e0 ≤ 1560 := by
    simp only [e0]
    omega
  have b1 : -1810 ≤ e1 ∧ e1 ≤ 1810 := by
    simp only [e1]
    omega
  have b2 : -1812 ≤ e2 ∧ e2 ≤ 1812 := by
    simp only [e2]
    split_ifs <;> omega
  have b3 : -1812 ≤ e3 ∧ e3 ≤ 1817 := by
    simp only [e3]
    split_ifs <;> omega
  have b4 : -1817 ≤ e4 ∧ e4 ≤ 1817 := by
    simp only [e4]
    split_ifs <;> omega
  have b5 : -1847 ≤ e5 ∧ e5 ≤ 1847 := by
    have h1 := hbrg code1
    have h2 := hbrg code2
    simp only [e5, backrank]
    omega
  have b6 : -1847 ≤ e6 ∧ e6 ≤ 1850 := by
    simp only [e6]
    split_ifs <;> omega
  have b7 : -1850 ≤ e7 ∧ e7 ≤ 1850 := by
    simp only [e7]
    split_ifs <;> omega
  have b8 : -1858 ≤ e8 ∧ e8 ≤ 1858 := by
    have h1 := hcc (BLACK ||| MAN)
    have h2 := hcc (WHITE ||| MAN)
    simp only [e8]
    omega
  have b9 : -1898 ≤ e9 ∧ e9 ≤ 1898 := by
    have h1 := hcc (BLACK ||| KING)
    have h2 := hcc (WHITE ||| KING)
    simp only [e9]
    omega
  have b10 : -1912 ≤ e10 ∧ e10 ≤ 1912 := by
    have h1 := hce (BLACK ||| MAN)
    have h2 := hce (WHITE ||| MAN)
    simp only [e10]
    omega
  have b11 : -1982 ≤ e11 ∧ e11 ≤ 1982 := by
    have h1 := hce (BLACK ||| KING)
    have h2 := hce (WHITE ||| KING)
    simp only [e11]
    omega
  have ht : -252 ≤ tempo ∧ tempo ≤ 252 := htempo
  have b12 : -2486 ≤ e12 ∧ e12 ≤ 2486 := by
    simp only [e12]
    split_ifs <;> omega
  have b13 : -2738 ≤ e13 ∧ e13 ≤ 2738 := by
    simp only [e13]
    split_ifs <;> omega
  have b14 : -3242 ≤ e14 ∧ e14 ≤ 3242 := by
    simp only [e14]
    split_ifs <;> omega
  have b15 : -3302 ≤ e15 ∧ e15 ≤ 3242 := by
    have h1 := hcs (WHITE ||| KING)
    simp only [e15]
    split_ifs <;> omega
  have b16 : -3302 ≤ e16 ∧ e16 ≤ 3302 := by
    have h1 := hcs (BLACK ||| KING)
    simp only [e16]
    split_ifs <;> omega
  have b17 : -3308 ≤ e17 ∧ e17 ≤ 3308 := by
    have h1 := hmv1 (nm + nk)
    have h2 := hmv2 (nm + nk)
    simp only [e17]
    split_ifs <;> omega
  refine ⟨e17, by rw [if_neg hne], ?_⟩
  rw [abs_lt]
  omega

/-! ## Further instances on concrete positions -/

theorem promotion_on_landing_witness :
    wellformed promoboard = true ∧ (BLACK = BLACK ∨ BLACK = WHITE) ∧
    (promomove ∈ generatemovelist promoboard BLACK ∨
      promomove ∈ (generatecapturelist promoboard BLACK).2) ∧
    ((promomove.getD 0 0 >>> 8) % 256 = rd promoboard (promomove.getD 0 0 % 256) ∧
      ownpiece promoboard BLACK (promomove.getD 0 0 % 256) = true ∧
      promotionok BLACK promomove = true) :=
  ⟨by decide!, Or.inl rfl, by decide!,
    promotion_on_landing promoboard BLACK (by decide!) (Or.inl rfl) promomove (by decide!)⟩

theorem king_triple_capture_witness :
    wellformed tripleboard = true ∧ (BLACK = BLACK ∨ BLACK = WHITE) ∧
    rd tripleboard 6 = BLACK ||| KING ∧
    kingjumps tripleboard BLACK 6 = [(11, 16)] ∧
    kingjumps (wr (wr tripleboard 6 FREE) 11 FREE) BLACK 16 = [(20, 24)] ∧
    kingjumps (wr (wr (wr tripleboard 6 FREE) 11 FREE) 20 FREE) BLACK 24 = [(29, 34)] ∧
    kingjumps (wr (wr (wr (wr tripleboard 6 FREE) 11 FREE) 20 FREE) 29 FREE) BLACK 34 = [] ∧
    (rd tripleboard 11 = (BLACK ^^^ CHANGECOLOR) ||| MAN ∧
      rd tripleboard 20 = (BLACK ^^^ CHANGECOLOR) ||| MAN ∧
      rd tripleboard 29 = (BLACK ^^^ CHANGECOLOR) ||| MAN) ∧
    (∀ j < 46, j ≠ 6 → cancapture tripleboard BLACK j = false) ∧
    ((generatecapturelist tripleboard BLACK).2 = [triplecapture BLACK 6 34 11 20 29] ∧
      [34, 6, 11, 20, 29].Nodup ∧
      ∀ j, rd (domove tripleboard (triplecapture BLACK 6 34 11 20 29)) j =
        if j = 34 then BLACK ||| KING
        else if j = 6 ∨ j = 11 ∨ j = 20 ∨ j = 29 then FREE else rd tripleboard j) :=
  ⟨by decide!, Or.inl rfl, by decide!, by decide!, by decide!, by decide!, by decide!,
    by decide!, by decide!,
    king_triple_capture tripleboard BLACK (by decide!) (Or.inl rfl) 6 11 16 20 24 29 34
      (by decide!) (by decide!) (by decide!) (by decide!) (by decide!) (by decide!)
      (by decide!)⟩

theorem codec_bijection_witness :
    (∀ q ∈ squares, playable (rd startinboard (8 * q.2.1 + q.2.2)) = true) ∧
    exportboard (importboard startinboard) startinboard = startinboard :=
  ⟨by decide!, (codec_bijection startinboard (by decide!)).2.2.2.2.2.2.2⟩

theorem codec_even_squares_witness :
    (∀ c < 8, ∀ r < 8, (c + r) % 2 = 0 →
      rd startinboard (8 * c + r) = rd (wr startinboard 1 5) (8 * c + r)) ∧
    importboard startinboard = importboard (wr startinboard 1 5) :=
  ⟨by decide!, (codec_even_squares 0 [] BLACK 0 [] startinboard (wr startinboard 1 5)
    (by decide!)).2.2.1⟩

theorem import_stores_witness :
    (5, 0, 0) ∈ squares ∧
    rd (importboard (wr startinboard 0 3)) 5 =
      if rd (wr startinboard 0 3) (8 * 0 + 0) = 0 then FREE
      else rd (wr startinboard 0 3) (8 * 0 + 0) :=
  ⟨by decide, import_stores (wr startinboard 0 3) (5, 0, 0) (by decide)⟩

theorem import_sentinels_witness :
    (∀ q ∈ squares, rd startinboard (8 * q.2.1 + q.2.2) = 0 ∨
      playable (rd startinboard (8 * q.2.1 + q.2.2)) = true) ∧
    ((importboard startinboard).length = 46 ∧
      (∀ i, i < 46 → (rd (importboard startinboard) i = OCCUPIED ↔ sentinel i = true)) ∧
      ((List.range 46).filter (fun i => !sentinel i)).length = 32 ∧
      (∀ i, i < 46 → sentinel i = false → playable (rd (importboard startinboard) i) = true) ∧
      wellformed (importboard startinboard) = true) :=
  ⟨by decide!, import_sentinels startinboard (by decide!)⟩

theorem evaluation_below_mate_witness :
    wellformed startboard = true ∧
    1 ≤ piececount startboard BLACK + piececount startboard WHITE ∧
    piececount startboard BLACK ≤ 12 ∧ piececount startboard WHITE ≤ 12 ∧
    ∃ v, evaluation startboard BLACK = some v ∧ |v| < 5000 :=
  ⟨by decide!, by decide!, by decide!, by decide!,
    evaluation_below_mate startboard BLACK (by decide!) (by decide!) (by decide!) (by decide!)⟩

/-! ## The terms of `evaluation` -/

theorem ite_add_r (c : Prop) [Decidable c] (e d : Int) :
    (if c then e + d else e) = e + (if c then d else 0) := by
  split_ifs <;> simp
theorem ite_sub_r (c : Prop) [Decidable c] (e d : Int) :
    (if c then e - d else e) = e + (if c then -d else 0) := by
  split_ifs <;> simp [sub_eq_add_neg]
theorem ite_add_sub (c : Prop) [Decidable c] (e d1 d2 : Int) :
    (if c then e + d1 else e - d2) = e + (if c then d1 else -d2) := by
  split_ifs <;> simp [sub_eq_add_neg]
theorem ite_add_add (c : Prop) [Decidable c] (e d1 d2 : Int) :
    (if c then e + d1 else e + d2) = e + (if c then d1 else d2) := by
  split_ifs <;> simp
theorem ite_mul_r (c : Prop) [Decidable c] (k t : Int) :
    (if c then k * t else 0) = (if c then k else 0) * t := by
  split_ifs <;> simp

/-- Function `evaluation` as the sum of its terms. -/
theorem evaluation_terms (cb : Board) (color : Nat) :
    evaluation cb color =
      if blackmaterial cb + whitematerial cb = 0 then none
      else some (evmaterial cb + evturn color + evposition cb +
        tempofactor (nbmof cb + nwmof cb) * tempoterm cb + evsafe cb + evmove cb color) := by
  unfold evaluation
  simp only [ite_add_r, ite_sub_r, ite_add_sub, ite_add_add, ite_mul_r]
  unfold evmaterial evturn evposition tempofactor evsafe evmove blackmaterial whitematerial
    nwmof nwkof nbmof nbkof
  refine ite_congr rfl (fun _ => rfl) (fun _ => ?_)
  congr 1
  simp only [sub_eq_add_neg, add_mul, add_assoc, ite_mul_r]

/-- With at most 12 pieces of each colour the four decoded counts add up to the
true piece counts. -/
theorem decoded_totals (cb : Board) (hwf : wellformed cb = true)
    (hb : piececount cb BLACK ≤ 12) (hw : piececount cb WHITE ≤ 12) :
    nwmof cb + nwkof cb = piececount cb WHITE ∧ nbmof cb + nbkof cb = piececount cb BLACK := by
  obtain ⟨wm, wk, bm, bk, hcode, hcw, hcb⟩ := material_counts cb hwf (List.range' 5 36)
  unfold piececount at hb hw ⊢
  rw [hcb] at hb ⊢
  rw [hcw] at hw ⊢
  obtain ⟨h1, h2, h3, h4⟩ := decode_counts wm wk bm bk (materialcode cb) hcode hw hb
  unfold nwmof nwkof nbmof nbkof
  rw [h1, h2, h3, h4]
  exact ⟨rfl, rfl⟩

theorem material_pos (cb : Board)
    (h : 1 ≤ nwmof cb + nwkof cb + (nbmof cb + nbkof cb)) :
    blackmaterial cb + whitematerial cb ≠ 0 := by
  unfold blackmaterial whitematerial
  omega

/-- C28 (counterexample): on `crowdboard` BLACK has 1 piece and WHITE 16, yet
the decoded totals are equal, the move-parity term is active, and
`evaluation(BLACK) - evaluation(WHITE)` is -8, not 4. -/
theorem turn_bonus_counterexample :
    wellformed crowdboard = true ∧
    piececount crowdboard BLACK = 1 ∧ piececount crowdboard WHITE = 16 ∧
    nbmof crowdboard + nbkof crowdboard = 1 ∧ nwmof crowdboard + nwkof crowdboard = 1 ∧
    evaluation crowdboard BLACK = some (-181) ∧ evaluation crowdboard WHITE = some (-173) ∧
    (-181 : Int) - (-173) ≠ 4 := by
  decide!

/-- C28 (amended): on a well-formed board with at least one piece, at most 12
pieces of each colour and different piece counts of the two colours,
`evaluation` returns for both sides to move and
`evaluation(BLACK) - evaluation(WHITE) = 4`: only the turn term differs. -/
theorem turn_bonus_only (cb : Board) (hwf : wellformed cb = true)
    (hone : 1 ≤ piececount cb BLACK + piececount cb WHITE)
    (hb : piececount cb BLACK ≤ 12) (hw : piececount cb WHITE ≤ 12)
    (hne : piececount cb BLACK ≠ piececount cb WHITE) :
    ∃ vb vw, evaluation cb BLACK = some vb ∧ evaluation cb WHITE = some vw ∧ vb - vw = 4 := by
  obtain ⟨h1, h2⟩ := decoded_totals cb hwf hb hw
  have hpos := material_pos cb (by omega)
  have hmv : ∀ color, evmove cb color = 0 := by
    intro color
    unfold evmove
    rw [if_neg (by omega)]
  rw [evaluation_terms, evaluation_terms, if_neg hpos, if_neg hpos]
  refine ⟨_, _, rfl, rfl, ?_⟩
  rw [hmv, hmv]
  have e1 : evturn BLACK = 2 := rfl
  have e2 : evturn WHITE = -2 := rfl
  rw [e1, e2]
  ring

/-- C29 (counterexample): `tenboard` has ten men and a tempo sum of -2; none of
the three bands holds for `nm = 10`, the multiplier is 0 and the score is the
sum of the other terms: the tempo sum is not scaled by any band. -/
theorem tempo_band_counterexample :
    wellformed tenboard = true ∧
    nbmof tenboard + nwmof tenboard = 10 ∧ tempoterm tenboard = -2 ∧
    ¬ (10 ≥ 16) ∧ ¬ (10 ≤ 15 ∧ 10 ≥ 12) ∧ ¬ (10 < 9) ∧ tempofactor 10 = 0 ∧
    evaluation tenboard BLACK = some (-250) ∧
    evmaterial tenboard + evturn BLACK + evposition tenboard + evsafe tenboard +
      evmove tenboard BLACK = -250 := by
  decide!

/-- C29 (amended): the three tempo statements of `evaluation` add
`tempofactor nm * tempo` to the score, where `nm` is the decoded number of men;
the multiplier is -2 (opening) for `nm >= 16`, -1 (midgame) for
`12 <= nm <= 15`, +2 (endgame) for `nm <= 8` and 0 for `nm = 9, 10, 11`, where
no band applies; no two bands hold for the same `nm`. -/
theorem tempo_bands (cb : Board) (color : Nat) :
    (evaluation cb color =
      if blackmaterial cb + whitematerial cb = 0 then none
      else some (evmaterial cb + evturn color + evposition cb +
        tempofactor (nbmof cb + nwmof cb) * tempoterm cb + evsafe cb + evmove cb color)) ∧
    (∀ nm, tempofactor nm =
      if 16 ≤ nm then -2 else if 12 ≤ nm then -1 else if 9 ≤ nm then 0 else 2) ∧
    (∀ nm : Nat, ¬ (nm ≥ 16 ∧ (nm ≤ 15 ∧ nm ≥ 12)) ∧ ¬ (nm ≥ 16 ∧ nm < 9) ∧
      ¬ ((nm ≤ 15 ∧ nm ≥ 12) ∧ nm < 9)) ∧
    (∀ nm : Nat, (¬ (nm ≥ 16) ∧ ¬ (nm ≤ 15 ∧ nm ≥ 12) ∧ ¬ (nm < 9)) ↔ (9 ≤ nm ∧ nm ≤ 11)) := by
  refine ⟨evaluation_terms cb color, ?_, ?_, ?_⟩
  · intro nm
    unfold tempofactor
    split_ifs <;> omega
  · intro nm
    omega
  · intro nm
    omega

/-- C30 (failing input): on `parityboard` (black man on 6, white man on 30) with
BLACK to move `evaluation` gives -7, and on its mirror image (white man on 39,
black man on 15) with WHITE to move it gives -5 instead of 7; with the sides to
move exchanged it gives -11 and -1.  The BLACK branch of the move-parity term
counts the stones of cells 5, 14, 23, 32 only, the WHITE branch those of all
sixteen cells of its system. -/
theorem evaluation_not_antisymmetric :
    wellformed parityboard = true ∧ wellformed (mirror parityboard) = true ∧
    piececount parityboard BLACK = 1 ∧ piececount parityboard WHITE = 1 ∧
    (∀ i < 46, rd (mirror parityboard) i = swapcolour (rd parityboard (45 - i))) ∧
    evaluation parityboard BLACK = some (-7) ∧
    evaluation (mirror parityboard) WHITE = some (-5) ∧
    evaluation parityboard WHITE = some (-11) ∧
    evaluation (mirror parityboard) BLACK = some (-1) ∧
    stones parityboard 5 false = 0 ∧ stones (mirror parityboard) 10 true = 1 ∧
    stones parityboard 5 true = 1 := by
  decide!

/-! ## Return value and board restoration of the search -/

/-- C22 (failing input): on `startboard` BLACK has seven legal moves and no
capture; with the cancel flag clear `checkers` executes the move 14 -> 19 and
returns -3, the value of the search, not 1; with the cancel flag set on entry it
returns 0 although BLACK has legal moves. -/
theorem checkers_returns_score :
    wellformed startboard = true ∧
    (generatecapturelist startboard BLACK).2 = [] ∧
    (generatemovelist startboard BLACK).length = 7 ∧
    [leg FREE (BLACK ||| MAN) 14, leg (BLACK ||| MAN) FREE 19] ∈
      generatemovelist startboard BLACK ∧
    (checkers 100 [] BLACK ⟨startboard, 0, [], []⟩).score = some (-3) ∧
    (checkers 100 [] BLACK ⟨startboard, 0, [], []⟩).board =
      some (domove startboard [leg FREE (BLACK ||| MAN) 14, leg (BLACK ||| MAN) FREE 19]) ∧
    (checkers 100 [] BLACK ⟨startboard, 1, [], []⟩).score = some 0 := by
  decide!

/-- C23 (failing input): `alphabeta(1, -10000, 10000, BLACK)` on `circleboard`
returns 383 and leaves cell 15 FREE: the black king that stood there at entry
is gone, because `undomove` replays the legs of the circular capture in forward
order. -/
theorem alphabeta_loses_king :
    wellformed circleboard = true ∧
    rd circleboard 15 = BLACK ||| KING ∧
    (alphabeta 100 1 (-10000) 10000 BLACK ⟨circleboard, 0, [], []⟩).score = some 383 ∧
    (alphabeta 100 1 (-10000) 10000 BLACK ⟨circleboard, 0, [], []⟩).board =
      some (wr circleboard 15 FREE) ∧
    wr circleboard 15 FREE ≠ circleboard := by
  decide!

/-- C24: with the cancel flag clear, `alphabeta(0, alpha, beta, colour)` returns
`evaluation(colour)` with the board untouched when `testcapture(colour)` is 0
(or fails with the division by zero of `evaluation`), and is the same
computation as `alphabeta(1, alpha, beta, colour)`, value and final state, when
`testcapture(colour)` is 1.  This holds on every board and for every fuel. -/
theorem depth0_rule (fuel : Nat) (alpha beta : Int) (color : Nat) (s : State)
    (hplay : s.play = 0) :
    (testcapture s.cboard color = 0 →
      alphabeta fuel 0 alpha beta color s =
        match evaluation s.cboard color with
        | some v => Outcome.ok (v,
            ((s.log Call.alphabeta).log Call.testcapture).log Call.evaluation)
        | none => Outcome.divzero) ∧
    (testcapture s.cboard color = 1 →
      alphabeta fuel 0 alpha beta color s = alphabeta fuel 1 alpha beta color s) := by
  have hp : ¬ ((s.log Call.alphabeta).play ≠ 0) := by
    simp [State.log, hplay]
  constructor
  · intro h0
    rw [alphabeta_eq]
    unfold abnode
    simp only []
    rw [if_neg hp]
    unfold prelude
    simp only [State.log] at h0 ⊢
    rw [h0]
    rfl
  · intro h1
    have hpre : prelude 0 color (s.log Call.alphabeta) =
        prelude 1 color (s.log Call.alphabeta) := by
      unfold prelude
      simp only [State.log] at h1 ⊢
      rw [h1]
      simp
    rw [alphabeta_eq fuel 0, alphabeta_eq fuel 1]
    unfold abnode
    simp only [hpre]

/-! ## Board restoration of the capture generator, direction of man chains -/

/-- C25: on a well-formed board, `generatecapturelist` leaves the board as it
found it, cell for cell, for both colours; the king helper, which removes the
jumped piece before it recurses and puts it back afterwards, leaves every board
it is called on as it found it, at every fuel. -/
theorem generatecapturelist_restores (cb : Board) (color : Nat) (hwf : wellformed cb = true)
    (hc : color = BLACK ∨ color = WHITE) :
    (generatecapturelist cb color).1 = cb ∧
    (∀ i, rd (generatecapturelist cb color).1 i = rd cb i) ∧
    ∀ (f : Nat) (cbg : Board) (org : move2) (i : Nat),
      (kingcapture (color ||| KING) (color ^^^ CHANGECOLOR) f cbg org i).1 = cbg := by
  have h := generatecapturelist_board cb hwf color hc
  refine ⟨h, fun i => by rw [h], fun f cbg org i => kingcapture_board _ _ f cbg org i⟩

/-- Rows along a jump from the playable cell `i` over the playable cell `a` to
the playable cell `l` in an upward direction: `a` lies one row further, `l` two
rows further. -/
theorem row_steps (i a l : Nat) (hi5 : 5 ≤ i) (hi9 : i % 9 ≠ 0) (ha9 : a % 9 ≠ 0)
    (hl40 : l ≤ 40) (hl9 : l % 9 ≠ 0)
    (hd : (a = i + 4 ∧ l = i + 8) ∨ (a = i + 5 ∧ l = i + 10)) :
    row.getD a 0 = row.getD i 0 + 1 ∧ row.getD l 0 = row.getD i 0 + 2 := by
  have key : ∀ i < 41, (i < 5 ∨ i % 9 = 0) ∨
      ((40 < i + 8 ∨ (i + 4) % 9 = 0 ∨ (i + 8) % 9 = 0 ∨
        (row.getD (i + 4) 0 = row.getD i 0 + 1 ∧ row.getD (i + 8) 0 = row.getD i 0 + 2)) ∧
       (40 < i + 10 ∨ (i + 5) % 9 = 0 ∨ (i + 10) % 9 = 0 ∨
        (row.getD (i + 5) 0 = row.getD i 0 + 1 ∧ row.getD (i + 10) 0 = row.getD i 0 + 2))) := by
    decide!
  have hlt : i < 41 := by omega
  rcases key i hlt with h | ⟨k8, k10⟩
  · omega
  · rcases hd with ⟨h1, h2⟩ | ⟨h1, h2⟩ <;> subst h1 <;> subst h2
    · rcases k8 with h | h | h | h
      · omega
      · omega
      · omega
      · exact h
    · rcases k10 with h | h | h | h
      · omega
      · omega
      · omega
      · exact h

theorem blackman_rows (cb : Board) (hwf : wellformed cb = true) (m0 : Nat) :
    ∀ (f : Nat) (m1 : Nat) (caps : List Nat) (i : Nat),
      5 ≤ i → i ≤ 40 → i % 9 ≠ 0 →
      (caps.map (fun a => row.getD a 0)).Pairwise (fun x y => x < y) →
      (∀ a ∈ caps, a ≤ 40 ∧ row.getD a 0 < row.getD i 0) →
      ∀ mv ∈ blackmancapture f cb (m0 :: m1 :: caplegs cb caps) i,
        ∃ m2 caps2, mv = m0 :: m2 :: caplegs cb caps2 ∧ (∀ a ∈ caps2, a ≤ 40) ∧
          (caps2.map (fun a => row.getD a 0)).Pairwise (fun x y => x < y) := by
  intro f
  induction f with
  | zero =>
    intro m1 caps i h5 h40 h9 hsorted hcaps mv hmv
    simp only [blackmancapture, List.mem_singleton] at hmv
    exact ⟨m1, caps, hmv, fun a ha => (hcaps a ha).1, hsorted⟩
  | succ f ih =>
    intro m1 caps i h5 h40 h9 hsorted hcaps mv hmv
    simp only [blackmancapture] at hmv
    have branch : ∀ a l p, ((a = i + 4 ∧ l = i + 8) ∨ (a = i + 5 ∧ l = i + 10)) →
        canjump cb WHITE a l = true →
        mv ∈ blackmancapture f cb (extend (m0 :: m1 :: caplegs cb caps) p
          (leg FREE (rd cb a) a)) l →
        ∃ m2 caps2, mv = m0 :: m2 :: caplegs cb caps2 ∧ (∀ a ∈ caps2, a ≤ 40) ∧
          (caps2.map (fun a => row.getD a 0)).Pairwise (fun x y => x < y) := by
      intro a l p hal hj hmem
      obtain ⟨_, ha2, _, ha4, hl1, hl2, hl3⟩ := canjump_facts cb hwf _ a l hj
      have hl9 := (free_cell cb hwf l hl1).2.2
      have ha9 : a % 9 ≠ 0 := by
        rcases wf_vals cb hwf a with h0 | ⟨_, _, _, h⟩
        · exact absurd h0 ha2
        · exact h
      obtain ⟨ra, rl⟩ := row_steps i a l h5 h9 ha9 hl3 hl9 hal
      rw [extend_cons, caplegs_snoc] at hmem
      refine ih p (caps ++ [a]) l hl2 hl3 hl9 ?_ ?_ mv hmem
      · rw [List.map_append, List.pairwise_append]
        refine ⟨hsorted, by simp, ?_⟩
        intro x hx y hy
        simp only [List.map_cons, List.map_nil, List.mem_singleton] at hy
        obtain ⟨c, hc, hcx⟩ := List.mem_map.1 hx
        have := (hcaps c hc).2
        rw [hcx] at this
        rw [hy, ra]
        omega
      · intro x hx
        rcases List.mem_append.1 hx with hx | hx
        · have := hcaps x hx
          exact ⟨this.1, by rw [rl]; omega⟩
        · rw [List.mem_singleton] at hx
          subst hx
          exact ⟨ha4, by rw [rl, ra]; omega⟩
    cases h1 : canjump cb WHITE (i + 4) (i + 8) <;>
      cases h2 : canjump cb WHITE (i + 5) (i + 10) <;>
      simp only [h1, h2, Bool.false_eq_true, if_false, if_true, Bool.or_self, Bool.or_true,
        Bool.or_false, List.append_nil, List.nil_append, List.mem_singleton,
        List.mem_append] at hmv
    · exact ⟨m1, caps, hmv, fun a ha => (hcaps a ha).1, hsorted⟩
    · exact branch _ _ _ (Or.inr ⟨rfl, rfl⟩) h2 hmv
    · exact branch _ _ _ (Or.inl ⟨rfl, rfl⟩) h1 hmv
    · rcases hmv with h | h
      · exact branch _ _ _ (Or.inl ⟨rfl, rfl⟩) h1 h
      · exact branch _ _ _ (Or.inr ⟨rfl, rfl⟩) h2 h

theorem whiteman_rows (cb : Board) (hwf : wellformed cb = true) (m0 : Nat) :
    ∀ (f : Nat) (m1 : Nat) (caps : List Nat) (i : Nat),
      5 ≤ i → i ≤ 40 → i % 9 ≠ 0 →
      (caps.map (fun a => row.getD a 0)).Pairwise (fun x y => x > y) →
      (∀ a ∈ caps, a ≤ 40 ∧ row.getD a 0 > row.getD i 0) →
      ∀ mv ∈ whitemancapture f cb (m0 :: m1 :: caplegs cb caps) i,
        ∃ m2 caps2, mv = m0 :: m2 :: caplegs cb caps2 ∧ (∀ a ∈ caps2, a ≤ 40) ∧
          (caps2.map (fun a => row.getD a 0)).Pairwise (fun x y => x > y) := by
  intro f
  induction f with
  | zero =>
    intro m1 caps i h5 h40 h9 hsorted hcaps mv hmv
    simp only [whitemancapture, List.mem_singleton] at hmv
    exact ⟨m1, caps, hmv, fun a ha => (hcaps a ha).1, hsorted⟩
  | succ f ih =>
    intro m1 caps i h5 h40 h9 hsorted hcaps mv hmv
    simp only [whitemancapture] at hmv
    have branch : ∀ a l p, ((a = i - 4 ∧ l = i - 8) ∨ (a = i - 5 ∧ l = i - 10)) →
        canjump cb BLACK a l = true →
        mv ∈ whitemancapture f cb (extend (m0 :: m1 :: caplegs cb caps) p
          (leg FREE (rd cb a) a)) l →
        ∃ m2 caps2, mv = m0 :: m2 :: caplegs cb caps2 ∧ (∀ a ∈ caps2, a ≤ 40) ∧
          (caps2.map (fun a => row.getD a 0)).Pairwise (fun x y => x > y) := by
      intro a l p hal hj hmem
      obtain ⟨_, ha2, ha3, ha4, hl1, hl2, hl3⟩ := canjump_facts cb hwf _ a l hj
      have hl9 := (free_cell cb hwf l hl1).2.2
      have ha9 : a % 9 ≠ 0 := by
        rcases wf_vals cb hwf a with h0 | ⟨_, _, _, h⟩
        · exact absurd h0 ha2
        · exact h
      obtain ⟨ra, rl⟩ := row_steps l a i hl2 hl9 ha9 h40 h9 (by omega)
      rw [extend_cons, caplegs_snoc] at hmem
      refine ih p (caps ++ [a]) l hl2 hl3 hl9 ?_ ?_ mv hmem
      · rw [List.map_append, List.pairwise_append]
        refine ⟨hsorted, by simp, ?_⟩
        intro x hx y hy
        simp only [List.map_cons, List.map_nil, List.mem_singleton] at hy
        obtain ⟨c, hc, hcx⟩ := List.mem_map.1 hx
        have := (hcaps c hc).2
        rw [hcx] at this
        rw [hy]
        omega
      · intro x hx
        rcases List.mem_append.1 hx with hx | hx
        · have := hcaps x hx
          exact ⟨this.1, by omega⟩
        · rw [List.mem_singleton] at hx
          subst hx
          exact ⟨ha4, by omega⟩
    cases h1 : canjump cb BLACK (i - 4) (i - 8) <;>
      cases h2 : canjump cb BLACK (i - 5) (i - 10) <;>
      simp only [h1, h2, Bool.false_eq_true, if_false, if_true, Bool.or_self, Bool.or_true,
        Bool.or_false, List.append_nil, List.nil_append, List.mem_singleton,
        List.mem_append] at hmv
    · exact ⟨m1, caps, hmv, fun a ha => (hcaps a ha).1, hsorted⟩
    · exact branch _ _ _ (Or.inr ⟨rfl, rfl⟩) h2 hmv
    · exact branch _ _ _ (Or.inl ⟨rfl, rfl⟩) h1 hmv
    · rcases hmv with h | h
      · exact branch _ _ _ (Or.inl ⟨rfl, rfl⟩) h1 h
      · exact branch _ _ _ (Or.inr ⟨rfl, rfl⟩) h2 h

theorem caplegs_rows (cb : Board) (caps : List Nat) (h : ∀ a ∈ caps, a ≤ 40) :
    (caplegs cb caps).map (fun x => row.getD (x % 256) 0) =
      caps.map (fun a => row.getD a 0) := by
  unfold caplegs
  rw [List.map_map]
  apply List.map_congr_left
  intro a ha
  have := h a ha
  simp only [Function.comp]
  rw [leg_square _ _ _ (by omega)]

theorem blackstart_rows (cb : Board) (hwf : wellformed cb = true) (i a l p : Nat)
    (hi5 : 5 ≤ i) (hi9 : i % 9 ≠ 0)
    (hd : (a = i + 4 ∧ l = i + 8) ∨ (a = i + 5 ∧ l = i + 10)) :
    ∀ mv ∈ manstart blackmancapture WHITE (BLACK ||| MAN) p cb i a l,
      ((mv.drop 2).map (fun x => row.getD (x % 256) 0)).Pairwise (fun x y => x < y) := by
  intro mv hmv
  unfold manstart at hmv
  by_cases hj : canjump cb WHITE a l = true
  · rw [if_pos hj] at hmv
    obtain ⟨_, ha2, _, ha4, hl1, hl2, hl3⟩ := canjump_facts cb hwf _ a l hj
    have hl9 := (free_cell cb hwf l hl1).2.2
    have ha9 : a % 9 ≠ 0 := by
      rcases wf_vals cb hwf a with h0 | ⟨_, _, _, h⟩
      · exact absurd h0 ha2
      · exact h
    obtain ⟨ra, rl⟩ := row_steps i a l hi5 hi9 ha9 hl3 hl9 hd
    have hcl : [leg FREE (rd cb a) a] = caplegs cb [a] := rfl
    rw [hcl] at hmv
    obtain ⟨m2, caps2, he, h40, hs⟩ := blackman_rows cb hwf _ CHAINFUEL _ [a] l hl2 hl3 hl9
      (by simp) (by
        intro x hx
        rw [List.mem_singleton] at hx
        subst hx
        exact ⟨ha4, by omega⟩) mv hmv
    rw [he, List.drop_succ_cons, List.drop_succ_cons, List.drop_zero, caplegs_rows cb caps2 h40]
    exact hs
  · rw [if_neg hj] at hmv
    exact absurd hmv (List.not_mem_nil _)

theorem whitestart_rows (cb : Board) (hwf : wellformed cb = true) (i a l p : Nat)
    (hi40 : i ≤ 40) (hi9 : i % 9 ≠ 0)
    (hd : (a = i - 4 ∧ l = i - 8) ∨ (a = i - 5 ∧ l = i - 10)) :
    ∀ mv ∈ manstart whitemancapture BLACK (WHITE ||| MAN) p cb i a l,
      ((mv.drop 2).map (fun x => row.getD (x % 256) 0)).Pairwise (fun x y => x > y) := by
  intro mv hmv
  unfold manstart at hmv
  by_cases hj : canjump cb BLACK a l = true
  · rw [if_pos hj] at hmv
    obtain ⟨_, ha2, _, ha4, hl1, hl2, hl3⟩ := canjump_facts cb hwf _ a l hj
    have hl9 := (free_cell cb hwf l hl1).2.2
    have ha9 : a % 9 ≠ 0 := by
      rcases wf_vals cb hwf a with h0 | ⟨_, _, _, h⟩
      · exact absurd h0 ha2
      · exact h
    obtain ⟨ra, rl⟩ := row_steps l a i hl2 hl9 ha9 hi40 hi9 (by omega)
    have hcl : [leg FREE (rd cb a) a] = caplegs cb [a] := rfl
    rw [hcl] at hmv
    obtain ⟨m2, caps2, he, h40, hs⟩ := whiteman_rows cb hwf _ CHAINFUEL _ [a] l hl2 hl3 hl9
      (by simp) (by
        intro x hx
        rw [List.mem_singleton] at hx
        subst hx
        exact ⟨ha4, by omega⟩) mv hmv
    rw [he, List.drop_succ_cons, List.drop_succ_cons, List.drop_zero, caplegs_rows cb caps2 h40]
    exact hs
  · rw [if_neg hj] at hmv
    exact absurd hmv (List.not_mem_nil _)

/-- C27: on a well-formed board, in every capture move generated for a man the
rows of the captured cells (legs 2, 3, ... in order, rows read from the table
`row` of the source) are strictly increasing for a BLACK man and strictly
decreasing for a WHITE man: every hop goes in the forward direction of the man,
also after it has landed on the farthest row. -/
theorem man_chain_forward (cb : Board) (color : Nat) (hwf : wellformed cb = true)
    (hc : color = BLACK ∨ color = WHITE) (mv : move2)
    (hmv : mv ∈ (generatecapturelist cb color).2)
    (hman : (mv.getD 0 0 >>> 8) % 256 = color ||| MAN) :
    (color = BLACK →
      ((mv.drop 2).map (fun x => row.getD (x % 256) 0)).Pairwise (fun x y => x < y)) ∧
    (color = WHITE →
      ((mv.drop 2).map (fun x => row.getD (x % 256) 0)).Pairwise (fun x y => x > y)) := by
  have hw : ¬ (WHITE = BLACK) := by decide
  have hking : ∀ i l caps, mv = leg FREE (rd cb i) i :: leg (color ||| KING) FREE l ::
      caplegs cb caps → rd cb i = color ||| KING → i ≤ 40 → False := by
    intro i l caps he hk hi
    rw [he, List.getD_cons_zero, hk, leg_before _ _ _ (by
      rcases hc with hc | hc <;> subst hc <;> decide) (by omega)] at hman
    rcases hc with hc | hc <;> subst hc <;> exact absurd hman (by decide)
  rcases hc with hc | hc <;> subst hc
  · refine ⟨fun _ => ?_, fun h => absurd h.symm hw⟩
    rw [generatecapturelist_black cb hwf] at hmv
    obtain ⟨i, hi, hmem⟩ := List.mem_flatMap.1 hmv
    rw [List.mem_range'_1] at hi
    unfold blackcaps at hmem
    by_cases hb : rd cb i &&& BLACK ≠ 0
    · rw [if_pos hb] at hmem
      by_cases hm : rd cb i &&& MAN ≠ 0
      · rw [if_pos hm] at hmem
        have hk := wf_black_man cb hwf i hb hm
        have hi9 : i % 9 ≠ 0 := by
          rcases wf_vals cb hwf i with h0 | ⟨_, _, _, h9⟩
          · rw [hk] at h0; exact absurd h0 (by decide)
          · exact h9
        rcases List.mem_append.1 hmem with h | h
        · exact blackstart_rows cb hwf i _ _ _ hi.1 hi9 (Or.inl ⟨rfl, rfl⟩) mv h
        · exact blackstart_rows cb hwf i _ _ _ hi.1 hi9 (Or.inr ⟨rfl, rfl⟩) mv h
      · rw [if_neg hm] at hmem
        have hk := wf_black_king cb hwf i hb hm
        exfalso
        simp only [List.mem_append] at hmem
        rcases hmem with ((h | h) | h) | h
        · obtain ⟨l, caps, he, _⟩ := kingstart_shape BLACK (Or.inl rfl) cb hwf i _ _ hk
            (by omega) mv h
          exact hking i l caps he hk (by omega)
        · obtain ⟨l, caps, he, _⟩ := kingstart_shape BLACK (Or.inl rfl) cb hwf i _ _ hk
            (by omega) mv h
          exact hking i l caps he hk (by omega)
        · obtain ⟨l, caps, he, _⟩ := kingstart_shape BLACK (Or.inl rfl) cb hwf i _ _ hk
            (by omega) mv h
          exact hking i l caps he hk (by omega)
        · obtain ⟨l, caps, he, _⟩ := kingstart_shape BLACK (Or.inl rfl) cb hwf i _ _ hk
            (by omega) mv h
          exact hking i l caps he hk (by omega)
    · rw [if_neg hb] at hmem
      exact absurd hmem (List.not_mem_nil _)
  · refine ⟨fun h => absurd h hw, fun _ => ?_⟩
    rw [generatecapturelist_white cb hwf] at hmv
    obtain ⟨i, hi, hmem⟩ := List.mem_flatMap.1 hmv
    rw [List.mem_range'_1] at hi
    unfold whitecaps at hmem
    by_cases hb : rd cb i &&& WHITE ≠ 0
    · rw [if_pos hb] at hmem
      by_cases hm : rd cb i &&& MAN ≠ 0
      · rw [if_pos hm] at hmem
        have hk := wf_white_man cb hwf i hb hm
        have hi9 : i % 9 ≠ 0 := by
          rcases wf_vals cb hwf i with h0 | ⟨_, _, _, h9⟩
          · rw [hk] at h0; exact absurd h0 (by decide)
          · exact h9
        rcases List.mem_append.1 hmem with h | h
        · exact whitestart_rows cb hwf i _ _ _ (by omega) hi9 (Or.inl ⟨rfl, rfl⟩) mv h
        · exact whitestart_rows cb hwf i _ _ _ (by omega) hi9 (Or.inr ⟨rfl, rfl⟩) mv h
      · rw [if_neg hm] at hmem
        have hk := wf_white_king cb hwf i hb hm
        exfalso
        simp only [List.mem_append] at hmem
        rcases hmem with ((h | h) | h) | h
        · obtain ⟨l, caps, he, _⟩ := kingstart_shape WHITE (Or.inr rfl) cb hwf i _ _ hk
            (by omega) mv h
          exact hking i l caps he hk (by omega)
        · obtain ⟨l, caps, he, _⟩ := kingstart_shape WHITE (Or.inr rfl) cb hwf i _ _ hk
            (by omega) mv h
          exact hking i l caps he hk (by omega)
        · obtain ⟨l, caps, he, _⟩ := kingstart_shape WHITE (Or.inr rfl) cb hwf i _ _ hk
            (by omega) mv h
          exact hking i l caps he hk (by omega)
        · obtain ⟨l, caps, he, _⟩ := kingstart_shape WHITE (Or.inr rfl) cb hwf i _ _ hk
            (by omega) mv h
          exact hking i l caps he hk (by omega)
    · rw [if_neg hb] at hmem
      exact absurd hmem (List.not_mem_nil _)

/-! ## Board indices stay inside `cboard[46]` -/

/-- The jump tests of the index lists are the jump tests of the generators. -/
theorem jumpok_eq (cb : Board) (opp i : Nat) :
    jumpok cb opp i 4 = canjump cb opp (i + 4) (i + 8) ∧
    jumpok cb opp i 5 = canjump cb opp (i + 5) (i + 10) ∧
    jumpok cb opp i (-4) = canjump cb opp (i - 4) (i - 8) ∧
    jumpok cb opp i (-5) = canjump cb opp (i - 5) (i - 10) := by
  unfold jumpok
  have e1 : ((i : Int) + 4).toNat = i + 4 := by omega
  have e2 : ((i : Int) + 2 * 4).toNat = i + 8 := by omega
  have e3 : ((i : Int) + 5).toNat = i + 5 := by omega
  have e4 : ((i : Int) + 2 * 5).toNat = i + 10 := by omega
  have e5 : ((i : Int) + -4).toNat = i - 4 := by omega
  have e6 : ((i : Int) + 2 * -4).toNat = i - 8 := by omega
  have e7 : ((i : Int) + -5).toNat = i - 5 := by omega
  have e8 : ((i : Int) + 2 * -5).toNat = i - 10 := by omega
  rw [e1, e2, e3, e4, e5, e6, e7, e8]
  exact ⟨rfl, rfl, rfl, rfl⟩

theorem piece_cell (cb : Board) (hwf : wellformed cb = true) (a : Nat) (h : rd cb a ≠ 0) :
    5 ≤ a ∧ a ≤ 40 := by
  rcases wf_vals cb hwf a with h0 | ⟨_, h5, h40, _⟩
  · exact absurd h0 h
  · exact ⟨h5, h40⟩

theorem flag_ne_zero (v opp : Nat) (h : v &&& opp ≠ 0) : v ≠ 0 := by
  intro h0
  rw [h0] at h
  exact h (Nat.zero_and _)

theorem jumpreads_range (cb : Board) (hwf : wellformed cb = true) (opp i : Nat) (d : Int)
    (h5 : 5 ≤ i) (h40 : i ≤ 40) (hd : d = 4 ∨ d = 5 ∨ d = -4 ∨ d = -5) :
    ∀ x ∈ jumpreads cb opp i d, 0 ≤ x ∧ x ≤ 45 := by
  intro x hx
  unfold jumpreads at hx
  split_ifs at hx with h
  · have ha := piece_cell cb hwf _ (flag_ne_zero _ _ h)
    simp only [List.mem_cons, List.mem_singleton, List.not_mem_nil, or_false] at hx
    omega
  · simp only [List.mem_singleton] at hx
    omega

theorem jumpok_facts (cb : Board) (hwf : wellformed cb = true) (opp i : Nat) (d : Int)
    (h : jumpok cb opp i d = true) :
    rd cb ((i : Int) + d).toNat &&& opp ≠ 0 ∧ rd cb ((i : Int) + d).toNat ≠ 0 ∧
    5 ≤ ((i : Int) + d).toNat ∧ ((i : Int) + d).toNat ≤ 40 ∧
    5 ≤ ((i : Int) + 2 * d).toNat ∧ ((i : Int) + 2 * d).toNat ≤ 40 := by
  unfold jumpok at h
  obtain ⟨h1, h2, h3, h4, _, h6, h7⟩ := canjump_facts cb hwf _ _ _ h
  exact ⟨h1, h2, h3, h4, h6, h7⟩

theorem blackman_access_range (cb : Board) (hwf : wellformed cb = true) :
    ∀ (f i : Nat), 5 ≤ i → i ≤ 40 → 46 ≤ i + 8 * f →
      ∀ x ∈ manaccess WHITE 4 5 f cb i, 0 ≤ x ∧ x ≤ 45 := by
  intro f
  induction f with
  | zero => intro i _ h40 hf; omega
  | succ f ih =>
    intro i h5 h40 hf x hx
    simp only [manaccess, List.mem_append] at hx
    have branch : ∀ d : Int, (d = 4 ∨ d = 5) →
        x ∈ (if jumpok cb WHITE i d = true then
          [(i : Int) + d] ++ manaccess WHITE 4 5 f cb ((i : Int) + 2 * d).toNat else []) →
        0 ≤ x ∧ x ≤ 45 := by
      intro d hd hmem
      by_cases hj : jumpok cb WHITE i d = true
      · rw [if_pos hj] at hmem
        obtain ⟨_, _, _, _, hl5, hl40⟩ := jumpok_facts cb hwf _ _ _ hj
        rcases List.mem_append.1 hmem with h | h
        · rw [List.mem_singleton] at h
          omega
        · exact ih _ hl5 hl40 (by omega) x h
      · rw [if_neg hj] at hmem
        exact absurd hmem (List.not_mem_nil _)
    rcases hx with (h | h) | (h | h)
    · exact jumpreads_range cb hwf _ i 4 h5 h40 (Or.inl rfl) x h
    · exact branch 4 (Or.inl rfl) h
    · exact jumpreads_range cb hwf _ i 5 h5 h40 (Or.inr (Or.inl rfl)) x h
    · exact branch 5 (Or.inr rfl) h

theorem whiteman_access_range (cb : Board) (hwf : wellformed cb = true) :
    ∀ (f i : Nat), 5 ≤ i → i ≤ 40 → i ≤ 8 * f →
      ∀ x ∈ manaccess BLACK (-4) (-5) f cb i, 0 ≤ x ∧ x ≤ 45 := by
  intro f
  induction f with
  | zero => intro i h5 _ hf; omega
  | succ f ih =>
    intro i h5 h40 hf x hx
    simp only [manaccess, List.mem_append] at hx
    have branch : ∀ d : Int, (d = -4 ∨ d = -5) →
        x ∈ (if jumpok cb BLACK i d = true then
          [(i : Int) + d] ++ manaccess BLACK (-4) (-5) f cb ((i : Int) + 2 * d).toNat else []) →
        0 ≤ x ∧ x ≤ 45 := by
      intro d hd hmem
      by_cases hj : jumpok cb BLACK i d = true
      · rw [if_pos hj] at hmem
        obtain ⟨_, _, _, _, hl5, hl40⟩ := jumpok_facts cb hwf _ _ _ hj
        rcases List.mem_append.1 hmem with h | h
        · rw [List.mem_singleton] at h
          omega
        · exact ih _ hl5 hl40 (by omega) x h
      · rw [if_neg hj] at hmem
        exact absurd hmem (List.not_mem_nil _)
    rcases hx with (h | h) | (h | h)
    · exact jumpreads_range cb hwf _ i (-4) h5 h40 (Or.inr (Or.inr (Or.inl rfl))) x h
    · exact branch (-4) (Or.inl rfl) h
    · exact jumpreads_range cb hwf _ i (-5) h5 h40 (Or.inr (Or.inr (Or.inr rfl))) x h
    · exact branch (-5) (Or.inr rfl) h

theorem king_access_range (opp : Nat) (ho : opp = 1 ∨ opp = 2) :
    ∀ (f : Nat) (cb : Board) (i : Nat), wellformed cb = true → 5 ≤ i → i ≤ 40 →
      flagcount opp cb + 1 ≤ f → ∀ x ∈ kingaccess opp f cb i, 0 ≤ x ∧ x ≤ 45 := by
  intro f
  induction f with
  | zero => intro cb i _ _ _ hf; omega
  | succ f ih =>
    intro cb i hwf h5 h40 hf x hx
    simp only [kingaccess, List.mem_append] at hx
    have dir : ∀ d : Int, (d = 4 ∨ d = 5 ∨ d = -4 ∨ d = -5) →
        x ∈ kingdiraccess (kingaccess opp f) cb opp i d → 0 ≤ x ∧ x ≤ 45 := by
      intro d hd hmem
      unfold kingdiraccess at hmem
      rcases List.mem_append.1 hmem with h | h
      · exact jumpreads_range cb hwf _ i d h5 h40 hd x h
      · by_cases hj : jumpok cb opp i d = true
        · rw [if_pos hj] at h
          obtain ⟨ha1, ha2, _, _, hl5, hl40⟩ := jumpok_facts cb hwf _ _ _ hj
          have hcnt := flagcount_wr_free opp ho cb _ ha1
          simp only [List.mem_append, List.mem_cons, List.mem_singleton, List.not_mem_nil,
            or_false] at h
          rcases h with (h | h) | h
          · omega
          · exact ih _ _ (wf_wr_free cb hwf _ ha2) hl5 hl40 (by omega) x h
          · omega
        · rw [if_neg hj] at h
          exact absurd h (List.not_mem_nil _)
    rcases hx with ((h | h) | h) | h
    · exact dir (-4) (by omega) h
    · exact dir (-5) (by omega) h
    · exact dir 4 (by omega) h
    · exact dir 5 (by omega) h

/-- A well-formed board has a sentinel on cell 0, so fewer than 46 cells carry
a colour flag. -/
theorem flagcount_wf (opp : Nat) (cb : Board) (hwf : wellformed cb = true) :
    flagcount opp cb + 1 ≤ 46 := by
  have hlen := wf_length cb hwf
  have h0 := (wf_cell cb hwf 0).1 rfl
  cases cb with
  | nil => simp at hlen
  | cons v vs =>
    have hv : v = 0 := h0
    subst hv
    unfold flagcount
    have hv0 : ((0 : Nat) &&& opp != 0) = false := by
      rw [Nat.zero_and]; rfl
    rw [List.countP_cons_of_neg _ _ (by rw [hv0]; exact Bool.false_ne_true)]
    have := List.countP_le_length (fun v => v &&& opp != 0) (l := vs)
    simp only [List.length_cons] at hlen
    omega

theorem kingfirst_access_range (cb : Board) (hwf : wellformed cb = true) (opp : Nat)
    (ho : opp = 1 ∨ opp = 2) (i : Nat) (d : Int) (h5 : 5 ≤ i) (h40 : i ≤ 40)
    (hi : rd cb i ≠ 0) (hio : rd cb i &&& opp = 0)
    (hd : d = 4 ∨ d = 5 ∨ d = -4 ∨ d = -5) :
    ∀ x ∈ kingfirstaccess cb opp i d, 0 ≤ x ∧ x ≤ 45 := by
  intro x hx
  unfold kingfirstaccess at hx
  rcases List.mem_append.1 hx with h | h
  · exact jumpreads_range cb hwf _ i d h5 h40 hd x h
  · by_cases hj : jumpok cb opp i d = true
    · rw [if_pos hj] at h
      obtain ⟨ha1, ha2, _, _, hl5, hl40⟩ := jumpok_facts cb hwf _ _ _ hj
      have hai : ((i : Int) + d).toNat ≠ i := by
        intro e
        rw [e] at ha1
        exact ha1 hio
      have hwf2 : wellformed (wr (wr cb ((i : Int) + d).toNat FREE) i FREE) = true := by
        apply wf_wr_free _ (wf_wr_free cb hwf _ ha2)
        rw [rd_wr]
        simp only [hai, false_and, if_false]
        exact hi
      simp only [List.mem_append, List.mem_cons, List.mem_singleton, List.not_mem_nil,
        or_false] at h
      rcases h with (h | h) | h
      · omega
      · exact king_access_range opp ho CHAINFUEL _ _ hwf2 hl5 hl40
          (flagcount_wf opp _ hwf2) x h
      · omega
    · rw [if_neg hj] at h
      exact absurd h (List.not_mem_nil _)

theorem blackfirst_access_range (cb : Board) (hwf : wellformed cb = true) (i : Nat) (d : Int)
    (h5 : 5 ≤ i) (h40 : i ≤ 40) (hd : d = 4 ∨ d = 5) :
    ∀ x ∈ manfirstaccess cb WHITE 4 5 i d, 0 ≤ x ∧ x ≤ 45 := by
  intro x hx
  unfold manfirstaccess at hx
  rcases List.mem_append.1 hx with h | h
  · exact jumpreads_range cb hwf _ i d h5 h40 (by omega) x h
  · by_cases hj : jumpok cb WHITE i d = true
    · rw [if_pos hj] at h
      obtain ⟨_, _, _, _, hl5, hl40⟩ := jumpok_facts cb hwf _ _ _ hj
      rcases List.mem_append.1 h with h | h
      · rw [List.mem_singleton] at h
        omega
      · exact blackman_access_range cb hwf CHAINFUEL _ hl5 hl40 (by unfold CHAINFUEL; omega) x h
    · rw [if_neg hj] at h
      exact absurd h (List.not_mem_nil _)

theorem whitefirst_access_range (cb : Board) (hwf : wellformed cb = true) (i : Nat) (d : Int)
    (h5 : 5 ≤ i) (h40 : i ≤ 40) (hd : d = -4 ∨ d = -5) :
    ∀ x ∈ manfirstaccess cb BLACK (-4) (-5) i d, 0 ≤ x ∧ x ≤ 45 := by
  intro x hx
  unfold manfirstaccess at hx
  rcases List.mem_append.1 hx with h | h
  · exact jumpreads_range cb hwf _ i d h5 h40 (by omega) x h
  · by_cases hj : jumpok cb BLACK i d = true
    · rw [if_pos hj] at h
      obtain ⟨_, _, _, _, hl5, hl40⟩ := jumpok_facts cb hwf _ _ _ hj
      rcases List.mem_append.1 h with h | h
      · rw [List.mem_singleton] at h
        omega
      · exact whiteman_access_range cb hwf CHAINFUEL _ hl5 hl40 (by unfold CHAINFUEL; omega) x h
    · rw [if_neg hj] at h
      exact absurd h (List.not_mem_nil _)

theorem testreads_range (cb : Board) (hwf : wellformed cb = true) (opp i : Nat)
    (h5 : 5 ≤ i) (h40 : i ≤ 40) :
    ∀ ds : List Int, (∀ d ∈ ds, d = 4 ∨ d = 5 ∨ d = -4 ∨ d = -5) →
      ∀ x ∈ testreads cb opp i ds, 0 ≤ x ∧ x ≤ 45 := by
  intro ds
  induction ds with
  | nil => intro _ x hx; exact absurd hx (List.not_mem_nil _)
  | cons d ds ih =>
    intro hds x hx
    simp only [testreads] at hx
    rcases List.mem_append.1 hx with h | h
    · exact jumpreads_range cb hwf _ i d h5 h40 (hds d (List.mem_cons_self _ _)) x h
    · split_ifs at h
      · exact absurd h (List.not_mem_nil _)
      · exact ih (fun e he => hds e (List.mem_cons_of_mem _ he)) x h

theorem testcell_range (cb : Board) (hwf : wellformed cb = true) (me opp : Nat)
    (mandirs : List Int) (hm : ∀ d ∈ mandirs, d = 4 ∨ d = 5 ∨ d = -4 ∨ d = -5) (i : Nat)
    (h5 : 5 ≤ i) (h40 : i ≤ 40) :
    ∀ x ∈ testcellreads cb me opp mandirs i, 0 ≤ x ∧ x ≤ 45 := by
  intro x hx
  unfold testcellreads at hx
  rcases List.mem_append.1 hx with h | h
  · rw [List.mem_singleton] at h
    omega
  · split_ifs at h
    · rcases List.mem_append.1 h with h | h
      · rw [List.mem_singleton] at h
        omega
      · exact testreads_range cb hwf opp i h5 h40 _ hm x h
    · rcases List.mem_append.1 h with h | h
      · rw [List.mem_singleton] at h
        omega
      · exact testreads_range cb hwf opp i h5 h40 _ (by
          intro d hd
          simp only [List.mem_cons, List.mem_singleton, List.not_mem_nil, or_false] at hd
          omega) x h
    · exact absurd h (List.not_mem_nil _)

theorem stopfold_mem (g : Nat → List Int) (t : Nat → Bool) (x : Int) :
    ∀ (cells : List Nat) (st : List Int × Bool),
      x ∈ (cells.foldl (fun (st : List Int × Bool) i =>
        if st.2 then st else (st.1 ++ g i, t i)) st).1 →
      x ∈ st.1 ∨ ∃ i ∈ cells, x ∈ g i := by
  intro cells
  induction cells with
  | nil => intro st h; exact Or.inl h
  | cons c cs ih =>
    intro st h
    rw [List.foldl_cons] at h
    rcases ih _ h with h1 | ⟨i, hi, hx⟩
    · split_ifs at h1
      · exact Or.inl h1
      · rcases List.mem_append.1 h1 with h2 | h2
        · exact Or.inl h2
        · exact Or.inr ⟨c, List.mem_cons_self _ _, h2⟩
    · exact Or.inr ⟨i, List.mem_cons_of_mem _ hi, hx⟩

theorem mem_ite_nil (c : Prop) [Decidable c] (l : List Int) (x : Int)
    (h : x ∈ (if c then l else [])) : x ∈ l := by
  split_ifs at h
  · exact h
  · exact absurd h (List.not_mem_nil _)

theorem movecell_range (cb : Board) (me : Nat) (mandirs : List Int)
    (hm : ∀ d ∈ mandirs, d = 4 ∨ d = 5 ∨ d = -4 ∨ d = -5) (i : Nat)
    (h5 : 5 ≤ i) (h40 : i ≤ 40) :
    ∀ x ∈ movecellreads cb me mandirs i, 0 ≤ x ∧ x ≤ 45 := by
  intro x hx
  unfold movecellreads at hx
  have one : ∀ ds : List Int, (∀ d ∈ ds, d = 4 ∨ d = 5 ∨ d = -4 ∨ d = -5) →
      x ∈ ds.map (fun d => (i : Int) + d) → 0 ≤ x ∧ x ≤ 45 := by
    intro ds hds h
    obtain ⟨d, hd, he⟩ := List.mem_map.1 h
    have := hds d hd
    omega
  have four : ∀ d ∈ ([4, 5, -4, -5] : List Int), d = 4 ∨ d = 5 ∨ d = -4 ∨ d = -5 := by
    intro d hd
    simp only [List.mem_cons, List.mem_singleton, List.not_mem_nil, or_false] at hd
    omega
  rcases List.mem_append.1 hx with h | h
  · rw [List.mem_singleton] at h
    omega
  · have h2 := mem_ite_nil _ _ _ h
    simp only [List.mem_append, List.mem_singleton] at h2
    rcases h2 with ((h3 | h3) | h3) | h3
    · omega
    · exact one _ hm (mem_ite_nil _ _ _ h3)
    · omega
    · exact one _ four (mem_ite_nil _ _ _ h3)

theorem capturecell_black_range (cb : Board) (hwf : wellformed cb = true) (i : Nat)
    (h5 : 5 ≤ i) (h40 : i ≤ 40) :
    ∀ x ∈ capturecellaccess cb BLACK WHITE 4 5 i, 0 ≤ x ∧ x ≤ 45 := by
  intro x hx
  unfold capturecellaccess at hx
  rcases List.mem_append.1 hx with h | h
  · rw [List.mem_singleton] at h
    omega
  · by_cases hme : rd cb i &&& BLACK ≠ 0
    · rw [if_pos hme] at h
      have hi0 : rd cb i ≠ 0 := flag_ne_zero _ _ hme
      have hio : rd cb i &&& WHITE = 0 := by
        rcases wf_vals cb hwf i with h0 | ⟨hv, _⟩
        · exact absurd h0 hi0
        · rcases hv with hv | hv | hv | hv | hv <;> rw [hv] at hme ⊢ <;> revert hme <;> decide
      rcases List.mem_append.1 h with h | h
      · rw [List.mem_singleton] at h
        omega
      · split_ifs at h
        · rcases List.mem_append.1 h with h | h
          · exact blackfirst_access_range cb hwf i 4 h5 h40 (Or.inl rfl) x h
          · exact blackfirst_access_range cb hwf i 5 h5 h40 (Or.inr rfl) x h
        · simp only [List.mem_append] at h
          rcases h with ((h | h) | h) | h
          · exact kingfirst_access_range cb hwf WHITE (Or.inl rfl) i 4 h5 h40 hi0 hio
              (by omega) x h
          · exact kingfirst_access_range cb hwf WHITE (Or.inl rfl) i 5 h5 h40 hi0 hio
              (by omega) x h
          · exact kingfirst_access_range cb hwf WHITE (Or.inl rfl) i (-4) h5 h40 hi0 hio
              (by omega) x h
          · exact kingfirst_access_range cb hwf WHITE (Or.inl rfl) i (-5) h5 h40 hi0 hio
              (by omega) x h
    · rw [if_neg hme] at h
      exact absurd h (List.not_mem_nil _)

theorem capturecell_white_range (cb : Board) (hwf : wellformed cb = true) (i : Nat)
    (h5 : 5 ≤ i) (h40 : i ≤ 40) :
    ∀ x ∈ capturecellaccess cb WHITE BLACK (-4) (-5) i, 0 ≤ x ∧ x ≤ 45 := by
  intro x hx
  unfold capturecellaccess at hx
  rcases List.mem_append.1 hx with h | h
  · rw [List.mem_singleton] at h
    omega
  · by_cases hme : rd cb i &&& WHITE ≠ 0
    · rw [if_pos hme] at h
      have hi0 : rd cb i ≠ 0 := flag_ne_zero _ _ hme
      have hio : rd cb i &&& BLACK = 0 := by
        rcases wf_vals cb hwf i with h0 | ⟨hv, _⟩
        · exact absurd h0 hi0
        · rcases hv with hv | hv | hv | hv | hv <;> rw [hv] at hme ⊢ <;> revert hme <;> decide
      rcases List.mem_append.1 h with h | h
      · rw [List.mem_singleton] at h
        omega
      · split_ifs at h
        · rcases List.mem_append.1 h with h | h
          · exact whitefirst_access_range cb hwf i (-4) h5 h40 (Or.inl rfl) x h
          · exact whitefirst_access_range cb hwf i (-5) h5 h40 (Or.inr rfl) x h
        · simp only [List.mem_append] at h
          rcases h with ((h | h) | h) | h
          · exact kingfirst_access_range cb hwf BLACK (Or.inr rfl) i 4 h5 h40 hi0 hio
              (by omega) x h
          · exact kingfirst_access_range cb hwf BLACK (Or.inr rfl) i 5 h5 h40 hi0 hio
              (by omega) x h
          · exact kingfirst_access_range cb hwf BLACK (Or.inr rfl) i (-4) h5 h40 hi0 hio
              (by omega) x h
          · exact kingfirst_access_range cb hwf BLACK (Or.inr rfl) i (-5) h5 h40 hi0 hio
              (by omega) x h
    · rw [if_neg hme] at h
      exact absurd h (List.not_mem_nil _)

theorem cells_range (i : Nat) (h : i ∈ List.range' 5 36) : 5 ≤ i ∧ i ≤ 40 := by
  rw [List.mem_range'_1] at h
  omega

theorem flatMap_range (g : Nat → List Int)
    (hg : ∀ i, 5 ≤ i → i ≤ 40 → ∀ x ∈ g i, 0 ≤ x ∧ x ≤ 45) :
    ∀ x ∈ (List.range' 5 36).flatMap g, 0 ≤ x ∧ x ≤ 45 := by
  intro x hx
  obtain ⟨i, hi, hxi⟩ := List.mem_flatMap.1 hx
  obtain ⟨h5, h40⟩ := cells_range i hi
  exact hg i h5 h40 x hxi

theorem dirs_black : ∀ d ∈ ([4, 5] : List Int), d = 4 ∨ d = 5 ∨ d = -4 ∨ d = -5 := by
  intro d hd
  simp only [List.mem_cons, List.mem_singleton, List.not_mem_nil, or_false] at hd
  omega

theorem dirs_white : ∀ d ∈ ([-4, -5] : List Int), d = 4 ∨ d = 5 ∨ d = -4 ∨ d = -5 := by
  intro d hd
  simp only [List.mem_cons, List.mem_singleton, List.not_mem_nil, or_false] at hd
  omega

theorem testcapturereads_range (cb : Board) (hwf : wellformed cb = true) (color : Nat) :
    ∀ x ∈ testcapturereads cb color, 0 ≤ x ∧ x ≤ 45 := by
  intro x hx
  unfold testcapturereads at hx
  by_cases hb : color = BLACK
  · simp only [hb, if_true] at hx
    rcases stopfold_mem (testcellreads cb BLACK WHITE [4, 5]) (blacktest cb) x _ _ hx with
      h | ⟨i, hi, h⟩
    · exact absurd h (List.not_mem_nil _)
    · obtain ⟨h5, h40⟩ := cells_range i hi
      exact testcell_range cb hwf BLACK WHITE _ dirs_black i h5 h40 x h
  · simp only [hb, if_false] at hx
    rcases stopfold_mem (testcellreads cb WHITE BLACK [-4, -5]) (whitetest cb) x _ _ hx with
      h | ⟨i, hi, h⟩
    · exact absurd h (List.not_mem_nil _)
    · obtain ⟨h5, h40⟩ := cells_range i hi
      exact testcell_range cb hwf WHITE BLACK _ dirs_white i h5 h40 x h

theorem generatemovelistreads_range (cb : Board) (color : Nat) :
    ∀ x ∈ generatemovelistreads cb color, 0 ≤ x ∧ x ≤ 45 := by
  unfold generatemovelistreads
  split_ifs
  · exact flatMap_range _ (fun i h5 h40 => movecell_range cb BLACK _ dirs_black i h5 h40)
  · exact flatMap_range _ (fun i h5 h40 => movecell_range cb WHITE _ dirs_white i h5 h40)

theorem generatecapturelistaccess_range (cb : Board) (hwf : wellformed cb = true)
    (color : Nat) : ∀ x ∈ generatecapturelistaccess cb color, 0 ≤ x ∧ x ≤ 45 := by
  unfold generatecapturelistaccess
  split_ifs
  · exact flatMap_range _ (fun i h5 h40 => capturecell_black_range cb hwf i h5 h40)
  · exact flatMap_range _ (fun i h5 h40 => capturecell_white_range cb hwf i h5 h40)

/-- Claim C26: on a well-formed board every index read or written by
`testcapture`, `generatemovelist`, `generatecapturelist` and the four
capture-chain helpers (started on any cell of the loop range, with the
recursion as deep as it goes) lies in `0..45`; a step of ±4 or ±5 from a cell
of the loop range stays in `0..45`, and the jump index `i + 2 * d` is read only
when the adjacent cell `i + d` holds a piece of the opposing colour. -/
theorem board_indices_in_range (cb : Board) (color : Nat) (hwf : wellformed cb = true) :
    (∀ x ∈ testcapturereads cb color, 0 ≤ x ∧ x ≤ 45) ∧
    (∀ x ∈ generatemovelistreads cb color, 0 ≤ x ∧ x ≤ 45) ∧
    (∀ x ∈ generatecapturelistaccess cb color, 0 ≤ x ∧ x ≤ 45) ∧
    (∀ i, 5 ≤ i → i ≤ 40 →
      (∀ x ∈ manaccess WHITE 4 5 CHAINFUEL cb i, 0 ≤ x ∧ x ≤ 45) ∧
      (∀ x ∈ manaccess BLACK (-4) (-5) CHAINFUEL cb i, 0 ≤ x ∧ x ≤ 45) ∧
      (∀ x ∈ kingaccess WHITE CHAINFUEL cb i, 0 ≤ x ∧ x ≤ 45) ∧
      (∀ x ∈ kingaccess BLACK CHAINFUEL cb i, 0 ≤ x ∧ x ≤ 45)) ∧
    (∀ (i : Nat) (d : Int), 5 ≤ i → i ≤ 40 → (d = 4 ∨ d = 5 ∨ d = -4 ∨ d = -5) →
      0 ≤ (i : Int) + d ∧ (i : Int) + d ≤ 45 ∧
      (rd cb ((i : Int) + d).toNat = 0 ∨ playable (rd cb ((i : Int) + d).toNat) = true)) ∧
    (∀ (opp i : Nat) (d : Int), d ≠ 0 → (i : Int) + 2 * d ∈ jumpreads cb opp i d →
      rd cb ((i : Int) + d).toNat &&& opp ≠ 0) := by
  refine ⟨testcapturereads_range cb hwf color, generatemovelistreads_range cb color,
    generatecapturelistaccess_range cb hwf color, ?_, ?_, ?_⟩
  · intro i h5 h40
    exact ⟨blackman_access_range cb hwf CHAINFUEL i h5 h40 (by unfold CHAINFUEL; omega),
      whiteman_access_range cb hwf CHAINFUEL i h5 h40 (by unfold CHAINFUEL; omega),
      king_access_range WHITE (Or.inl rfl) CHAINFUEL cb i hwf h5 h40 (flagcount_wf _ cb hwf),
      king_access_range BLACK (Or.inr rfl) CHAINFUEL cb i hwf h5 h40 (flagcount_wf _ cb hwf)⟩
  · intro i d h5 h40 hd
    refine ⟨by omega, by omega, ?_⟩
    have hcell := wf_cell cb hwf ((i : Int) + d).toNat
    cases hs : sentinel ((i : Int) + d).toNat with
    | true => exact Or.inl (hcell.1 hs)
    | false => exact Or.inr (hcell.2 hs)
  · intro opp i d hd hmem
    unfold jumpreads at hmem
    split_ifs at hmem with h
    · exact h
    · rw [List.mem_singleton] at hmem
      omega

/-! ## Instances of the theorems of this part -/

theorem depth0_rule_witness :
    (State.mk startboard 0 [] []).play = 0 ∧
    (State.mk circleboard 0 [] []).play = 0 ∧
    testcapture startboard BLACK = 0 ∧
    testcapture circleboard BLACK = 1 ∧
    alphabeta 3 0 (-10000) 10000 BLACK (State.mk startboard 0 [] []) =
      (match evaluation startboard BLACK with
        | some v => Outcome.ok (v,
            (((State.mk startboard 0 [] []).log Call.alphabeta).log Call.testcapture).log
              Call.evaluation)
        | none => Outcome.divzero) ∧
    alphabeta 3 0 (-10000) 10000 BLACK (State.mk circleboard 0 [] []) =
      alphabeta 3 1 (-10000) 10000 BLACK (State.mk circleboard 0 [] []) ∧
    (alphabeta 3 1 (-10000) 10000 BLACK (State.mk circleboard 0 [] [])).score = some 383 :=
  ⟨rfl, rfl, by decide!, by decide!,
    (depth0_rule 3 (-10000) 10000 BLACK (State.mk startboard 0 [] []) rfl).1 (by decide!),
    (depth0_rule 3 (-10000) 10000 BLACK (State.mk circleboard 0 [] []) rfl).2 (by decide!),
    by decide!⟩

theorem generatecapturelist_restores_witness :
    wellformed circleboard = true ∧ (BLACK = BLACK ∨ BLACK = WHITE) ∧
    (generatecapturelist circleboard BLACK).1 = circleboard ∧
    (generatecapturelist circleboard BLACK).2.length = 2 :=
  ⟨by decide!, Or.inl rfl,
    (generatecapturelist_restores circleboard BLACK (by decide!) (Or.inl rfl)).1, by decide!⟩

theorem board_indices_in_range_witness :
    wellformed nineboard = true ∧
    (∀ x ∈ testcapturereads nineboard BLACK, 0 ≤ x ∧ x ≤ 45) ∧
    (∀ x ∈ generatemovelistreads nineboard BLACK, 0 ≤ x ∧ x ≤ 45) ∧
    (∀ x ∈ generatecapturelistaccess nineboard BLACK, 0 ≤ x ∧ x ≤ 45) :=
  ⟨by decide!, (board_indices_in_range nineboard BLACK (by decide!)).1,
    (board_indices_in_range nineboard BLACK (by decide!)).2.1,
    (board_indices_in_range nineboard BLACK (by decide!)).2.2.1⟩

theorem man_chain_forward_witness :
    wellformed tripleplusboard = true ∧ (BLACK = BLACK ∨ BLACK = WHITE) ∧
    [1050120, 397346, 1049868, 1049876, 1049885] ∈ (generatecapturelist tripleplusboard BLACK).2 ∧
    (([1050120, 397346, 1049868, 1049876, 1049885] : move2).getD 0 0 >>> 8) % 256 =
      BLACK ||| MAN ∧
    ((([1050120, 397346, 1049868, 1049876, 1049885] : move2).drop 2).map
      (fun x => row.getD (x % 256) 0)).Pairwise (fun x y => x < y) :=
  ⟨by decide!, Or.inl rfl, by decide!, by decide!,
    (man_chain_forward tripleplusboard BLACK (by decide!) (Or.inl rfl)
      [1050120, 397346, 1049868, 1049876, 1049885] (by decide!) (by decide!)).1 rfl⟩

theorem turn_bonus_only_witness :
    wellformed tenboard = true ∧
    1 ≤ piececount tenboard BLACK + piececount tenboard WHITE ∧
    piececount tenboard BLACK ≤ 12 ∧ piececount tenboard WHITE ≤ 12 ∧
    piececount tenboard BLACK ≠ piececount tenboard WHITE ∧
    ∃ vb vw, evaluation tenboard BLACK = some vb ∧ evaluation tenboard WHITE = some vw ∧
      vb - vw = 4 :=
  ⟨by decide!, by decide!, by decide!, by decide!, by decide!,
    turn_bonus_only tenboard (by decide!) (by decide!) (by decide!) (by decide!) (by decide!)⟩

/-! ## The packed piece count of `evaluation` -/

/-- The packed sum over any list of cells of a well-formed board, in terms of
the numbers of cells holding each of the four pieces. -/
theorem material_kinds (cb : Board) (hwf : wellformed cb = true) (cells : List Nat) :
    (cells.map (fun i => value.getD (rd cb i) 0)).sum =
      cells.countP (fun i => rd cb i == (WHITE ||| MAN)) +
      16 * cells.countP (fun i => rd cb i == (WHITE ||| KING)) +
      256 * cells.countP (fun i => rd cb i == (BLACK ||| MAN)) +
      4096 * cells.countP (fun i => rd cb i == (BLACK ||| KING)) := by
  induction cells with
  | nil => rfl
  | cons c cs ih =>
    rw [List.map_cons, List.sum_cons, ih]
    simp only [List.countP_cons]
    rcases wf_vals cb hwf c with h | ⟨h | h | h | h | h, _⟩ <;> rw [h] <;>
      simp [value, WHITE, BLACK, MAN, KING] <;> omega

theorem decode_kinds (wm wk bm bk code : Nat)
    (h : code = wm + 16 * wk + 256 * bm + 4096 * bk) (h1 : wm ≤ 15) (h2 : wk ≤ 15)
    (h3 : bm ≤ 15) (h4 : bk ≤ 15) :
    code % 16 = wm ∧ code >>> 4 % 16 = wk ∧ code >>> 8 % 16 = bm ∧ code >>> 12 % 16 = bk := by
  simp only [Nat.shiftRight_eq_div_pow]
  omega

/-- C36: on a well-formed board on which each of the four piece kinds occurs at
most 15 times, the counts `nwm`, `nwk`, `nbm`, `nbk` that `evaluation` decodes
from the packed sum over the cells `5..40` are the numbers of white men, white
kings, black men and black kings, the material base score `v1 - v2` is
`100*nbm + 130*nbk - 100*nwm - 130*nwk` of these numbers, and `evaluation` is
built on these values. -/
theorem material_decoding (cb : Board) (hwf : wellformed cb = true)
    (hwm : kindcount cb (WHITE ||| MAN) ≤ 15) (hwk : kindcount cb (WHITE ||| KING) ≤ 15)
    (hbm : kindcount cb (BLACK ||| MAN) ≤ 15) (hbk : kindcount cb (BLACK ||| KING) ≤ 15) :
    nwmof cb = kindcount cb (WHITE ||| MAN) ∧ nwkof cb = kindcount cb (WHITE ||| KING) ∧
    nbmof cb = kindcount cb (BLACK ||| MAN) ∧ nbkof cb = kindcount cb (BLACK ||| KING) ∧
    blackmaterial cb - whitematerial cb =
      100 * (kindcount cb (BLACK ||| MAN) : Int) + 130 * (kindcount cb (BLACK ||| KING) : Int) -
      100 * (kindcount cb (WHITE ||| MAN) : Int) - 130 * (kindcount cb (WHITE ||| KING) : Int) ∧
    evmaterial cb = blackmaterial cb - whitematerial cb +
      Int.tdiv (250 * (blackmaterial cb - whitematerial cb))
        (blackmaterial cb + whitematerial cb) ∧
    ∀ color, evaluation cb color =
      if blackmaterial cb + whitematerial cb = 0 then none
      else some (evmaterial cb + evturn color + evposition cb +
        tempofactor (nbmof cb + nwmof cb) * tempoterm cb + evsafe cb + evmove cb color) := by
  have hcode := material_kinds cb hwf (List.range' 5 36)
  obtain ⟨e1, e2, e3, e4⟩ := decode_kinds _ _ _ _ (materialcode cb) hcode hwm hwk hbm hbk
  have f1 : nwmof cb = kindcount cb (WHITE ||| MAN) := e1
  have f2 : nwkof cb = kindcount cb (WHITE ||| KING) := e2
  have f3 : nbmof cb = kindcount cb (BLACK ||| MAN) := e3
  have f4 : nbkof cb = kindcount cb (BLACK ||| KING) := e4
  refine ⟨f1, f2, f3, f4, ?_, rfl, fun color => evaluation_terms cb color⟩
  unfold blackmaterial whitematerial
  rw [f1, f2, f3, f4]
  ring

/-! ## The length of the quiet-move list -/

theorem generatemovelist_mem (cb : Board) (color : Nat) (hwf : wellformed cb = true)
    (hc : color = BLACK ∨ color = WHITE) (mv : move2) (h : mv ∈ generatemovelist cb color) :
    ∃ i j, validpair cb color i j = true ∧ mv = quietmove cb color i j := by
  unfold generatemovelist at h
  rcases hc with hc | hc <;> subst hc
  · rw [if_pos rfl] at h
    obtain ⟨i, _, hi⟩ := List.mem_flatMap.1 h
    obtain ⟨j, hj⟩ := (blackmoves_mem cb hwf i mv).1 hi
    exact ⟨i, j, hj⟩
  · rw [if_neg (by decide)] at h
    obtain ⟨i, _, hi⟩ := List.mem_flatMap.1 h
    obtain ⟨j, hj⟩ := (whitemoves_mem cb hwf i mv).1 hi
    exact ⟨i, j, hj⟩

theorem generatemovelist_nodup (cb : Board) (color : Nat) (hwf : wellformed cb = true)
    (hc : color = BLACK ∨ color = WHITE) : (generatemovelist cb color).Nodup := by
  unfold generatemovelist
  rcases hc with hc | hc <;> subst hc
  · rw [if_pos rfl]
    exact cells_nodup _ BLACK cb hwf (Or.inl rfl) (blackmoves_mem cb hwf)
      (blackmoves_nodup cb hwf) _ (List.nodup_range' 5 36)
  · rw [if_neg (by decide)]
    exact cells_nodup _ WHITE cb hwf (Or.inr rfl) (whitemoves_mem cb hwf)
      (whitemoves_nodup cb hwf) _ (List.nodup_range' 5 36)

/-- A valid pair joins two diagonally adjacent playable cells, a piece of the
colour on one and FREE on the other. -/
theorem validpair_facts (cb : Board) (hwf : wellformed cb = true) (color : Nat)
    (hc : color = BLACK ∨ color = WHITE) (i j : Nat) (h : validpair cb color i j = true) :
    rd cb i ≠ FREE ∧ rd cb j = FREE ∧ 5 ≤ i ∧ i ≤ 40 ∧ i % 9 ≠ 0 ∧ 5 ≤ j ∧ j ≤ 40 ∧ j % 9 ≠ 0 ∧
    (j = i + 4 ∨ j = i + 5 ∨ j + 4 = i ∨ j + 5 = i) := by
  have hv := h
  rw [validpair_iff] at hv
  obtain ⟨hp, hf, hd⟩ := hv
  have hj := free_cell cb hwf j hf
  have hi0 : rd cb i ≠ 0 ∧ rd cb i ≠ FREE := by
    rcases hc with hc | hc <;> subst hc <;> rcases hp with hp | hp <;> rw [hp] <;> decide
  have hi : 5 ≤ i ∧ i ≤ 40 ∧ i % 9 ≠ 0 := by
    rcases wf_vals cb hwf i with h0 | ⟨_, h5⟩
    · exact absurd h0 hi0.1
    · exact h5
  refine ⟨hi0.2, hf, hi.1, hi.2.1, hi.2.2, hj.1, hj.2.1, hj.2.2, ?_⟩
  split_ifs at hd <;> omega

theorem edgeof_quietmove (cb : Board) (color i j : Nat) (hi : i < 256) (hj : j < 256) :
    edgeof (quietmove cb color i j) = (min i j, max i j) := by
  obtain ⟨h0, h1⟩ := quietmove_squares cb color i j hi hj
  unfold edgeof
  rw [h0, h1]

theorem edges_mem (x y : Nat) (hx5 : 5 ≤ x) (hx9 : x % 9 ≠ 0) (hy9 : y % 9 ≠ 0) (hy40 : y ≤ 40)
    (h : y = x + 4 ∨ y = x + 5) : (x, y) ∈ edges := by
  unfold edges
  rw [List.mem_filter]
  constructor
  · rw [List.mem_flatMap]
    refine ⟨x, by rw [List.mem_range'_1]; omega, ?_⟩
    rcases h with h | h <;> subst h <;> simp
  · have sx : sentinel x = false := by
      unfold sentinel
      simp only [Bool.or_eq_false_iff, decide_eq_false_iff_not, beq_eq_false_iff_ne, ne_eq]
      omega
    have sy : sentinel y = false := by
      unfold sentinel
      simp only [Bool.or_eq_false_iff, decide_eq_false_iff_not, beq_eq_false_iff_ne, ne_eq]
      omega
    rw [sx, sy]
    rfl

theorem edges_length : edges.length = 49 := by decide

/-- C34: on a well-formed board `generatemovelist(colour)` returns at most 49
moves, fewer than `MAXMOVES = 51`: the moves are pairwise different, each joins
two diagonally adjacent playable cells (a piece on one, FREE on the other), no
two moves join the same pair of cells, and there are 49 such pairs. -/
theorem generatemovelist_length (cb : Board) (color : Nat) (hwf : wellformed cb = true)
    (hc : color = BLACK ∨ color = WHITE) :
    (generatemovelist cb color).length ≤ 49 ∧ (generatemovelist cb color).length < MAXMOVES ∧
    (generatemovelist cb color).Nodup ∧
    (∀ mv ∈ generatemovelist cb color, edgeof mv ∈ edges) ∧
    (∀ mv ∈ generatemovelist cb color, ∀ mv2 ∈ generatemovelist cb color,
      edgeof mv = edgeof mv2 → mv = mv2) ∧
    edges.length = 49 := by
  have hnd := generatemovelist_nodup cb color hwf hc
  have hsub : ∀ mv ∈ generatemovelist cb color, edgeof mv ∈ edges := by
    intro mv hmv
    obtain ⟨i, j, hv, rfl⟩ := generatemovelist_mem cb color hwf hc mv hmv
    obtain ⟨_, _, hi5, hi40, hi9, hj5, hj40, hj9, hd⟩ := validpair_facts cb hwf color hc i j hv
    rw [edgeof_quietmove cb color i j (by omega) (by omega)]
    rcases Nat.lt_or_ge i j with hlt | hge
    · rw [Nat.min_eq_left (Nat.le_of_lt hlt), Nat.max_eq_right (Nat.le_of_lt hlt)]
      exact edges_mem i j hi5 hi9 hj9 hj40 (by omega)
    · rw [Nat.min_eq_right hge, Nat.max_eq_left hge]
      exact edges_mem j i hj5 hj9 hi9 hi40 (by omega)
  have hinj : ∀ mv ∈ generatemovelist cb color, ∀ mv2 ∈ generatemovelist cb color,
      edgeof mv = edgeof mv2 → mv = mv2 := by
    intro mv hmv mv2 hmv2 he
    obtain ⟨i, j, hv, rfl⟩ := generatemovelist_mem cb color hwf hc mv hmv
    obtain ⟨i2, j2, hv2, rfl⟩ := generatemovelist_mem cb color hwf hc mv2 hmv2
    obtain ⟨hin, hjf, hi5, hi40, _, hj5, hj40, _, _⟩ := validpair_facts cb hwf color hc i j hv
    obtain ⟨hin2, hjf2, hi5b, hi40b, _, hj5b, hj40b, _, _⟩ :=
      validpair_facts cb hwf color hc i2 j2 hv2
    rw [edgeof_quietmove cb color i j (by omega) (by omega),
      edgeof_quietmove cb color i2 j2 (by omega) (by omega)] at he
    have h1 := congrArg Prod.fst he
    have h2 := congrArg Prod.snd he
    simp only at h1 h2
    have hne : i ≠ j := fun e => hin (e ▸ hjf)
    have hne2 : i2 ≠ j2 := fun e => hin2 (e ▸ hjf2)
    have hcase : (i = i2 ∧ j = j2) ∨ (i = j2 ∧ j = i2) := by omega
    rcases hcase with ⟨e1, e2⟩ | ⟨e1, e2⟩
    · rw [e1, e2]
    · exact absurd (e1 ▸ hjf2) hin
  have hmap : ((generatemovelist cb color).map edgeof).Nodup :=
    List.Nodup.map_on (fun x hx y hy h => hinj x hx y hy h) hnd
  have hlen : ((generatemovelist cb color).map edgeof).length ≤ edges.length := by
    apply List.Subperm.length_le
    apply List.Nodup.subperm hmap
    intro p hp
    obtain ⟨mv, hmv, rfl⟩ := List.mem_map.1 hp
    exact hsub mv hmv
  rw [List.length_map, edges_length] at hlen
  exact ⟨hlen, by unfold MAXMOVES; omega, hnd, hsub, hinj, edges_length⟩

/-! ## Where a capture lands -/

/-- A jump from the playable cell `i` over the playable cell `a` to the playable
cell `l` keeps the class of the cell (`i % 9 <= 4` or not), and the jumped cell
lies in the other class. -/
theorem hop_class (i a l : Nat) (hi9 : i % 9 ≠ 0) (ha9 : a % 9 ≠ 0) (hl9 : l % 9 ≠ 0)
    (hl5 : 5 ≤ l)
    (hd : (a = i + 4 ∧ l = i + 8) ∨ (a = i + 5 ∧ l = i + 10) ∨ (a = i - 4 ∧ l = i - 8) ∨
      (a = i - 5 ∧ l = i - 10)) :
    (l % 9 ≤ 4 ↔ i % 9 ≤ 4) ∧ (a % 9 ≤ 4 ↔ 5 ≤ i % 9) := by
  omega

theorem class_step (x i a l : Nat) (hl : l % 9 ≤ 4 ↔ i % 9 ≤ 4) (ha : a % 9 ≤ 4 ↔ 5 ≤ i % 9) :
    ((x % 9 ≤ 4 ↔ 5 ≤ i % 9) → (x % 9 ≤ 4 ↔ 5 ≤ l % 9)) ∧ (a % 9 ≤ 4 ↔ 5 ≤ l % 9) := by
  omega

theorem blackman_land (cb : Board) (hwf : wellformed cb = true) (m0 : Nat) :
    ∀ (f : Nat) (m1 : Nat) (rest : List Nat) (i : Nat),
      m1 % 256 = i → 5 ≤ i → i ≤ 40 → i % 9 ≠ 0 → rd cb i = FREE →
      (∀ x ∈ rest, (x % 256 % 9 ≤ 4 ↔ 5 ≤ i % 9)) →
      ∀ mv ∈ blackmancapture f cb (m0 :: m1 :: rest) i,
        ∃ m2 rest2, mv = m0 :: m2 :: rest2 ∧ rd cb (m2 % 256) = FREE ∧
          ∀ x ∈ rest2, (x % 256 % 9 ≤ 4 ↔ 5 ≤ m2 % 256 % 9) := by
  intro f
  induction f with
  | zero =>
    intro m1 rest i hm1 h5 h40 h9 hfree hrest mv hmv
    simp only [blackmancapture, List.mem_singleton] at hmv
    exact ⟨m1, rest, hmv, by rw [hm1]; exact hfree, by rw [hm1]; exact hrest⟩
  | succ f ih =>
    intro m1 rest i hm1 h5 h40 h9 hfree hrest mv hmv
    simp only [blackmancapture] at hmv
    have branch : ∀ a l p, ((a = i + 4 ∧ l = i + 8) ∨ (a = i + 5 ∧ l = i + 10)) →
        canjump cb WHITE a l = true →
        mv ∈ blackmancapture f cb
          (extend (m0 :: m1 :: rest) (leg p FREE l) (leg FREE (rd cb a) a)) l →
        ∃ m2 rest2, mv = m0 :: m2 :: rest2 ∧ rd cb (m2 % 256) = FREE ∧
          ∀ x ∈ rest2, (x % 256 % 9 ≤ 4 ↔ 5 ≤ m2 % 256 % 9) := by
      intro a l p hd hj hmem
      obtain ⟨_, ha2, ha3, ha4, hl1, hl2, hl3⟩ := canjump_facts cb hwf _ a l hj
      have hl9 := (free_cell cb hwf l hl1).2.2
      have ha9 : a % 9 ≠ 0 := by
        rcases wf_vals cb hwf a with h0 | ⟨_, _, _, h⟩
        · exact absurd h0 ha2
        · exact h
      obtain ⟨c1, c2⟩ := hop_class i a l h9 ha9 hl9 hl2 (by omega)
      rw [extend_cons] at hmem
      refine ih (leg p FREE l) (rest ++ [leg FREE (rd cb a) a]) l
        (leg_square _ _ _ (by omega)) hl2 hl3 hl9 hl1 ?_ mv hmem
      intro x hx
      rcases List.mem_append.1 hx with hx | hx
      · exact (class_step (x % 256) i a l c1 c2).1 (hrest x hx)
      · rw [List.mem_singleton] at hx
        rw [hx, leg_square _ _ _ (by omega)]
        exact (class_step 0 i a l c1 c2).2
    cases h1 : canjump cb WHITE (i + 4) (i + 8) <;>
      cases h2 : canjump cb WHITE (i + 5) (i + 10) <;>
      simp only [h1, h2, Bool.false_eq_true, if_false, if_true, Bool.or_self, Bool.or_true,
        Bool.or_false, List.append_nil, List.nil_append, List.mem_singleton,
        List.mem_append] at hmv
    · exact ⟨m1, rest, hmv, by rw [hm1]; exact hfree, by rw [hm1]; exact hrest⟩
    · exact branch _ _ _ (Or.inr ⟨rfl, rfl⟩) h2 hmv
    · exact branch _ _ _ (Or.inl ⟨rfl, rfl⟩) h1 hmv
    · rcases hmv with h | h
      · exact branch _ _ _ (Or.inl ⟨rfl, rfl⟩) h1 h
      · exact branch _ _ _ (Or.inr ⟨rfl, rfl⟩) h2 h

theorem whiteman_land (cb : Board) (hwf : wellformed cb = true) (m0 : Nat) :
    ∀ (f : Nat) (m1 : Nat) (rest : List Nat) (i : Nat),
      m1 % 256 = i → 5 ≤ i → i ≤ 40 → i % 9 ≠ 0 → rd cb i = FREE →
      (∀ x ∈ rest, (x % 256 % 9 ≤ 4 ↔ 5 ≤ i % 9)) →
      ∀ mv ∈ whitemancapture f cb (m0 :: m1 :: rest) i,
        ∃ m2 rest2, mv = m0 :: m2 :: rest2 ∧ rd cb (m2 % 256) = FREE ∧
          ∀ x ∈ rest2, (x % 256 % 9 ≤ 4 ↔ 5 ≤ m2 % 256 % 9) := by
  intro f
  induction f with
  | zero =>
    intro m1 rest i hm1 h5 h40 h9 hfree hrest mv hmv
    simp only [whitemancapture, List.mem_singleton] at hmv
    exact ⟨m1, rest, hmv, by rw [hm1]; exact hfree, by rw [hm1]; exact hrest⟩
  | succ f ih =>
    intro m1 rest i hm1 h5 h40 h9 hfree hrest mv hmv
    simp only [whitemancapture] at hmv
    have branch : ∀ a l p, ((a = i - 4 ∧ l = i - 8) ∨ (a = i - 5 ∧ l = i - 10)) →
        canjump cb BLACK a l = true →
        mv ∈ whitemancapture f cb
          (extend (m0 :: m1 :: rest) (leg p FREE l) (leg FREE (rd cb a) a)) l →
        ∃ m2 rest2, mv = m0 :: m2 :: rest2 ∧ rd cb (m2 % 256) = FREE ∧
          ∀ x ∈ rest2, (x % 256 % 9 ≤ 4 ↔ 5 ≤ m2 % 256 % 9) := by
      intro a l p hd hj hmem
      obtain ⟨_, ha2, ha3, ha4, hl1, hl2, hl3⟩ := canjump_facts cb hwf _ a l hj
      have hl9 := (free_cell cb hwf l hl1).2.2
      have ha9 : a % 9 ≠ 0 := by
        rcases wf_vals cb hwf a with h0 | ⟨_, _, _, h⟩
        · exact absurd h0 ha2
        · exact h
      obtain ⟨c1, c2⟩ := hop_class i a l h9 ha9 hl9 hl2 (by omega)
      rw [extend_cons] at hmem
      refine ih (leg p FREE l) (rest ++ [leg FREE (rd cb a) a]) l
        (leg_square _ _ _ (by omega)) hl2 hl3 hl9 hl1 ?_ mv hmem
      intro x hx
      rcases List.mem_append.1 hx with hx | hx
      · exact (class_step (x % 256) i a l c1 c2).1 (hrest x hx)
      · rw [List.mem_singleton] at hx
        rw [hx, leg_square _ _ _ (by omega)]
        exact (class_step 0 i a l c1 c2).2
    cases h1 : canjump cb BLACK (i - 4) (i - 8) <;>
      cases h2 : canjump cb BLACK (i - 5) (i - 10) <;>
      simp only [h1, h2, Bool.false_eq_true, if_false, if_true, Bool.or_self, Bool.or_true,
        Bool.or_false, List.append_nil, List.nil_append, List.mem_singleton,
        List.mem_append] at hmv
    · exact ⟨m1, rest, hmv, by rw [hm1]; exact hfree, by rw [hm1]; exact hrest⟩
    · exact branch _ _ _ (Or.inr ⟨rfl, rfl⟩) h2 hmv
    · exact branch _ _ _ (Or.inl ⟨rfl, rfl⟩) h1 hmv
    · rcases hmv with h | h
      · exact branch _ _ _ (Or.inl ⟨rfl, rfl⟩) h1 h
      · exact branch _ _ _ (Or.inr ⟨rfl, rfl⟩) h2 h

theorem king_land (cb : Board) (color : Nat) (m0 o : Nat) :
    ∀ (f : Nat) (cbg : Board) (m1 : Nat) (rest : List Nat) (i : Nat),
      wellformed cbg = true → m1 % 256 = i → 5 ≤ i → i ≤ 40 → i % 9 ≠ 0 →
      (rd cb i = FREE ∨ i = o) →
      (∀ j, rd cbg j = rd cb j ∨ j = o ∨ ∃ x ∈ rest, x % 256 = j) →
      (∀ x ∈ rest, (x % 256 % 9 ≤ 4 ↔ 5 ≤ i % 9)) →
      ∀ mv ∈ (kingcapture (color ||| KING) (color ^^^ CHANGECOLOR) f cbg
          (m0 :: m1 :: rest) i).2,
        ∃ m2 rest2, mv = m0 :: m2 :: rest2 ∧ (rd cb (m2 % 256) = FREE ∨ m2 % 256 = o) ∧
          ∀ x ∈ rest2, (x % 256 % 9 ≤ 4 ↔ 5 ≤ m2 % 256 % 9) := by
  intro f
  induction f with
  | zero =>
    intro cbg m1 rest i hwf hm1 h5 h40 h9 hfree hrel hrest mv hmv
    simp only [kingcapture, List.mem_singleton] at hmv
    exact ⟨m1, rest, hmv, by rw [hm1]; exact hfree, by rw [hm1]; exact hrest⟩
  | succ f ih =>
    intro cbg m1 rest i hwf hm1 h5 h40 h9 hfree hrel hrest mv hmv
    rw [kingcapture_succ] at hmv
    have branch : ∀ a l, ((a = i + 4 ∧ l = i + 8) ∨ (a = i + 5 ∧ l = i + 10) ∨
          (a = i - 4 ∧ l = i - 8) ∨ (a = i - 5 ∧ l = i - 10)) →
        mv ∈ kingbranch (color ||| KING) (color ^^^ CHANGECOLOR) f cbg (m0 :: m1 :: rest) a l →
        ∃ m2 rest2, mv = m0 :: m2 :: rest2 ∧ (rd cb (m2 % 256) = FREE ∨ m2 % 256 = o) ∧
          ∀ x ∈ rest2, (x % 256 % 9 ≤ 4 ↔ 5 ≤ m2 % 256 % 9) := by
      intro a l hd hmem
      unfold kingbranch at hmem
      by_cases hj : canjump cbg (color ^^^ CHANGECOLOR) a l = true
      · rw [if_pos hj, extend_cons] at hmem
        obtain ⟨_, ha2, ha3, ha4, hl1, hl2, hl3⟩ := canjump_facts cbg hwf _ a l hj
        have hl9 := (free_cell cbg hwf l hl1).2.2
        have ha9 : a % 9 ≠ 0 := by
          rcases wf_vals cbg hwf a with h0 | ⟨_, _, _, h⟩
          · exact absurd h0 ha2
          · exact h
        obtain ⟨c1, c2⟩ := hop_class i a l h9 ha9 hl9 hl2 hd
        refine ih (wr cbg a FREE) (leg (color ||| KING) FREE l)
          (rest ++ [leg FREE (rd cbg a) a]) l (wf_wr_free cbg hwf a ha2)
          (leg_square _ _ _ (by omega)) hl2 hl3 hl9 ?_ ?_ ?_ mv hmem
        · rcases hrel l with h | h | ⟨x, hx, hxl⟩
          · exact Or.inl (h ▸ hl1)
          · exact Or.inr h
          · have := hrest x hx
            rw [hxl] at this
            omega
        · intro j
          rw [rd_wr]
          by_cases haj : a = j
          · right; right
            exact ⟨_, List.mem_append_right _ (List.mem_singleton_self _),
              by rw [leg_square _ _ _ (by omega)]; exact haj⟩
          · rw [if_neg (fun h => haj h.1)]
            rcases hrel j with h | h | ⟨x, hx, hxj⟩
            · exact Or.inl h
            · exact Or.inr (Or.inl h)
            · exact Or.inr (Or.inr ⟨x, List.mem_append_left _ hx, hxj⟩)
        · intro x hx
          rcases List.mem_append.1 hx with hx | hx
          · exact (class_step (x % 256) i a l c1 c2).1 (hrest x hx)
          · rw [List.mem_singleton] at hx
            rw [hx, leg_square _ _ _ (by omega)]
            exact (class_step 0 i a l c1 c2).2
      · rw [if_neg hj] at hmem
        exact absurd hmem (List.not_mem_nil _)
    split_ifs at hmv with hany
    · simp only [List.mem_append] at hmv
      rcases hmv with ((h | h) | h) | h
      · exact branch _ _ (Or.inr (Or.inr (Or.inl ⟨rfl, rfl⟩))) h
      · exact branch _ _ (Or.inr (Or.inr (Or.inr ⟨rfl, rfl⟩))) h
      · exact branch _ _ (Or.inl ⟨rfl, rfl⟩) h
      · exact branch _ _ (Or.inr (Or.inl ⟨rfl, rfl⟩)) h
    · simp only [List.mem_singleton] at hmv
      exact ⟨m1, rest, hmv, by rw [hm1]; exact hfree, by rw [hm1]; exact hrest⟩

theorem piece_playable (cb : Board) (hwf : wellformed cb = true) (i : Nat) (h : rd cb i ≠ 0) :
    5 ≤ i ∧ i ≤ 40 ∧ i % 9 ≠ 0 := by
  rcases wf_vals cb hwf i with h0 | ⟨_, h5⟩
  · exact absurd h0 h
  · exact h5

theorem manstart_land (helper : Nat → Board → move2 → Nat → List move2) (cb : Board)
    (hwf : wellformed cb = true) (opp man after i a l : Nat) (hi : rd cb i ≠ 0)
    (hd : (a = i + 4 ∧ l = i + 8) ∨ (a = i + 5 ∧ l = i + 10) ∨ (a = i - 4 ∧ l = i - 8) ∨
      (a = i - 5 ∧ l = i - 10))
    (hhelper : ∀ (m0 m1 : Nat) (rest : List Nat) (i : Nat),
      m1 % 256 = i → 5 ≤ i → i ≤ 40 → i % 9 ≠ 0 → rd cb i = FREE →
      (∀ x ∈ rest, (x % 256 % 9 ≤ 4 ↔ 5 ≤ i % 9)) →
      ∀ mv ∈ helper CHAINFUEL cb (m0 :: m1 :: rest) i,
        ∃ m2 rest2, mv = m0 :: m2 :: rest2 ∧ rd cb (m2 % 256) = FREE ∧
          ∀ x ∈ rest2, (x % 256 % 9 ≤ 4 ↔ 5 ≤ m2 % 256 % 9)) :
    ∀ mv ∈ manstart helper opp man after cb i a l,
      ∃ m1 rest, mv = leg FREE man i :: m1 :: rest ∧
        (rd cb (m1 % 256) = FREE ∨ m1 % 256 = i) ∧ ∀ x ∈ rest, x % 256 ≠ m1 % 256 := by
  intro mv hmv
  unfold manstart at hmv
  by_cases hj : canjump cb opp a l = true
  · rw [if_pos hj] at hmv
    obtain ⟨_, ha2, ha3, ha4, hl1, hl2, hl3⟩ := canjump_facts cb hwf _ a l hj
    have hl9 := (free_cell cb hwf l hl1).2.2
    have ha9 := (piece_playable cb hwf a ha2).2.2
    have hi9 := (piece_playable cb hwf i hi).2.2
    obtain ⟨c1, c2⟩ := hop_class i a l hi9 ha9 hl9 hl2 hd
    obtain ⟨m2, rest2, he, hf, hcl⟩ := hhelper (leg FREE man i) (leg after FREE l)
      [leg FREE (rd cb a) a] l (leg_square _ _ _ (by omega)) hl2 hl3 hl9 hl1 (by
        intro x hx
        rw [List.mem_singleton] at hx
        rw [hx, leg_square _ _ _ (by omega)]
        exact (class_step 0 i a l c1 c2).2) mv hmv
    refine ⟨m2, rest2, he, Or.inl hf, ?_⟩
    intro x hx e
    have := hcl x hx
    rw [e] at this
    omega
  · rw [if_neg hj] at hmv
    exact absurd hmv (List.not_mem_nil _)

theorem kingstart_land (color : Nat) (cb : Board)
    (hwf : wellformed cb = true) (i a l : Nat) (hi : rd cb i ≠ 0) (hai : a ≠ i)
    (hd : (a = i + 4 ∧ l = i + 8) ∨ (a = i + 5 ∧ l = i + 10) ∨ (a = i - 4 ∧ l = i - 8) ∨
      (a = i - 5 ∧ l = i - 10)) :
    ∀ mv ∈ kingstart (color ||| KING) (color ^^^ CHANGECOLOR) cb i a l,
      ∃ m1 rest, mv = leg FREE (color ||| KING) i :: m1 :: rest ∧
        (rd cb (m1 % 256) = FREE ∨ m1 % 256 = i) ∧ ∀ x ∈ rest, x % 256 ≠ m1 % 256 := by
  intro mv hmv
  unfold kingstart at hmv
  by_cases hj : canjump cb (color ^^^ CHANGECOLOR) a l = true
  · rw [if_pos hj] at hmv
    obtain ⟨_, ha2, ha3, ha4, hl1, hl2, hl3⟩ := canjump_facts cb hwf _ a l hj
    have hl9 := (free_cell cb hwf l hl1).2.2
    have ha9 := (piece_playable cb hwf a ha2).2.2
    have hi9 := (piece_playable cb hwf i hi).2.2
    obtain ⟨c1, c2⟩ := hop_class i a l hi9 ha9 hl9 hl2 hd
    have hwf2 : wellformed (wr (wr cb a FREE) i FREE) = true := by
      apply wf_wr_free _ (wf_wr_free cb hwf a ha2)
      rw [rd_wr]
      simp only [hai, false_and, if_false]
      exact hi
    obtain ⟨m2, rest2, he, hf, hcl⟩ := king_land cb color (leg FREE (color ||| KING) i) i
      CHAINFUEL (wr (wr cb a FREE) i FREE) (leg (color ||| KING) FREE l)
      [leg FREE (rd cb a) a] l hwf2 (leg_square _ _ _ (by omega)) hl2 hl3 hl9 (Or.inl hl1) (by
        intro j
        rw [rd_wr, rd_wr]
        by_cases hij : i = j
        · exact Or.inr (Or.inl hij.symm)
        · by_cases haj : a = j
          · right; right
            exact ⟨_, List.mem_singleton_self _, by rw [leg_square _ _ _ (by omega)]; exact haj⟩
          · left
            rw [if_neg (fun h => hij h.1), if_neg (fun h => haj h.1)]) (by
        intro x hx
        rw [List.mem_singleton] at hx
        rw [hx, leg_square _ _ _ (by omega)]
        exact (class_step 0 i a l c1 c2).2) mv hmv
    refine ⟨m2, rest2, he, hf, ?_⟩
    intro x hx e
    have := hcl x hx
    rw [e] at this
    omega
  · rw [if_neg hj] at hmv
    exact absurd hmv (List.not_mem_nil _)

/-- In every move of the capture list the landing cell (the square of leg 1) is
FREE on the board or is the origin, and none of the later legs addresses it. -/
theorem capture_land (cb : Board) (color : Nat) (hwf : wellformed cb = true)
    (hc : color = BLACK ∨ color = WHITE) (mv : move2)
    (hmv : mv ∈ (generatecapturelist cb color).2) :
    ∃ m0 m1 rest, mv = m0 :: m1 :: rest ∧
      (rd cb (m1 % 256) = FREE ∨ m1 % 256 = m0 % 256) ∧ ∀ x ∈ rest, x % 256 ≠ m1 % 256 := by
  have fin : ∀ (p i : Nat), i ≤ 40 → (∃ m1 rest, mv = leg FREE p i :: m1 :: rest ∧
      (rd cb (m1 % 256) = FREE ∨ m1 % 256 = i) ∧ ∀ x ∈ rest, x % 256 ≠ m1 % 256) →
      ∃ m0 m1 rest, mv = m0 :: m1 :: rest ∧
        (rd cb (m1 % 256) = FREE ∨ m1 % 256 = m0 % 256) ∧ ∀ x ∈ rest, x % 256 ≠ m1 % 256 := by
    rintro p i hi ⟨m1, rest, he, hl, hr⟩
    exact ⟨_, m1, rest, he, by rw [leg_square _ _ _ (by omega)]; exact hl, hr⟩
  rcases hc with hc | hc <;> subst hc
  · rw [generatecapturelist_black cb hwf] at hmv
    obtain ⟨i, hi, hmem⟩ := List.mem_flatMap.1 hmv
    rw [List.mem_range'_1] at hi
    unfold blackcaps at hmem
    by_cases hb : rd cb i &&& BLACK ≠ 0
    · rw [if_pos hb] at hmem
      have hi0 : rd cb i ≠ 0 := flag_ne_zero _ _ hb
      by_cases hm : rd cb i &&& MAN ≠ 0
      · rw [if_pos hm] at hmem
        apply fin (BLACK ||| MAN) i (by omega)
        rcases List.mem_append.1 hmem with h | h
        · exact manstart_land blackmancapture cb hwf _ _ _ i _ _ hi0 (Or.inl ⟨rfl, rfl⟩)
            (fun m0 => blackman_land cb hwf m0 CHAINFUEL) mv h
        · exact manstart_land blackmancapture cb hwf _ _ _ i _ _ hi0 (Or.inr (Or.inl ⟨rfl, rfl⟩))
            (fun m0 => blackman_land cb hwf m0 CHAINFUEL) mv h
      · rw [if_neg hm] at hmem
        apply fin (BLACK ||| KING) i (by omega)
        simp only [List.mem_append] at hmem
        rcases hmem with ((h | h) | h) | h
        · exact kingstart_land BLACK cb hwf i _ _ hi0 (by omega) (Or.inl ⟨rfl, rfl⟩) mv h
        · exact kingstart_land BLACK cb hwf i _ _ hi0 (by omega)
            (Or.inr (Or.inl ⟨rfl, rfl⟩)) mv h
        · exact kingstart_land BLACK cb hwf i _ _ hi0 (by omega)
            (Or.inr (Or.inr (Or.inl ⟨rfl, rfl⟩))) mv h
        · exact kingstart_land BLACK cb hwf i _ _ hi0 (by omega)
            (Or.inr (Or.inr (Or.inr ⟨rfl, rfl⟩))) mv h
    · rw [if_neg hb] at hmem
      exact absurd hmem (List.not_mem_nil _)
  · rw [generatecapturelist_white cb hwf] at hmv
    obtain ⟨i, hi, hmem⟩ := List.mem_flatMap.1 hmv
    rw [List.mem_range'_1] at hi
    unfold whitecaps at hmem
    by_cases hb : rd cb i &&& WHITE ≠ 0
    · rw [if_pos hb] at hmem
      have hi0 : rd cb i ≠ 0 := flag_ne_zero _ _ hb
      by_cases hm : rd cb i &&& MAN ≠ 0
      · rw [if_pos hm] at hmem
        apply fin (WHITE ||| MAN) i (by omega)
        rcases List.mem_append.1 hmem with h | h
        · exact manstart_land whitemancapture cb hwf _ _ _ i _ _ hi0
            (Or.inr (Or.inr (Or.inl ⟨rfl, rfl⟩)))
            (fun m0 => whiteman_land cb hwf m0 CHAINFUEL) mv h
        · exact manstart_land whitemancapture cb hwf _ _ _ i _ _ hi0
            (Or.inr (Or.inr (Or.inr ⟨rfl, rfl⟩)))
            (fun m0 => whiteman_land cb hwf m0 CHAINFUEL) mv h
      · rw [if_neg hm] at hmem
        apply fin (WHITE ||| KING) i (by omega)
        simp only [List.mem_append] at hmem
        rcases hmem with ((h | h) | h) | h
        · exact kingstart_land WHITE cb hwf i _ _ hi0 (by omega) (Or.inl ⟨rfl, rfl⟩) mv h
        · exact kingstart_land WHITE cb hwf i _ _ hi0 (by omega)
            (Or.inr (Or.inl ⟨rfl, rfl⟩)) mv h
        · exact kingstart_land WHITE cb hwf i _ _ hi0 (by omega)
            (Or.inr (Or.inr (Or.inl ⟨rfl, rfl⟩))) mv h
        · exact kingstart_land WHITE cb hwf i _ _ hi0 (by omega)
            (Or.inr (Or.inr (Or.inr ⟨rfl, rfl⟩))) mv h
    · rw [if_neg hb] at hmem
      exact absurd hmem (List.not_mem_nil _)

/-! ## The form of a generated move and its effect on the board -/

theorem ownpiece_facts (cb : Board) (hwf : wellformed cb = true) (color : Nat)
    (hc : color = BLACK ∨ color = WHITE) (o : Nat) (h : ownpiece cb color o = true) :
    (rd cb o = color ||| MAN ∨ rd cb o = color ||| KING) ∧ rd cb o ≠ 0 ∧ rd cb o ≠ FREE ∧
    rd cb o < 256 ∧ 5 ≤ o ∧ o ≤ 40 ∧ o % 9 ≠ 0 ∧ playable (rd cb o) = true ∧
    ownpiece cb (color ^^^ CHANGECOLOR) o = false := by
  unfold ownpiece at h
  simp only [Bool.or_eq_true, beq_iff_eq] at h
  have hv : rd cb o ≠ 0 ∧ rd cb o ≠ FREE ∧ rd cb o < 256 ∧ playable (rd cb o) = true ∧
      ownpiece cb (color ^^^ CHANGECOLOR) o = false := by
    unfold ownpiece
    rcases hc with hc | hc <;> subst hc <;> rcases h with h | h <;> rw [h] <;> decide
  obtain ⟨h5, h40, h9⟩ := piece_playable cb hwf o hv.1
  exact ⟨h, hv.1, hv.2.1, hv.2.2.1, h5, h40, h9, hv.2.2.2.1, hv.2.2.2.2⟩

theorem holdsopp_facts (cb : Board) (hwf : wellformed cb = true) (color : Nat)
    (hc : color = BLACK ∨ color = WHITE) (a : Nat) (h : holdsopp cb color a = true) :
    ownpiece cb (color ^^^ CHANGECOLOR) a = true ∧ ownpiece cb color a = false ∧
    rd cb a ≠ 0 ∧ rd cb a ≠ FREE ∧ rd cb a < 256 ∧ 5 ≤ a ∧ a ≤ 40 ∧ a % 9 ≠ 0 ∧
    playable (rd cb a) = true := by
  have h2 := h
  unfold holdsopp at h2
  simp only [Bool.or_eq_true, beq_iff_eq] at h2
  have hv : ownpiece cb color a = false ∧ rd cb a ≠ 0 ∧ rd cb a ≠ FREE ∧ rd cb a < 256 ∧
      playable (rd cb a) = true := by
    unfold ownpiece
    rcases hc with hc | hc <;> subst hc <;> rcases h2 with h2 | h2 <;> rw [h2] <;> decide
  obtain ⟨h5, h40, h9⟩ := piece_playable cb hwf a hv.2.1
  exact ⟨h, hv.1, hv.2.1, hv.2.2.1, hv.2.2.2.1, h5, h40, h9, hv.2.2.2.2⟩

theorem piece_values (color p : Nat) (hc : color = BLACK ∨ color = WHITE)
    (hp : p = color ||| MAN ∨ p = color ||| KING) :
    p < 256 ∧ playable p = true ∧ p ≠ FREE ∧
    (p == (color ||| MAN) || p == (color ||| KING)) = true ∧
    (p == ((color ^^^ CHANGECOLOR) ||| MAN) || p == ((color ^^^ CHANGECOLOR) ||| KING)) = false := by
  rcases hc with hc | hc <;> subst hc <;> rcases hp with hp | hp <;> subst hp <;> decide

theorem free_values (color : Nat) (hc : color = BLACK ∨ color = WHITE) :
    (FREE == (color ||| MAN) || FREE == (color ||| KING)) = false ∧
    (FREE == ((color ^^^ CHANGECOLOR) ||| MAN) || FREE == ((color ^^^ CHANGECOLOR) ||| KING)) =
      false := by
  rcases hc with hc | hc <;> subst hc <;> decide

/-- Every quiet move has the form of a generated move without captured cells. -/
theorem quiet_form (cb : Board) (color : Nat) (hwf : wellformed cb = true)
    (hc : color = BLACK ∨ color = WHITE) (mv : move2) (hmv : mv ∈ generatemovelist cb color) :
    ∃ o l p, moveform cb color mv o l p [] := by
  obtain ⟨i, j, hv, he⟩ := generatemovelist_mem cb color hwf hc mv hmv
  obtain ⟨_, hjf, _, _, _, hj5, hj40, hj9, _⟩ := validpair_facts cb hwf color hc i j hv
  have hv2 := hv
  rw [validpair_iff] at hv2
  refine ⟨i, j, landedas cb color i j, he, ?_, ?_, hj5, hj40, hj9, List.nodup_nil,
    fun a ha => absurd ha (List.not_mem_nil _), List.not_mem_nil _, Or.inl hjf⟩
  · unfold ownpiece
    simp only [Bool.or_eq_true, beq_iff_eq]
    exact hv2.1
  · unfold landedas
    split_ifs <;> first | exact Or.inr rfl | exact hv2.1

/-- Every move of the capture list has the form of a generated move with at
least one captured cell. -/
theorem capture_form (cb : Board) (color : Nat) (hwf : wellformed cb = true)
    (hc : color = BLACK ∨ color = WHITE) (mv : move2)
    (hmv : mv ∈ (generatecapturelist cb color).2) :
    ∃ o l p caps, moveform cb color mv o l p caps ∧ caps ≠ [] := by
  obtain ⟨o, l, caps, he, hown, ho5, ho40, hl5, hl40, hl9, hne, hnd, hcaps⟩ :=
    capture_shape cb color hwf hc mv hmv
  obtain ⟨m0, m1, rest, he2, hland, hrest⟩ := capture_land cb color hwf hc mv hmv
  rw [he] at he2
  injection he2 with e0 e1
  injection e1 with e1 e2
  have hm1 : m1 % 256 = l := by rw [← e1]; exact leg_square _ _ _ (by omega)
  have hm0 : m0 % 256 = o := by rw [← e0]; exact leg_square _ _ _ (by omega)
  rw [hm1, hm0] at hland
  rw [hm1] at hrest
  obtain ⟨hov, _⟩ := ownpiece_facts cb hwf color hc o hown
  refine ⟨o, l, _, caps, ⟨he, hown, ?_, hl5, hl40, hl9, hnd, hcaps, ?_, hland⟩, hne⟩
  · split_ifs
    · exact Or.inr rfl
    · exact hov
  · intro hmem
    have h40 := (holdsopp_facts cb hwf color hc l (hcaps l hmem)).2.2.2.2.2.2.1
    apply hrest (leg FREE (rd cb l) l)
    · rw [← e2]
      unfold caplegs
      exact List.mem_map.2 ⟨l, hmem, rfl⟩
    · exact leg_square _ _ _ (by omega)

theorem legok_leg (after before sq : Nat) (hs : sentinel sq = false) (hs2 : sq ≤ 40)
    (ha : playable after = true) (hb : playable before = true) :
    legok (leg after before sq) = true := by
  have ha2 : after < 256 := by
    unfold playable at ha
    simp only [Bool.or_eq_true, beq_iff_eq] at ha
    omega
  have hb2 : before < 256 := by
    unfold playable at hb
    simp only [Bool.or_eq_true, beq_iff_eq] at hb
    omega
  unfold legok
  rw [leg_square _ _ _ (by omega), leg_after _ _ _ ha2 hb2 (by omega),
    leg_before _ _ _ hb2 (by omega), hs, ha, hb]
  rfl

theorem not_sentinel (i : Nat) (h5 : 5 ≤ i) (h40 : i ≤ 40) (h9 : i % 9 ≠ 0) :
    sentinel i = false := by
  unfold sentinel
  simp only [Bool.or_eq_false_iff, decide_eq_false_iff_not, beq_eq_false_iff_ne, ne_eq]
  omega

/-- The legs of a move of the generated form: each addresses a playable cell
below 46 with playable states, and its before-state is the content of the cell
on the board the move was generated from, or FREE. -/
theorem moveform_legs (cb : Board) (color : Nat) (hwf : wellformed cb = true)
    (hc : color = BLACK ∨ color = WHITE) (mv : move2) (o l p : Nat) (caps : List Nat)
    (h : moveform cb color mv o l p caps) :
    ∀ m ∈ mv, legok m = true ∧ m % 256 < 46 ∧
      ((m >>> 8) % 256 = rd cb (m % 256) ∨ (m >>> 8) % 256 = FREE) := by
  obtain ⟨he, hown, hp, hl5, hl40, hl9, hnd, hcaps, hlc, hland⟩ := h
  obtain ⟨_, _, _, ho256, ho5, ho40, ho9, hopl, _⟩ := ownpiece_facts cb hwf color hc o hown
  obtain ⟨hp256, hppl, _⟩ := piece_values color p hc hp
  intro m hm
  rw [he] at hm
  rcases List.mem_cons.1 hm with hm | hm
  · subst hm
    refine ⟨legok_leg _ _ _ (not_sentinel o ho5 ho40 ho9) ho40 (by decide) hopl, ?_, ?_⟩
    · rw [leg_square _ _ _ (by omega)]; omega
    · left
      rw [leg_square _ _ _ (by omega), leg_before _ _ _ ho256 (by omega)]
  · rcases List.mem_cons.1 hm with hm | hm
    · subst hm
      refine ⟨legok_leg _ _ _ (not_sentinel l hl5 hl40 hl9) hl40 hppl (by decide), ?_, ?_⟩
      · rw [leg_square _ _ _ (by omega)]; omega
      · right
        rw [leg_before _ _ _ (by decide) (by omega)]
    · unfold caplegs at hm
      obtain ⟨a, ha, rfl⟩ := List.mem_map.1 hm
      obtain ⟨_, _, _, _, ha256, ha5, ha40, ha9, hapl⟩ :=
        holdsopp_facts cb hwf color hc a (hcaps a ha)
      refine ⟨legok_leg _ _ _ (not_sentinel a ha5 ha40 ha9) ha40 (by decide) hapl, ?_, ?_⟩
      · rw [leg_square _ _ _ (by omega)]; omega
      · left
        rw [leg_square _ _ _ (by omega), leg_before _ _ _ ha256 (by omega)]

/-! ## Generated moves keep the board well formed -/

theorem wf_wr_playable (cb : Board) (h : wellformed cb = true) (a v : Nat)
    (ha : sentinel a = false) (hv : playable v = true) : wellformed (wr cb a v) = true := by
  rw [wellformed_iff] at h ⊢
  refine ⟨by rw [length_wr]; exact h.1, fun i hi => ?_⟩
  have hc := h.2 i hi
  have hr : rd (wr cb a v) i = if a = i ∧ a < cb.length then v else rd cb i := rd_wr cb a v i
  by_cases hai : a = i ∧ a < cb.length
  · rw [hr, if_pos hai]
    obtain ⟨e, _⟩ := hai
    subst e
    simp only [ha, Bool.false_eq_true, if_false]
    exact hv
  · rw [hr, if_neg hai]
    exact hc

theorem legok_facts (m : Nat) (h : legok m = true) :
    sentinel (m % 256) = false ∧ playable ((m >>> 8) % 256) = true ∧
    playable ((m >>> 16) % 256) = true := by
  unfold legok at h
  simp only [Bool.and_eq_true, Bool.not_eq_true'] at h
  exact ⟨h.1.1, h.1.2, h.2⟩

theorem wf_domove (mv : move2) (hl : ∀ m ∈ mv, legok m = true) :
    ∀ b : Board, wellformed b = true → wellformed (domove b mv) = true := by
  induction mv with
  | nil => intro b hb; exact hb
  | cons m ms ih =>
    intro b hb
    rw [domove_cons]
    obtain ⟨h1, _, h3⟩ := legok_facts m (hl m (List.mem_cons_self _ _))
    exact ih (fun x hx => hl x (List.mem_cons_of_mem _ hx)) _ (wf_wr_playable b hb _ _ h1 h3)

theorem undomove_cons (cb : Board) (m : Nat) (ms : move2) :
    undomove cb (m :: ms) = undomove (wr cb (m % 256) ((m >>> 8) % 256)) ms := rfl

theorem wf_undomove (mv : move2) (hl : ∀ m ∈ mv, legok m = true) :
    ∀ b : Board, wellformed b = true → wellformed (undomove b mv) = true := by
  induction mv with
  | nil => intro b hb; exact hb
  | cons m ms ih =>
    intro b hb
    rw [undomove_cons]
    obtain ⟨h1, h2, _⟩ := legok_facts m (hl m (List.mem_cons_self _ _))
    exact ih (fun x hx => hl x (List.mem_cons_of_mem _ hx)) _ (wf_wr_playable b hb _ _ h1 h2)

theorem countP_change (p q : Nat → Bool) (a : Nat) :
    ∀ L : List Nat, L.Nodup → (∀ i ∈ L, i ≠ a → p i = q i) →
      (a ∈ L → L.countP p + (if q a then 1 else 0) = L.countP q + (if p a then 1 else 0)) ∧
      (a ∉ L → L.countP p = L.countP q) := by
  intro L
  induction L with
  | nil => intro _ _; exact ⟨fun h => absurd h (List.not_mem_nil _), fun _ => rfl⟩
  | cons c cs ih =>
    intro hnd hag
    rw [List.nodup_cons] at hnd
    obtain ⟨ih1, ih2⟩ := ih hnd.2 (fun i hi => hag i (List.mem_cons_of_mem _ hi))
    simp only [List.countP_cons]
    by_cases hca : c = a
    · subst hca
      refine ⟨fun _ => ?_, fun h => absurd (List.mem_cons_self _ _) h⟩
      rw [ih2 hnd.1]
      omega
    · have hpq := hag c (List.mem_cons_self _ _) hca
      rw [hpq]
      refine ⟨fun h => ?_, fun h => ?_⟩
      · have := ih1 ((List.mem_cons.1 h).resolve_left (fun e => hca e.symm))
        omega
      · rw [ih2 (fun h2 => h (List.mem_cons_of_mem _ h2))]

/-- One write changes the number of pieces of a colour by what it overwrites
and what it puts. -/
theorem piececount_wr (b : Board) (c a v : Nat) (h5 : 5 ≤ a) (h40 : a ≤ 40)
    (hlen : a < b.length) :
    piececount (wr b a v) c + (if ownpiece b c a then 1 else 0) =
      piececount b c + (if (v == (c ||| MAN) || v == (c ||| KING)) then 1 else 0) := by
  have key := (countP_change (fun i => ownpiece (wr b a v) c i) (fun i => ownpiece b c i) a
    (List.range' 5 36) (List.nodup_range' 5 36) (by
      intro i _ hia
      show ownpiece (wr b a v) c i = ownpiece b c i
      unfold ownpiece
      rw [rd_wr, if_neg (fun h => hia h.1.symm)])).1 (by rw [List.mem_range'_1]; omega)
  have hpa : ownpiece (wr b a v) c a = (v == (c ||| MAN) || v == (c ||| KING)) := by
    unfold ownpiece
    rw [rd_wr, if_pos ⟨rfl, hlen⟩]
  simp only [hpa] at key
  exact key

theorem caplegs_cons (cb : Board) (a : Nat) (caps : List Nat) :
    caplegs cb (a :: caps) = leg FREE (rd cb a) a :: caplegs cb caps := rfl

/-- Clearing pairwise different cells that hold opposing pieces lowers the
opponent's count by their number and leaves the count of the moving colour. -/
theorem caplegs_counts (cb : Board) (color : Nat) (hc : color = BLACK ∨ color = WHITE) :
    ∀ (caps : List Nat) (b : Board), b.length = 46 → caps.Nodup →
      (∀ a ∈ caps, 5 ≤ a ∧ a ≤ 40 ∧ rd cb a < 256 ∧
        ownpiece b (color ^^^ CHANGECOLOR) a = true ∧ ownpiece b color a = false) →
      piececount (domove b (caplegs cb caps)) (color ^^^ CHANGECOLOR) + caps.length =
        piececount b (color ^^^ CHANGECOLOR) ∧
      piececount (domove b (caplegs cb caps)) color = piececount b color := by
  intro caps
  induction caps with
  | nil => intro b _ _ _; exact ⟨rfl, rfl⟩
  | cons a as ih =>
    intro b hlen hnd hcaps
    rw [List.nodup_cons] at hnd
    obtain ⟨h5, h40, h256, ho, hm⟩ := hcaps a (List.mem_cons_self _ _)
    rw [caplegs_cons, domove_cons, leg_square _ _ _ (by omega),
      leg_after _ _ _ (by decide) h256 (by omega)]
    obtain ⟨i1, i2⟩ := ih (wr b a FREE) (by rw [length_wr]; exact hlen) hnd.2 (by
      intro x hx
      obtain ⟨x5, x40, x256, xo, xm⟩ := hcaps x (List.mem_cons_of_mem _ hx)
      have hne : a ≠ x := fun e => hnd.1 (e ▸ hx)
      refine ⟨x5, x40, x256, ?_, ?_⟩
      · rw [← xo]
        unfold ownpiece
        rw [rd_wr, if_neg (fun h => hne h.1)]
      · rw [← xm]
        unfold ownpiece
        rw [rd_wr, if_neg (fun h => hne h.1)])
    have w1 := piececount_wr b (color ^^^ CHANGECOLOR) a FREE h5 h40 (by omega)
    have w2 := piececount_wr b color a FREE h5 h40 (by omega)
    obtain ⟨f1, f2⟩ := free_values color hc
    rw [ho, f2] at w1
    rw [hm, f1] at w2
    simp only [if_true, Bool.false_eq_true, if_false] at w1 w2
    rw [List.length_cons]
    constructor
    · omega
    · omega

theorem moveform_domove (cb : Board) (color : Nat) (hwf : wellformed cb = true)
    (hc : color = BLACK ∨ color = WHITE) (mv : move2) (o l p : Nat) (caps : List Nat)
    (h : moveform cb color mv o l p caps) (b : Board) :
    domove b mv = domove (wr (wr b o FREE) l p) (caplegs cb caps) := by
  obtain ⟨he, hown, hp, hl5, hl40, hl9, hnd, hcaps, hlc, hland⟩ := h
  obtain ⟨_, _, _, ho256, ho5, ho40, _⟩ := ownpiece_facts cb hwf color hc o hown
  obtain ⟨hp256, _⟩ := piece_values color p hc hp
  rw [he, domove_cons, domove_cons, leg_square _ _ _ (by omega),
    leg_after _ _ _ (by decide) ho256 (by omega), leg_square _ _ _ (by omega),
    leg_after _ _ _ hp256 (by decide) (by omega)]

/-- Counts after a move of the generated form on the board it was generated
from: the moving colour keeps its number of pieces, the opponent loses one
piece per captured cell. -/
theorem moveform_counts (cb : Board) (color : Nat) (hwf : wellformed cb = true)
    (hc : color = BLACK ∨ color = WHITE) (mv : move2) (o l p : Nat) (caps : List Nat)
    (h : moveform cb color mv o l p caps) :
    piececount (domove cb mv) (color ^^^ CHANGECOLOR) + caps.length =
      piececount cb (color ^^^ CHANGECOLOR) ∧
    piececount (domove cb mv) color = piececount cb color := by
  have hdo := moveform_domove cb color hwf hc mv o l p caps h cb
  obtain ⟨he, hown, hp, hl5, hl40, hl9, hnd, hcaps, hlc, hland⟩ := h
  obtain ⟨_, _, _, ho256, ho5, ho40, _, _, hoo⟩ := ownpiece_facts cb hwf color hc o hown
  obtain ⟨hp256, _, _, hpc, hpo⟩ := piece_values color p hc hp
  obtain ⟨f1, f2⟩ := free_values color hc
  have hlen := wf_length cb hwf
  have hl1 : rd (wr cb o FREE) l = FREE := by
    rw [rd_wr]
    split_ifs with e
    · rfl
    · rcases hland with hf | hf
      · exact hf
      · exact absurd ⟨hf.symm, by omega⟩ e
  have own1 : ∀ c, (FREE == (c ||| MAN) || FREE == (c ||| KING)) = false →
      ownpiece (wr cb o FREE) c l = false := by
    intro c hcf
    unfold ownpiece
    rw [hl1]
    exact hcf
  have a1 := piececount_wr cb color o FREE ho5 ho40 (by omega)
  have a2 := piececount_wr cb (color ^^^ CHANGECOLOR) o FREE ho5 ho40 (by omega)
  have b1 := piececount_wr (wr cb o FREE) color l p hl5 hl40 (by rw [length_wr]; omega)
  have b2 := piececount_wr (wr cb o FREE) (color ^^^ CHANGECOLOR) l p hl5 hl40
    (by rw [length_wr]; omega)
  rw [hown, f1] at a1
  rw [hoo, f2] at a2
  rw [own1 color f1, hpc] at b1
  rw [own1 _ f2, hpo] at b2
  simp only [if_true, Bool.false_eq_true, if_false] at a1 a2 b1 b2
  obtain ⟨c1, c2⟩ := caplegs_counts cb color hc caps (wr (wr cb o FREE) l p)
    (by rw [length_wr, length_wr]; exact hlen) hnd (by
      intro a ha
      obtain ⟨q1, q2, _, _, q5, q6, q7, _, _⟩ := holdsopp_facts cb hwf color hc a (hcaps a ha)
      have hal : l ≠ a := fun e => hlc (e ▸ ha)
      have hao : o ≠ a := by
        intro e
        rw [e, q2] at hown
        exact Bool.noConfusion hown
      have hr : rd (wr (wr cb o FREE) l p) a = rd cb a := by
        rw [rd_wr, if_neg (fun h => hal h.1), rd_wr, if_neg (fun h => hao h.1)]
      refine ⟨q6, q7, q5, ?_, ?_⟩
      · rw [← q1]
        unfold ownpiece
        rw [hr]
      · rw [← q2]
        unfold ownpiece
        rw [hr])
  rw [hdo]
  constructor
  · omega
  · omega

/-- After a move of the generated form, played on any board of 46 cells, the
landing cell holds the piece of the moving colour. -/
theorem moveform_landing (cb : Board) (color : Nat) (hwf : wellformed cb = true)
    (hc : color = BLACK ∨ color = WHITE) (mv : move2) (o l p : Nat) (caps : List Nat)
    (h : moveform cb color mv o l p caps) (b : Board) (hb : b.length = 46) :
    rd (domove b mv) l = p ∧ 1 ≤ piececount (domove b mv) color := by
  have hdo := moveform_domove cb color hwf hc mv o l p caps h b
  obtain ⟨he, hown, hp, hl5, hl40, hl9, hnd, hcaps, hlc, hland⟩ := h
  obtain ⟨_, _, _, hpc, _⟩ := piece_values color p hc hp
  have hr : rd (domove b mv) l = p := by
    rw [hdo, domove_untouched]
    · rw [rd_wr, if_pos ⟨rfl, by rw [length_wr]; omega⟩]
    · intro x hx e
      unfold caplegs at hx
      obtain ⟨a, ha, rfl⟩ := List.mem_map.1 hx
      have h40 := (holdsopp_facts cb hwf color hc a (hcaps a ha)).2.2.2.2.2.2.1
      rw [leg_square _ _ _ (by omega)] at e
      exact hlc (e ▸ ha)
  refine ⟨hr, ?_⟩
  unfold piececount
  apply List.countP_pos_iff.2
  refine ⟨l, by rw [List.mem_range'_1]; omega, ?_⟩
  unfold ownpiece
  rw [hr]
  exact hpc

theorem below_refl (b : Board) : below b b := fun _ => Or.inl rfl

theorem below_trans (a b c : Board) (h1 : below a b) (h2 : below b c) : below a c := by
  intro j
  rcases h1 j with h | h
  · rw [h]; exact h2 j
  · exact Or.inr h

theorem below_domove (mv : move2) : ∀ b b2 : Board, b.length = b2.length → below b b2 →
    below (domove b mv) (domove b2 mv) := by
  induction mv with
  | nil => intro b b2 _ h; exact h
  | cons m ms ih =>
    intro b b2 hl h
    rw [domove_cons, domove_cons]
    apply ih
    · rw [length_wr, length_wr, hl]
    · intro j
      rw [rd_wr, rd_wr, hl]
      split_ifs
      · exact Or.inl rfl
      · exact h j

theorem below_count (b b2 : Board) (h : below b b2) (c : Nat) (hc : c = BLACK ∨ c = WHITE) :
    piececount b c ≤ piececount b2 c := by
  unfold piececount
  apply List.countP_mono_left
  intro i _ hi
  rcases h i with e | e
  · unfold ownpiece at hi ⊢
    rw [← e]
    exact hi
  · unfold ownpiece at hi
    rw [e] at hi
    rw [(free_values c hc).1] at hi
    exact Bool.noConfusion hi

/-- Undoing a move whose before-states are those of `s0` (or FREE) gives a
board below `s0`, when the cells the move does not address are below `s0`. -/
theorem undomove_below (s0 : Board) (mv : move2) :
    (∀ m ∈ mv, m % 256 < 46 ∧
      ((m >>> 8) % 256 = rd s0 (m % 256) ∨ (m >>> 8) % 256 = FREE)) →
    ∀ b : Board, b.length = 46 →
      (∀ j, rd b j = rd s0 j ∨ rd b j = FREE ∨ ∃ m ∈ mv, m % 256 = j) →
      below (undomove b mv) s0 := by
  induction mv with
  | nil =>
    intro _ b _ h j
    rcases h j with e | e | ⟨m, hm, _⟩
    · exact Or.inl e
    · exact Or.inr e
    · exact absurd hm (List.not_mem_nil _)
  | cons m ms ih =>
    intro hlegs b hlen h
    rw [undomove_cons]
    apply ih (fun x hx => hlegs x (List.mem_cons_of_mem _ hx)) _ (by rw [length_wr]; exact hlen)
    intro j
    obtain ⟨hsq, hbef⟩ := hlegs m (List.mem_cons_self _ _)
    rw [rd_wr]
    by_cases hj : m % 256 = j
    · rw [if_pos ⟨hj, by omega⟩]
      rcases hbef with e | e
      · exact Or.inl (by rw [e, hj])
      · exact Or.inr (Or.inl e)
    · rw [if_neg (fun e => hj e.1)]
      rcases h j with e | e | ⟨x, hx, hxj⟩
      · exact Or.inl e
      · exact Or.inr (Or.inl e)
      · rcases List.mem_cons.1 hx with e | e
        · exact absurd (e ▸ hxj) hj
        · exact Or.inr (Or.inr ⟨x, e, hxj⟩)

theorem changecolor_cases (color : Nat) (hc : color = BLACK ∨ color = WHITE) :
    (color = BLACK ∧ color ^^^ CHANGECOLOR = WHITE) ∨
    (color = WHITE ∧ color ^^^ CHANGECOLOR = BLACK) := by
  rcases hc with hc | hc <;> subst hc
  · exact Or.inl ⟨rfl, rfl⟩
  · exact Or.inr ⟨rfl, rfl⟩

/-- A move of the generated form that clears at least `k` cells is good for the
search. -/
theorem goodmove_of_form (s0 : Board) (color : Nat) (hwf : wellformed s0 = true)
    (hc : color = BLACK ∨ color = WHITE) (mv : move2) (o l p : Nat) (caps : List Nat)
    (h : moveform s0 color mv o l p caps) (k : Nat) (hk : k ≤ caps.length) :
    goodmove s0 k mv := by
  have hlegs := moveform_legs s0 color hwf hc mv o l p caps h
  obtain ⟨c1, c2⟩ := moveform_counts s0 color hwf hc mv o l p caps h
  refine ⟨hlegs, ?_⟩
  intro b hb hbel
  have hlen : b.length = s0.length := by rw [wf_length b hb, wf_length s0 hwf]
  have hbd := below_domove mv b s0 hlen hbel
  have hB := below_count _ _ hbd BLACK (Or.inl rfl)
  have hW := below_count _ _ hbd WHITE (Or.inr rfl)
  have hland := (moveform_landing s0 color hwf hc mv o l p caps h b (wf_length b hb)).2
  unfold pieces
  rcases changecolor_cases color hc with ⟨e1, e2⟩ | ⟨e1, e2⟩
  · rw [e2] at c1
    rw [e1] at c2 hland
    omega
  · rw [e2] at c1
    rw [e1] at c2 hland
    omega

theorem goodmove_quiet (s0 : Board) (color : Nat) (hwf : wellformed s0 = true)
    (hc : color = BLACK ∨ color = WHITE) :
    ∀ mv ∈ generatemovelist s0 color, goodmove s0 0 mv := by
  intro mv hmv
  obtain ⟨o, l, p, hf⟩ := quiet_form s0 color hwf hc mv hmv
  exact goodmove_of_form s0 color hwf hc mv o l p [] hf 0 (Nat.zero_le _)

theorem goodmove_capture (s0 : Board) (color : Nat) (hwf : wellformed s0 = true)
    (hc : color = BLACK ∨ color = WHITE) :
    ∀ mv ∈ (generatecapturelist s0 color).2, goodmove s0 1 mv := by
  intro mv hmv
  obtain ⟨o, l, p, caps, hf, hne⟩ := capture_form s0 color hwf hc mv hmv
  exact goodmove_of_form s0 color hwf hc mv o l p caps hf 1 (List.length_pos.2 hne)

theorem meets_mono {α : Type} (P Q : α → Prop) (nf nf2 dz dz2 : Prop) (o : Outcome α)
    (hP : ∀ a, P a → Q a) (hnf : nf → nf2) (hdz : dz → dz2) (h : o.meets P nf dz) :
    o.meets Q nf2 dz2 := by
  cases o with
  | ok a => exact hP a h
  | nofuel => exact hnf h
  | divzero => exact hdz h

/-- With at least one piece and at most 12 pieces of each colour, `evaluation`
does not divide by zero. -/
theorem evaluation_defined (cb : Board) (color : Nat) (hwf : wellformed cb = true)
    (h1 : 1 ≤ pieces cb) (h12 : twelve cb) : evaluation cb color ≠ none := by
  obtain ⟨e1, e2⟩ := decoded_totals cb hwf h12.1 h12.2
  unfold pieces at h1
  have hpos := material_pos cb (by omega)
  rw [evaluation_terms, if_neg hpos]
  exact Option.some_ne_none _

/-- What a move and its undoing do to the invariants of the search. -/
theorem goodmove_step (s0 : Board) (k : Nat) (mv : move2) (hg : goodmove s0 k mv)
    (b : Board) (hb : wellformed b = true) (hbel : below b s0) :
    wellformed (domove b mv) = true ∧ pieces (domove b mv) + k ≤ pieces s0 ∧
    (twelve s0 → 1 ≤ pieces (domove b mv) ∧ twelve (domove b mv)) ∧
    ∀ b1 : Board, wellformed b1 = true → below b1 (domove b mv) →
      wellformed (undomove b1 mv) = true ∧ below (undomove b1 mv) s0 := by
  obtain ⟨hlegs, heff⟩ := hg
  obtain ⟨e1, e2, e3, e4⟩ := heff b hb hbel
  have hok : ∀ m ∈ mv, legok m = true := fun m hm => (hlegs m hm).1
  refine ⟨wf_domove mv hok b hb, e1, fun h12 => ⟨e2, by unfold twelve at h12 ⊢; omega⟩, ?_⟩
  intro b1 hb1 hbel1
  refine ⟨wf_undomove mv hok b1 hb1, ?_⟩
  apply undomove_below s0 mv (fun m hm => (hlegs m hm).2) b1 (wf_length b1 hb1)
  intro j
  by_cases hj : ∃ m ∈ mv, m % 256 = j
  · exact Or.inr (Or.inr hj)
  · have hun : rd (domove b mv) j = rd b j := by
      apply domove_untouched
      intro x hx e
      exact hj ⟨x, hx, e⟩
    rcases hbel1 j with e | e
    · rw [e, hun]
      rcases hbel j with e2 | e2
      · exact Or.inl e2
      · exact Or.inr (Or.inl e2)
    · exact Or.inr (Or.inl e)

/-! ## The search ends and never divides by zero on a board in play -/

theorem abloop_meets (self : Int → Int → State → Outcome (Int × State)) (color : Nat)
    (s0 : Board) (k : Nat) (nf : Prop)
    (hself : ∀ (a b : Int) (t : State), wellformed t.cboard = true →
      pieces t.cboard + k ≤ pieces s0 →
      (self a b t).meets (fun r => wellformed r.2.cboard = true ∧ below r.2.cboard t.cboard)
        nf (¬ (1 ≤ pieces t.cboard ∧ twelve t.cboard))) :
    ∀ (ms : List move2), (∀ mv ∈ ms, goodmove s0 k mv) →
      ∀ (alpha beta : Int) (s : State), wellformed s.cboard = true → below s.cboard s0 →
        (abloop self color ms alpha beta s).meets
          (fun r => wellformed r.2.cboard = true ∧ below r.2.cboard s0) nf (¬ twelve s0) := by
  intro ms
  induction ms with
  | nil =>
    intro _ alpha beta s hwf hbel
    exact ⟨hwf, hbel⟩
  | cons mv rest ih =>
    intro hms alpha beta s hwf hbel
    obtain ⟨g1, g2, g3, g4⟩ := goodmove_step s0 k mv (hms mv (List.mem_cons_self _ _))
      s.cboard hwf hbel
    have hcall := hself alpha beta (s.setboard (domove s.cboard mv)) g1 g2
    have ihr := ih (fun x hx => hms x (List.mem_cons_of_mem _ hx))
    unfold abloop
    split
    · rename_i v s1 heq
      rw [heq] at hcall
      obtain ⟨u1, u2⟩ := g4 s1.cboard hcall.1 hcall.2
      simp only []
      split_ifs <;> first | exact ⟨u1, u2⟩ | exact ihr _ _ _ u1 u2
    · rename_i heq
      rw [heq] at hcall
      exact hcall
    · rename_i heq
      rw [heq] at hcall
      intro h12
      exact hcall (g3 h12)

theorem firstloop_meets (self : Int → Int → State → Outcome (Int × State)) (color : Nat)
    (s0 : Board) (k : Nat) (nf : Prop)
    (hself : ∀ (a b : Int) (t : State), wellformed t.cboard = true →
      pieces t.cboard + k ≤ pieces s0 →
      (self a b t).meets (fun r => wellformed r.2.cboard = true ∧ below r.2.cboard t.cboard)
        nf (¬ (1 ≤ pieces t.cboard ∧ twelve t.cboard))) :
    ∀ (ms : List move2), (∀ mv ∈ ms, goodmove s0 k mv) →
      ∀ (alpha beta : Int) (best : move2) (s : State), wellformed s.cboard = true →
        below s.cboard s0 →
        (firstloop self color ms alpha beta best s).meets
          (fun r => wellformed r.2.2.cboard = true ∧ below r.2.2.cboard s0) nf (¬ twelve s0) := by
  intro ms
  induction ms with
  | nil =>
    intro _ alpha beta best s hwf hbel
    exact ⟨hwf, hbel⟩
  | cons mv rest ih =>
    intro hms alpha beta best s hwf hbel
    obtain ⟨g1, g2, g3, g4⟩ := goodmove_step s0 k mv (hms mv (List.mem_cons_self _ _))
      s.cboard hwf hbel
    have ihr := ih (fun x hx => hms x (List.mem_cons_of_mem _ hx))
    unfold firstloop
    simp only []
    split_ifs with hkey
    · exact ⟨hwf, hbel⟩
    · have hcall := hself alpha beta
        (State.setboard { s with keys := s.keys.tail, trace := s.trace ++ [Call.getcsc] }
          (domove s.cboard mv)) g1 g2
      split
      · rename_i v s1 heq
        rw [heq] at hcall
        obtain ⟨u1, u2⟩ := g4 s1.cboard hcall.1 hcall.2
        split_ifs <;> first | exact ⟨u1, u2⟩ | exact ihr _ _ _ _ u1 u2
      · rename_i heq
        rw [heq] at hcall
        exact hcall
      · rename_i heq
        rw [heq] at hcall
        intro h12
        exact hcall (g3 h12)

/-- One node of the search: when the recursive calls `R` end within the fuel
`F`, the node ends within the fuel `F` as well; it returns a well-formed board
below the one it was given, and divides by zero only on a board without pieces
or with more than 12 pieces of a colour. -/
theorem abnode_meets (R : Nat → Int → Int → Nat → State → Outcome (Int × State)) (F : Nat)
    (hR : ∀ (d : Nat) (a b : Int) (c : Nat) (t : State), (c = BLACK ∨ c = WHITE) →
      wellformed t.cboard = true →
      (R d a b c t).meets (fun r => wellformed r.2.cboard = true ∧ below r.2.cboard t.cboard)
        (F ≤ d + pieces t.cboard) (¬ (1 ≤ pieces t.cboard ∧ twelve t.cboard)))
    (depth : Nat) (alpha beta : Int) (color : Nat) (s : State)
    (hc : color = BLACK ∨ color = WHITE) (hwf : wellformed s.cboard = true) :
    (abnode R depth alpha beta color s).meets
      (fun r => wellformed r.2.cboard = true ∧ below r.2.cboard s.cboard)
      (F < depth + pieces s.cboard) (¬ (1 ≤ pieces s.cboard ∧ twelve s.cboard)) := by
  have hopp : color ^^^ CHANGECOLOR = BLACK ∨ color ^^^ CHANGECOLOR = WHITE := by
    rcases changecolor_cases color hc with ⟨_, e⟩ | ⟨_, e⟩
    · exact Or.inr e
    · exact Or.inl e
  unfold abnode
  simp only []
  split_ifs with hplay
  · exact ⟨hwf, below_refl _⟩
  · unfold prelude
    simp only []
    by_cases hleaf : depth = 0 ∧ testcapture (s.log Call.alphabeta).cboard color = 0
    · rw [if_pos hleaf]
      simp only []
      cases hev : evaluation ((s.log Call.alphabeta).log Call.testcapture).cboard color with
      | none =>
        simp only []
        intro hin
        exact evaluation_defined s.cboard color hwf hin.1 hin.2 hev
      | some v =>
        simp only []
        exact ⟨hwf, below_refl _⟩
    · rw [if_neg hleaf]
      by_cases hcap : testcapture (s.log Call.alphabeta).cboard color = 0
      · rw [if_pos hcap]
        have hd : depth ≠ 0 := fun h => hleaf ⟨h, hcap⟩
        by_cases hlen : (generatemovelist
            ((s.log Call.alphabeta).log Call.testcapture).cboard color).length = 0
        · rw [if_pos hlen]
          exact ⟨hwf, below_refl _⟩
        · rw [if_neg hlen]
          simp only []
          refine meets_mono _ _ _ _ _ _ _ (fun a h => h) (fun h => h) (fun h hin => h hin.2)
            (abloop_meets _ color s.cboard 0 (F < depth + pieces s.cboard) ?_ _
              (goodmove_quiet s.cboard color hwf hc) alpha beta _ hwf (below_refl _))
          intro a b t ht hpt
          refine meets_mono _ _ _ _ _ _ _ (fun a h => h) ?_ (fun h => h)
            (hR _ a b _ t hopp ht)
          intro hF
          rw [if_neg hd] at hF
          omega
      · rw [if_neg hcap]
        simp only []
        have hbd : (generatecapturelist s.cboard color).1 = s.cboard :=
          generatecapturelist_board s.cboard hwf color hc
        refine meets_mono _ _ _ _ _ _ _ (fun a h => h) (fun h => h) (fun h hin => h hin.2)
          (abloop_meets _ color s.cboard 1 (F < depth + pieces s.cboard) ?_ _
            (goodmove_capture s.cboard color hwf hc) alpha beta _
            (by
              show wellformed (generatecapturelist s.cboard color).1 = true
              rw [hbd]
              exact hwf) (by
              show below (generatecapturelist s.cboard color).1 s.cboard
              rw [hbd]
              exact below_refl _))
        intro a b t ht hpt
        refine meets_mono _ _ _ _ _ _ _ (fun a h => h) ?_ (fun h => h)
          (hR _ a b _ t hopp ht)
        intro hF
        split_ifs at hF <;> omega

/-- The invariants of `alphabeta`: it runs out of fuel only when the fuel is
below `depth + pieces`, it divides by zero only on a board without pieces or
with more than 12 pieces of a colour, and the board it returns is well formed
and below the board it was given. -/
theorem alphabeta_meets : ∀ (fuel depth : Nat) (alpha beta : Int) (color : Nat) (s : State),
    (color = BLACK ∨ color = WHITE) → wellformed s.cboard = true →
    (alphabeta fuel depth alpha beta color s).meets
      (fun r => wellformed r.2.cboard = true ∧ below r.2.cboard s.cboard)
      (fuel < depth + pieces s.cboard) (¬ (1 ≤ pieces s.cboard ∧ twelve s.cboard)) := by
  intro fuel
  induction fuel with
  | zero =>
    intro depth alpha beta color s hc hwf
    exact abnode_meets _ 0 (fun d a b c t _ _ => Nat.zero_le _) depth alpha beta color s hc hwf
  | succ f ih =>
    intro depth alpha beta color s hc hwf
    exact abnode_meets (alphabeta f) (f + 1) (fun d a b c t hc2 ht =>
      meets_mono _ _ _ _ _ _ _ (fun a h => h) (fun h => h) (fun h => h) (ih d a b c t hc2 ht))
      depth alpha beta color s hc hwf

theorem firstalphabeta_meets (fuel depth : Nat) (alpha beta : Int) (color : Nat) (best : move2)
    (s : State) (hc : color = BLACK ∨ color = WHITE) (hwf : wellformed s.cboard = true)
    (hd : depth ≠ 0) :
    (firstalphabeta fuel depth alpha beta color best s).meets
      (fun r => wellformed r.2.2.cboard = true ∧ below r.2.2.cboard s.cboard)
      (fuel + 1 < depth + pieces s.cboard) (¬ twelve s.cboard) := by
  have hopp : color ^^^ CHANGECOLOR = BLACK ∨ color ^^^ CHANGECOLOR = WHITE := by
    rcases changecolor_cases color hc with ⟨_, e⟩ | ⟨_, e⟩
    · exact Or.inr e
    · exact Or.inl e
  have hleaf : ∀ c : Nat, ¬ (depth = 0 ∧ c = 0) := fun c h => hd h.1
  unfold firstalphabeta
  simp only []
  split_ifs with hplay
  · exact ⟨hwf, below_refl _⟩
  · unfold prelude
    simp only []
    rw [if_neg (hleaf _)]
    by_cases hcap : testcapture (s.log Call.firstalphabeta).cboard color = 0
    · rw [if_pos hcap]
      by_cases hlen : (generatemovelist
          ((s.log Call.firstalphabeta).log Call.testcapture).cboard color).length = 0
      · rw [if_pos hlen]
        exact ⟨hwf, below_refl _⟩
      · rw [if_neg hlen]
        simp only []
        refine firstloop_meets _ color s.cboard 0 _ ?_ _
          (goodmove_quiet s.cboard color hwf hc) alpha beta best _ hwf (below_refl _)
        intro a b t ht hpt
        refine meets_mono _ _ _ _ _ _ _ (fun a h => h) ?_ (fun h => h)
          (alphabeta_meets fuel _ a b _ t hopp ht)
        intro hF
        rw [if_neg hd] at hF
        omega
    · rw [if_neg hcap]
      simp only []
      have hbd : (generatecapturelist s.cboard color).1 = s.cboard :=
        generatecapturelist_board s.cboard hwf color hc
      refine firstloop_meets _ color s.cboard 1 _ ?_ _
        (goodmove_capture s.cboard color hwf hc) alpha beta best _
        (by
          show wellformed (generatecapturelist s.cboard color).1 = true
          rw [hbd]
          exact hwf) (by
          show below (generatecapturelist s.cboard color).1 s.cboard
          rw [hbd]
          exact below_refl _)
      intro a b t ht hpt
      refine meets_mono _ _ _ _ _ _ _ (fun a h => h) ?_ (fun h => h)
        (alphabeta_meets fuel _ a b _ t hopp ht)
      intro hF
      rw [if_neg hd] at hF
      omega

theorem checkers_meets (fuel : Nat) (best : move2) (color : Nat) (s : State)
    (hc : color = BLACK ∨ color = WHITE) (hwf : wellformed s.cboard = true) :
    (checkers fuel best color s).meets (fun _ => True) (fuel < pieces s.cboard)
      (¬ twelve s.cboard) := by
  have hbd : (generatecapturelist s.cboard color).1 = s.cboard :=
    generatecapturelist_board s.cboard hwf color hc
  have hgo : ∀ t : State, t.cboard = s.cboard →
      (match firstalphabeta fuel 1 (-10000) 10000 color best t with
        | Outcome.ok (eval, b, s1) => Outcome.ok (eval, s1.setboard (domove s1.cboard b))
        | Outcome.nofuel => Outcome.nofuel
        | Outcome.divzero => Outcome.divzero).meets (fun _ => True) (fuel < pieces s.cboard)
        (¬ twelve s.cboard) := by
    intro t ht
    have h := firstalphabeta_meets fuel 1 (-10000) 10000 color best t hc (by rw [ht]; exact hwf)
      (by decide)
    rw [ht] at h
    split
    · trivial
    · rename_i heq
      rw [heq] at h
      have h2 : fuel + 1 < 1 + pieces s.cboard := h
      show fuel < pieces s.cboard
      omega
    · rename_i heq
      rw [heq] at h
      exact h
  unfold checkers
  simp only []
  split_ifs
  · trivial
  · trivial
  · trivial
  · exact hgo _ hbd
  · exact hgo _ hbd

theorem material_positive (cb : Board) (hwf : wellformed cb = true) (h1 : 1 ≤ pieces cb)
    (hb : piececount cb BLACK ≤ 12) (hw : piececount cb WHITE ≤ 12) :
    0 < blackmaterial cb + whitematerial cb := by
  obtain ⟨e1, e2⟩ := decoded_totals cb hwf hb hw
  unfold pieces at h1
  unfold blackmaterial whitematerial
  omega

/-- C31: on a well-formed board `alphabeta(depth, alpha, beta, colour)` ends
after a nesting of at most `depth + pieces` recursive calls, where `pieces` is
the number of pieces on the board: with that much fuel it never runs out of
fuel.  It then returns a value, unless `evaluation` divides by zero, which
happens only on a board without pieces or with more than 12 pieces of a colour.
The measure behind it: every move of the capture list lowers the number of
pieces, no quiet move raises it. -/
theorem alphabeta_terminates (fuel depth : Nat) (alpha beta : Int) (color : Nat) (s : State)
    (hwf : wellformed s.cboard = true) (hc : color = BLACK ∨ color = WHITE)
    (hfuel : depth + pieces s.cboard ≤ fuel) :
    alphabeta fuel depth alpha beta color s ≠ Outcome.nofuel ∧
    (1 ≤ pieces s.cboard → piececount s.cboard BLACK ≤ 12 → piececount s.cboard WHITE ≤ 12 →
      ∃ v t, alphabeta fuel depth alpha beta color s = Outcome.ok (v, t) ∧
        wellformed t.cboard = true) ∧
    (alphabeta fuel depth alpha beta color s = Outcome.divzero →
      pieces s.cboard = 0 ∨ 12 < piececount s.cboard BLACK ∨ 12 < piececount s.cboard WHITE) ∧
    (∀ mv ∈ (generatecapturelist s.cboard color).2,
      pieces (domove s.cboard mv) < pieces s.cboard) ∧
    (∀ mv ∈ generatemovelist s.cboard color,
      pieces (domove s.cboard mv) ≤ pieces s.cboard) := by
  have h := alphabeta_meets fuel depth alpha beta color s hc hwf
  refine ⟨?_, ?_, ?_, ?_, ?_⟩
  · intro e
    rw [e] at h
    have h2 : fuel < depth + pieces s.cboard := h
    omega
  · intro h1 hb hw
    cases hr : alphabeta fuel depth alpha beta color s with
    | ok r =>
      rw [hr] at h
      exact ⟨r.1, r.2, rfl, h.1⟩
    | nofuel =>
      rw [hr] at h
      have h2 : fuel < depth + pieces s.cboard := h
      omega
    | divzero =>
      rw [hr] at h
      exact absurd ⟨h1, hb, hw⟩ h
  · intro e
    rw [e] at h
    have h2 : ¬ (1 ≤ pieces s.cboard ∧ twelve s.cboard) := h
    unfold twelve at h2
    by_contra hn
    apply h2
    omega
  · intro mv hmv
    have := ((goodmove_capture s.cboard color hwf hc mv hmv).2 s.cboard hwf (below_refl _)).1
    omega
  · intro mv hmv
    have := ((goodmove_quiet s.cboard color hwf hc mv hmv).2 s.cboard hwf (below_refl _)).1
    omega

/-- C35: on a well-formed board with at most 12 pieces of each colour, a run of
`checkers(colour)` never reaches the division by zero of `evaluation`, whatever
the fuel, the pending keys and the content of `best`; with fuel for `pieces`
nested calls it returns.  Every board handed to the search below the entry
point is a board after `domove` of a generated move, which holds the piece just
moved and at most 12 pieces of each colour, and on such a board the divisor
`v1 + v2` is strictly positive. -/
theorem checkers_divisor_positive (fuel : Nat) (best : move2) (color : Nat) (s : State)
    (hwf : wellformed s.cboard = true) (hc : color = BLACK ∨ color = WHITE)
    (hb : piececount s.cboard BLACK ≤ 12) (hw : piececount s.cboard WHITE ≤ 12) :
    checkers fuel best color s ≠ Outcome.divzero ∧
    (pieces s.cboard ≤ fuel → ∃ r, checkers fuel best color s = Outcome.ok r) ∧
    (∀ mv, mv ∈ generatemovelist s.cboard color ∨ mv ∈ (generatecapturelist s.cboard color).2 →
      ∀ b : Board, wellformed b = true → below b s.cboard →
        wellformed (domove b mv) = true ∧ 1 ≤ pieces (domove b mv) ∧
        piececount (domove b mv) BLACK ≤ 12 ∧ piececount (domove b mv) WHITE ≤ 12) ∧
    (∀ b : Board, wellformed b = true → 1 ≤ pieces b → piececount b BLACK ≤ 12 →
      piececount b WHITE ≤ 12 →
      0 < blackmaterial b + whitematerial b ∧ ∀ c, evaluation b c ≠ none) := by
  have h := checkers_meets fuel best color s hc hwf
  refine ⟨?_, ?_, ?_, ?_⟩
  · intro e
    rw [e] at h
    exact h ⟨hb, hw⟩
  · intro hf
    cases hr : checkers fuel best color s with
    | ok r => exact ⟨r, rfl⟩
    | nofuel =>
      rw [hr] at h
      have h2 : fuel < pieces s.cboard := h
      omega
    | divzero =>
      rw [hr] at h
      exact absurd ⟨hb, hw⟩ h
  · intro mv hmv b hbwf hbel
    have hg : goodmove s.cboard 0 mv := by
      rcases hmv with hq | hcp
      · exact goodmove_quiet s.cboard color hwf hc mv hq
      · obtain ⟨o, l, p, caps, hf, _⟩ := capture_form s.cboard color hwf hc mv hcp
        exact goodmove_of_form s.cboard color hwf hc mv o l p caps hf 0 (Nat.zero_le _)
    obtain ⟨g1, _, g3, _⟩ := goodmove_step s.cboard 0 mv hg b hbwf hbel
    obtain ⟨g5, g6⟩ := g3 ⟨hb, hw⟩
    exact ⟨g1, g5, g6.1, g6.2⟩
  · intro b hbwf h1 hb2 hw2
    exact ⟨material_positive b hbwf h1 hb2 hw2,
      fun c => evaluation_defined b c hbwf h1 ⟨hb2, hw2⟩⟩

/-! ## Instances of the theorems on piece counts, generated moves and the search -/

theorem alphabeta_terminates_witness :
    wellformed (State.mk startboard 0 [] []).cboard = true ∧ (BLACK = BLACK ∨ BLACK = WHITE) ∧
    2 + pieces (State.mk startboard 0 [] []).cboard ≤ 26 ∧
    alphabeta 26 2 (-10000) 10000 BLACK (State.mk startboard 0 [] []) ≠ Outcome.nofuel :=
  ⟨by decide!, Or.inl rfl, by decide!,
    (alphabeta_terminates 26 2 (-10000) 10000 BLACK (State.mk startboard 0 [] [])
      (by decide!) (Or.inl rfl) (by decide!)).1⟩

theorem generatemovelist_length_witness :
    wellformed trapboard = true ∧ (BLACK = BLACK ∨ BLACK = WHITE) ∧
    (generatemovelist trapboard BLACK).length ≤ 49 ∧
    (generatemovelist trapboard BLACK).length < MAXMOVES :=
  ⟨by decide!, Or.inl rfl,
    (generatemovelist_length trapboard BLACK (by decide!) (Or.inl rfl)).1,
    (generatemovelist_length trapboard BLACK (by decide!) (Or.inl rfl)).2.1⟩

theorem checkers_divisor_positive_witness :
    wellformed (State.mk startboard 0 [] []).cboard = true ∧ (BLACK = BLACK ∨ BLACK = WHITE) ∧
    piececount (State.mk startboard 0 [] []).cboard BLACK ≤ 12 ∧
    piececount (State.mk startboard 0 [] []).cboard WHITE ≤ 12 ∧
    checkers 24 [] BLACK (State.mk startboard 0 [] []) ≠ Outcome.divzero :=
  ⟨by decide!, Or.inl rfl, by decide!, by decide!,
    (checkers_divisor_positive 24 [] BLACK (State.mk startboard 0 [] []) (by decide!)
      (Or.inl rfl) (by decide!) (by decide!)).1⟩

theorem material_decoding_witness :
    wellformed tenboard = true ∧
    kindcount tenboard (WHITE ||| MAN) ≤ 15 ∧ kindcount tenboard (WHITE ||| KING) ≤ 15 ∧
    kindcount tenboard (BLACK ||| MAN) ≤ 15 ∧ kindcount tenboard (BLACK ||| KING) ≤ 15 ∧
    nwmof tenboard = kindcount tenboard (WHITE ||| MAN) ∧
    blackmaterial tenboard - whitematerial tenboard =
      100 * (kindcount tenboard (BLACK ||| MAN) : Int) +
        130 * (kindcount tenboard (BLACK ||| KING) : Int) -
      100 * (kindcount tenboard (WHITE ||| MAN) : Int) -
        130 * (kindcount tenboard (WHITE ||| KING) : Int) :=
  ⟨by decide!, by decide!, by decide!, by decide!, by decide!,
    (material_decoding tenboard (by decide!) (by decide!) (by decide!) (by decide!)
      (by decide!)).1,
    (material_decoding tenboard (by decide!) (by decide!) (by decide!) (by decide!)
      (by decide!)).2.2.2.2.1⟩

end Checkers
